import Mathlib

/-!
# peterjsons: a recipe interpreter over JSON trees

A shallow embedding of `peterjsons.go`.  The program keeps three JSON trees
(material, recipe, result), studies the recipe into a list of `action`
records and applies each action to the material, writing into the result.

Conventions of the embedding

* A Go `interface{}` holding decoded JSON is a `Json`; the Go `nil` interface
  is `Json.null`.
* A Go `map[string]interface{}` is an association list.  The order of the list
  is the order in which a `range` loop visits the map, so a statement about
  "every iteration order" is a statement about every arrangement of the list.
* A run that ends in a Go panic (failed type assertion, index out of range)
  is `none`; a run that returns is `some _`.
* Go maps are reference values.  The embedding is value-semantic, which
  agrees with the program as long as no write descends through a container
  that was itself copied out of the material or the recipe.  A single-segment
  result path never descends, and a write into an empty result document only
  descends through containers it has just created.
-/

namespace peterjsons

/-! ## JSON trees -/

/-- Decoded JSON as the Go program sees it.  Numbers are `float64` in Go; every
finite `float64` is a rational, and the program never computes with them. -/
inductive Json where
  | null : Json
  | bool (b : Bool) : Json
  | num (n : ℚ) : Json
  | str (s : String) : Json
  | arr (xs : List Json) : Json
  | obj (kvs : List (String × Json)) : Json

instance : Inhabited Json := ⟨Json.null⟩

/-- The comma-ok map read `v, ok := m[k]`: the first binding of `k`. -/
def mapLookup {α : Type} : List (String × α) → String → Option α
  | [], _ => none
  | (k, v) :: rest, key => if k = key then some v else mapLookup rest key

/-- The map write `m[k] = v`: replaces the binding of `k`, or adds one. -/
def mapAssign {α : Type} : List (String × α) → String → α → List (String × α)
  | [], key, v => [(key, v)]
  | (k, w) :: rest, key, v =>
      if k = key then (k, v) :: rest else (k, w) :: mapAssign rest key v

/-- The plain map read `m[k]` on a `map[string]interface{}`: nil when absent. -/
def mapIndex (m : List (String × Json)) (k : String) : Json :=
  (mapLookup m k).getD Json.null

/-- The type assertion `x.(string)`. -/
def asString : Json → Option String
  | Json.str s => some s
  | _ => none

/-- The type assertion `x.(map[string]interface{})`. -/
def asMap : Json → Option (List (String × Json))
  | Json.obj kvs => some kvs
  | _ => none

/-- The type assertion `x.([]interface{})`. -/
def asSlice : Json → Option (List Json)
  | Json.arr xs => some xs
  | _ => none

/-- The test `x != nil` on an interface value. -/
def isNil : Json → Bool
  | Json.null => true
  | _ => false

/-! ## Dotted paths -/

/-- Splitting a character list at every dot, as `strings.Split(s, ".")` does:
the result is never empty, and `""` splits into one empty segment. -/
def splitDots : List Char → List (List Char)
  | [] => [[]]
  | c :: cs =>
      if c = '.' then [] :: splitDots cs
      else
        match splitDots cs with
        | [] => [[c]]
        | seg :: segs => (c :: seg) :: segs

/-- The call `strings.Split(path, ".")`. -/
def splitPath (path : String) : List String :=
  (splitDots path.data).map String.mk

/-! ## The path-addressable tree (package gabs) -/

mutual
/-- Modelled from the spec: the path-addressable tree is the external package
gabs, which is not part of the sources.  `Search` follows a hierarchy of field
names from a node; a missing field gives the nil container (`none`).  When the
walk meets an array before the hierarchy is used up, the rest of the hierarchy
is searched in every element and the hits are collected in an array. -/
def Search : Json → List String → Option Json
  | v, [] => some v
  | Json.obj kvs, k :: rest => searchObj kvs k rest
  | Json.arr xs, k :: rest =>
      match searchArr xs k rest with
      | [] => none
      | ys => some (Json.arr ys)
  | _, _ :: _ => none
/-- The map step of `Search`: find the field, continue below it. -/
def searchObj : List (String × Json) → String → List String → Option Json
  | [], _, _ => none
  | (k', v) :: kvs, k, rest =>
      if k' = k then Search v rest else searchObj kvs k rest
/-- The array step of `Search`: collect the hits of every element. -/
def searchArr : List Json → String → List String → List Json
  | [], _, _ => []
  | x :: xs, k, rest =>
      match Search x (k :: rest) with
      | some y => y :: searchArr xs k rest
      | none => searchArr xs k rest
end

/-- The shorthand `S`, the same as `Search`. -/
def S (g : Json) (hierarchy : List String) : Option Json := Search g hierarchy

/-- Modelled from the spec: read at a dotted path (gabs `Path`). -/
def Path (g : Json) (path : String) : Option Json := Search g (splitPath path)

/-- Modelled from the spec: gabs `Data`, the value held by a container, nil for
the nil container. -/
def Data : Option Json → Json
  | some v => v
  | none => Json.null

/-- Modelled from the spec: gabs `ChildrenMap`, the fields of an object node, an
error (`none`) for any other node. -/
def ChildrenMap (g : Option Json) : Option (List (String × Json)) :=
  asMap (Data g)

/-- Modelled from the spec: the loop of gabs `Set` from a node on.  The last
segment is assigned; an absent or nil intermediate field is created as an empty
object; a node that is not an object is a path collision.  The result is the
node after the writes and whether a collision occurred. -/
def setLoop (value : Json) : List String → Json → Json × Bool
  | [], object => (object, false)
  | [k], Json.obj mmap => (Json.obj (mapAssign mmap k value), false)
  | k :: k2 :: rest, Json.obj mmap =>
      let mmap1 := if isNil (mapIndex mmap k) then mapAssign mmap k (Json.obj []) else mmap
      let r := setLoop value (k2 :: rest) (mapIndex mmap1 k)
      (Json.obj (mapAssign mmap1 k r.1), r.2)
  | _ :: _, object => (object, true)

/-- Modelled from the spec: gabs Set, write at a hierarchy of field names.  An
empty hierarchy replaces the root; a nil root becomes an empty object first. -/
def SetAt (g : Json) (value : Json) (path : List String) : Json × Bool :=
  match path with
  | [] => (value, false)
  | _ :: _ => setLoop value path (if isNil g then Json.obj [] else g)

/-- Modelled from the spec: gabs `SetP`, write at a dotted path.  The program
ignores the returned error, so only the tree after the write is kept. -/
def SetP (g : Json) (value : Json) (path : String) : Json :=
  (SetAt g value (splitPath path)).1

/-- Modelled from the spec: gabs `New`, a container holding an empty object. -/
def gabsNew : Json := Json.obj []

/-! ## Formatting (package fmt) -/

/-- The two uses of `fmt.Sprintf` whose output depends on how Go prints a
value: the verb `%v` applied to a value, and a caller-supplied format applied
to one value.  Go prints a `float64` through its floating-point formatter, so
both are taken as given. -/
structure Fmt where
  verbV : Json → String
  sprintf : String → Json → String

/-- A formatter for concrete runs on strings, nil and booleans, which `%v`
prints as themselves, `<nil>`, `true` and `false`; it is not meant for other
values or for caller-supplied formats. -/
def Fmt.basic : Fmt where
  verbV := fun v =>
    match v with
    | Json.str s => s
    | Json.null => "<nil>"
    | Json.bool true => "true"
    | Json.bool false => "false"
    | _ => ""
  sprintf := fun _ _ => ""

/-! ## Errors and the instance -/

/-- The package's error values. -/
inductive Err where
  | ErrParseMaterial
  | ErrParseRecipe
  | ErrParseRecipeStructure
  | ErrRecipeStudy
  deriving DecidableEq, Repr

/-- The reserved name of the recipe object. -/
def RecipeKey : String := "recipe"
/-- The reserved name of swap actions. -/
def ActionSwap : String := "swap"
/-- The reserved name of concat actions. -/
def ActionConcat : String := "concat"
/-- The reserved name of swap map actions. -/
def ActionSwapMap : String := "swapmap"
/-- The reserved name of value sub actions. -/
def SubActionValue : String := "value"
/-- The reserved name of replace sub actions. -/
def SubActionReplace : String := "replace"

/-- The structure holding the material, the recipe and the result. -/
structure Peterjsons where
  material : Json
  recipe : Json
  result : Json

/-- The constructor `New`; its two arguments are the outcomes of parsing the
material bytes and the recipe bytes (`none` when the bytes are not JSON). -/
def New (material recipe : Option Json) : Except Err Peterjsons :=
  match material with
  | none => Except.error Err.ErrParseMaterial
  | some m =>
      match recipe with
      | none => Except.error Err.ErrParseRecipe
      | some r => Except.ok { material := m, recipe := r, result := gabsNew }

/-! ## The action structure -/

/-- One planned write into the result document. -/
structure action where
  Context : String
  Values : List Json
  Operation : String
  Format : String
  Separator : String
  Replaces : List Json
  Map : List Json

/-- The zero value `action{}`. -/
def action.zero : action :=
  { Context := "", Values := [], Operation := "", Format := "", Separator := "",
    Replaces := [], Map := [] }

/-- The method `setParameter`: routes a value to a field by the name of the
parameter; the string-valued fields assert that the value is a string. -/
def action.setParameter (a : action) (context : String) (value : Json) : Option action :=
  if context = "operation" then
    (asString value).map fun s => { a with Operation := s }
  else if context = "format" then
    (asString value).map fun s => { a with Format := s }
  else if context = "separator" then
    (asString value).map fun s => { a with Separator := s }
  else if context = "context" then
    (asString value).map fun s => { a with Context := s }
  else if context = "values" ∨ context = "value" then
    some { a with Values := a.Values ++ [value] }
  else if context = "replaces" ∨ context = "replace" then
    some { a with Replaces := a.Replaces ++ [value] }
  else if context = "*" ∨ context = "all" then
    some { a with Map := a.Map ++ [value] }
  else some a

/-! ## Studies -/

/-- The study of a string-valued recipe entry. -/
def studyInterfaceRecipe (key : String) (object : Json) (_material : Json) : action :=
  { action.zero with Context := key, Operation := "swap", Replaces := [] ++ [object] }

/-- The study of one control key of an object-valued recipe entry.  The
parameter `material` is the document the entry is looked up in again, at the
path `recipe.<key>`; `auxactions` is the map from outer key to the action under
construction. -/
def studyMapInterfaceAction (key objectIndex : String)
    (auxactions : List (String × action)) (material : Json) :
    Option (List (String × action)) :=
  let objectMap := Data (Path material (RecipeKey ++ "." ++ key))
  let auxactions1 :=
    match mapLookup auxactions key with
    | none => mapAssign auxactions key action.zero
    | some _ => auxactions
  let target := (mapLookup auxactions1 key).getD action.zero
  if objectIndex = "values" then
    (asMap objectMap).bind fun om =>
    (asSlice (mapIndex om objectIndex)).bind fun xs =>
    xs.head?.bind fun first =>
    (target.setParameter objectIndex first).bind fun a1 =>
    (a1.setParameter "context" (Json.str key)).bind fun a2 =>
    some (mapAssign auxactions1 key a2)
  else
    (asMap objectMap).bind fun om =>
    (target.setParameter objectIndex (mapIndex om objectIndex)).bind fun a1 =>
    (a1.setParameter "context" (Json.str key)).bind fun a2 =>
    some (mapAssign auxactions1 key a2)

/-- The loop `for value := range objectType` of `studyMapInterfaceActions`. -/
def studyListValues (mapKey : String) : List Json → action → Option action
  | [], studyAction => some studyAction
  | v :: vs, studyAction =>
      (studyAction.setParameter mapKey v).bind (studyListValues mapKey vs)

/-- The loop `for mapKey := range mapType` of `studyMapInterfaceActions`, over
the keys still to visit. -/
def studyMapKeys (key objectIndex : String) (mapType : List (String × Json)) :
    List (String × Json) → action → Option action
  | [], studyAction => some studyAction
  | (mapKey, _) :: rest, studyAction =>
      let routed :=
        match mapIndex mapType mapKey with
        | Json.arr objectType => studyListValues mapKey objectType studyAction
        | objectType => studyAction.setParameter mapKey objectType
      (routed.bind fun a1 =>
        a1.setParameter "context" (Json.str (key ++ "." ++ objectIndex))).bind
        (studyMapKeys key objectIndex mapType rest)

/-- The study of one nested key of an object-valued recipe entry: the
sub-block is looked up at the path `recipe.<key>.<objectIndex>`. -/
def studyMapInterfaceActions (key objectIndex : String) (actions : List action)
    (material : Json) : Option (List action) :=
  let objectMap := Data (Path material (RecipeKey ++ "." ++ key ++ "." ++ objectIndex))
  match objectMap with
  | Json.obj mapType =>
      (studyMapKeys key objectIndex mapType mapType action.zero).map fun studyAction =>
        actions ++ [studyAction]
  | _ => some (actions ++ [action.zero])

/-- The keys the switch of `studyMapInterfaceRecipe` sends to
`studyMapInterfaceAction`. -/
def isControlKey (objectIndex : String) : Bool :=
  objectIndex = "operation" || objectIndex = "*" || objectIndex = "map" ||
  objectIndex = "values" || objectIndex = "value" || objectIndex = "replace" ||
  objectIndex = "replaces" || objectIndex = "separator" || objectIndex = "format"

/-- The loop `for objectIndex := range object` of `studyMapInterfaceRecipe`. -/
def studyMapInterfaceRecipeLoop (key : String) (material : Json) :
    List (String × Json) → List action → List (String × action) →
    Option (List action × List (String × action))
  | [], actions, auxactions => some (actions, auxactions)
  | (objectIndex, _) :: rest, actions, auxactions =>
      if isControlKey objectIndex then
        (studyMapInterfaceAction key objectIndex auxactions material).bind fun aux1 =>
          studyMapInterfaceRecipeLoop key material rest actions aux1
      else
        (studyMapInterfaceActions key objectIndex actions material).bind fun actions1 =>
          studyMapInterfaceRecipeLoop key material rest actions1 auxactions

/-- The study of an object-valued recipe entry: the nested actions, then the
actions accumulated in `auxactions`. -/
def studyMapInterfaceRecipe (key : String) (object : List (String × Json))
    (material : Json) : Option (List action) :=
  (studyMapInterfaceRecipeLoop key material object [] []).map fun r =>
    r.1 ++ r.2.map Prod.snd

/-- The loop `for key, object := range recipeData` of `study`.  Decoded JSON
never holds a Go `int`, so that case of the type switch is never taken. -/
def studyLoop (peter : Peterjsons) : List (String × Json) → List action → Option (List action)
  | [], actions => some actions
  | (key, object) :: rest, actions =>
      match object with
      | Json.str _ =>
          studyLoop peter rest (actions ++ [studyInterfaceRecipe key object peter.material])
      | Json.obj o =>
          (studyMapInterfaceRecipe key o peter.recipe).bind fun studied =>
            studyLoop peter rest (actions ++ studied)
      | _ => studyLoop peter rest actions

/-- The method `study`: the actions and the error it returns. -/
def Peterjsons.study (peter : Peterjsons) : Option (List action × Option Err) :=
  match ChildrenMap (S peter.recipe [RecipeKey]) with
  | none => some ([], some Err.ErrParseRecipeStructure)
  | some recipeData => (studyLoop peter recipeData []).map fun actions => (actions, none)

/-! ## Actions -/

/-- The loop of `concatAction` over the values still to visit; `value` is the
loop index and `separatedString` the string built so far. -/
def concatLoop (F : Fmt) (a : action) (material : Json) :
    Nat → List Json → String → Option String
  | _, [], separatedString => some separatedString
  | value, v :: rest, separatedString =>
      (asString v).bind fun path =>
        let gatheredvalue := Data (Path material path)
        let s1 := separatedString ++ F.verbV gatheredvalue
        let s2 := if value < a.Values.length - 1 then s1 ++ a.Separator else s1
        concatLoop F a material (value + 1) rest s2

/-- The action `concat`: the result document after the write. -/
def concatAction (F : Fmt) (a : action) (material result : Json) : Option Json :=
  (concatLoop F a material 0 a.Values "").map fun separatedString =>
    SetP result (Json.str separatedString) a.Context

/-- The action `swap` without values: reads the path held in `Replaces[0]`. -/
def swapSingleAction (F : Fmt) (a : action) (material result : Json) : Option Json :=
  a.Replaces.head?.bind fun r0 =>
  (asString r0).bind fun path =>
    let gatheredvalue := Data (Path material path)
    if a.Format ≠ "" then
      some (SetP result (Json.str (F.sprintf a.Format gatheredvalue)) a.Context)
    else
      some (SetP result gatheredvalue a.Context)

/-- The loop of `swapMultipleActions` over the values still to visit; `value`
is the loop index. -/
def swapMultipleLoop (F : Fmt) (a : action) (material : Json) :
    Nat → List Json → Json → Option Json
  | _, [], result => some result
  | value, v :: rest, result =>
      (asString v).bind fun valuePath =>
        let gatheredvalue := Data (Path material valuePath)
        if 0 < a.Replaces.length ∧ a.Format ≠ "" then
          (a.Replaces.get? value).bind fun r =>
            swapMultipleLoop F a material (value + 1) rest
              (SetP result (Json.str (F.sprintf a.Format r)) a.Context)
        else if a.Format ≠ "" then
          swapMultipleLoop F a material (value + 1) rest
            (SetP result (Json.str (F.sprintf a.Format gatheredvalue)) a.Context)
        else if 0 < a.Replaces.length then
          (a.Replaces.get? value).bind fun r =>
            swapMultipleLoop F a material (value + 1) rest (SetP result r a.Context)
        else
          swapMultipleLoop F a material (value + 1) rest (SetP result gatheredvalue a.Context)

/-- The action `swap` with values. -/
def swapMultipleActions (F : Fmt) (a : action) (material result : Json) : Option Json :=
  swapMultipleLoop F a material 0 a.Values result

/-- The action `swap`. -/
def swapAction (F : Fmt) (a : action) (material result : Json) : Option Json :=
  if a.Values.length = 0 then swapSingleAction F a material result
  else swapMultipleActions F a material result

/-- The loop `for mapValueIndex := range action.Map[mapIndex]` of
`swapmapAction`, over the fields of the sub-rule object `rule` still to visit;
`element` is `materialValues[materialIndex]` and `object` the object under
construction. -/
def swapmapFields (rule : List (String × Json)) (element : Json) :
    List (String × Json) → List (String × Json) → Option (List (String × Json))
  | [], object => some object
  | (mapValueIndex, _) :: rest, object =>
      (asMap (mapIndex rule mapValueIndex)).bind fun sub =>
        if !isNil (mapIndex sub SubActionReplace) then
          swapmapFields rule element rest
            (mapAssign object mapValueIndex (mapIndex sub SubActionReplace))
        else if !isNil (mapIndex sub SubActionValue) then
          (asMap element).bind fun e =>
          (asString (mapIndex sub SubActionValue)).bind fun field =>
            swapmapFields rule element rest (mapAssign object mapValueIndex (mapIndex e field))
        else swapmapFields rule element rest object

/-- The loop `for mapIndex := range action.Map` of `swapmapAction` for one
material element: the object after the sub-rules visited, and how many times
it has been appended to `objects` (once at the end of every pass). -/
def swapmapRules (element : Json) :
    List Json → List (String × Json) → Nat → Option (List (String × Json) × Nat)
  | [], object, appended => some (object, appended)
  | m :: rest, object, appended =>
      (asMap m).bind fun rule =>
      (swapmapFields rule element rule object).bind fun object1 =>
        swapmapRules element rest object1 (appended + 1)

/-- The loop `for materialIndex := range materialValues` of `swapmapAction`.
Every pass of the inner loop appends the same Go map `object`, which later
passes keep writing into, so each of its entries in `objects` shows the object
as it is after the last pass. -/
def swapmapElements (a : action) : List Json → List Json → Option (List Json)
  | [], objects => some objects
  | element :: rest, objects =>
      (swapmapRules element a.Map [] 0).bind fun r =>
        swapmapElements a rest (objects ++ List.replicate r.2 (Json.obj r.1))

/-- The loop `for swaps := range action.Values` of `swapmapAction`. -/
def swapmapValues (a : action) (material : Json) : List Json → List Json → Option (List Json)
  | [], objects => some objects
  | v :: rest, objects =>
      (asString v).bind fun path =>
      (asSlice (Data (Path material path))).bind fun materialValues =>
      (swapmapElements a materialValues objects).bind fun objects1 =>
        swapmapValues a material rest objects1

/-- The action `swapmap`: the result document after the single write. -/
def swapmapAction (a : action) (material result : Json) : Option Json :=
  (swapmapValues a material a.Values []).map fun objects =>
    SetP result (Json.arr objects) a.Context

/-- The loop of `apply` over the actions still to run. -/
def applyLoop (F : Fmt) (material : Json) : List action → Json → Option Json
  | [], result => some result
  | a :: rest, result =>
      if a.Operation = ActionSwap then
        (swapAction F a material result).bind (applyLoop F material rest)
      else if a.Operation = ActionConcat then
        (concatAction F a material result).bind (applyLoop F material rest)
      else if a.Operation = ActionSwapMap then
        (swapmapAction a material result).bind (applyLoop F material rest)
      else applyLoop F material rest result

/-- The method `apply`: the instance after the run and the error returned,
which is always nil. -/
def Peterjsons.apply (F : Fmt) (peter : Peterjsons) (actions : List action) :
    Option (Peterjsons × Option Err) :=
  (applyLoop F peter.material actions peter.result).map fun result =>
    ({ peter with result := result }, none)

/-- The method `Cook`: the instance after the run and the error returned. -/
def Peterjsons.Cook (F : Fmt) (peter : Peterjsons) : Option (Peterjsons × Option Err) :=
  match peter.study with
  | none => none
  | some (_, some _) => some (peter, some Err.ErrRecipeStudy)
  | some (studies, none) => peter.apply F studies

/-! ## Vocabulary of the statements -/

/-- The actions `study` builds for a recipe object without object-valued
entries: one swap per string-valued entry, in iteration order. -/
def flatActions (material : Json) (es : List (String × Json)) : List action :=
  es.filterMap fun e =>
    match e.2 with
    | Json.str _ => some (studyInterfaceRecipe e.1 e.2 material)
    | _ => none

/-- The recipe document has a top-level `recipe` key whose value is an object. -/
def hasRecipeObject (recipe : Json) : Prop :=
  ∃ kvs es, recipe = Json.obj kvs ∧ mapLookup kvs RecipeKey = some (Json.obj es)

/-- Strings joined with a separator between consecutive entries and none after
the last. -/
def joinWith (sep : String) : List String → String
  | [] => ""
  | [x] => x
  | x :: y :: rest => x ++ sep ++ joinWith sep (y :: rest)

/-- The stringified material values at a list of paths. -/
def stringified (F : Fmt) (material : Json) (paths : List String) : List String :=
  paths.map fun p => F.verbV (Data (Path material p))

/-- A sub-rule `s` on which `swapmapAction` does not abort: it carries a
non-nil `replace`, or no non-nil `value`, or a string under `value`. -/
def subRuleOk (s : List (String × Json)) : Prop :=
  isNil (mapIndex s SubActionReplace) = false ∨ isNil (mapIndex s SubActionValue) = true
    ∨ ∃ v, mapIndex s SubActionValue = Json.str v

/-- The field `f` of the constructed object `o` is what the sub-rule `s` asks
for on the element `e`: the `replace` literal when `s` carries one, and
otherwise `e[v]` when `s` carries `value` = `v`. -/
def fieldAgrees (e : List (String × Json)) (f : String) (s o : List (String × Json)) : Prop :=
  (isNil (mapIndex s SubActionReplace) = false →
      mapLookup o f = some (mapIndex s SubActionReplace))
  ∧ (isNil (mapIndex s SubActionReplace) = true → ∀ v, mapIndex s SubActionValue = Json.str v →
      mapLookup o f = some (mapIndex e v))

/-- The object `swapmapAction` constructs for the element `e` under a Map
holding the single sub-rule object `rule`. -/
def singleRuleObject (rule e : List (String × Json)) : List (String × Json) :=
  (swapmapFields rule (Json.obj e) rule []).getD []

/-- Every nested (non-control) key `I` of an object-valued entry `K` of the
recipe object leads, at the path `recipe.K.I` of the recipe document, to a
non-empty object. -/
def nestedBlocksNonEmpty (recipe : Json) (recipeData : List (String × Json)) : Prop :=
  ∀ K o, (K, Json.obj o) ∈ recipeData → ∀ I ∈ o.map Prod.fst, isControlKey I = false →
    ∃ x xs, Data (Path recipe (RecipeKey ++ "." ++ K ++ "." ++ I)) = Json.obj (x :: xs)

/-- The value the loop of `swapMultipleActions` writes at index `i`, where the
material path is `p`: the formatted `Replaces[i]` when Replaces is non-empty
and Format is set; else the formatted material value when Format is set; else
the literal `Replaces[i]` when Replaces is non-empty; else the material
value. -/
def chosenValue (F : Fmt) (a : action) (material : Json) (i : Nat) (p : String) : Json :=
  if 0 < a.Replaces.length ∧ a.Format ≠ "" then
    Json.str (F.sprintf a.Format ((a.Replaces.get? i).getD Json.null))
  else if a.Format ≠ "" then
    Json.str (F.sprintf a.Format (Data (Path material p)))
  else if 0 < a.Replaces.length then
    (a.Replaces.get? i).getD Json.null
  else
    Data (Path material p)

/-- The number of nested (non-control) keys of an entry's object. -/
def nestedKeyCount (o : List (String × Json)) : Nat :=
  (o.filter fun e => !isControlKey e.1).length

/-- The number of control keys of an entry's object. -/
def controlKeyCount (o : List (String × Json)) : Nat :=
  (o.filter fun e => isControlKey e.1).length

/-- The entries a stored value contributes in the study of a nested key: the
elements of a list, or the value itself. -/
def entriesOf : Json → List Json
  | Json.arr xs => xs
  | v => [v]

/-- The entries the fields named in `names` contribute, field by field in
iteration order, each list in list order. -/
def collect (names : List String) : List (String × Json) → List Json
  | [] => []
  | (k, v) :: rest => (if k ∈ names then entriesOf v else []) ++ collect names rest

/-- The value `v` can be routed under the parameter name `name`: the
string-valued parameters `operation`, `format`, `separator` and `context` take
a string. -/
def paramOk (name : String) (v : Json) : Prop :=
  name = "operation" ∨ name = "format" ∨ name = "separator" ∨ name = "context" →
    ∃ s, v = Json.str s

/-- Every entry of every field of a nested sub-block can be routed. -/
def blockOk (mapType : List (String × Json)) : Prop :=
  ∀ mapKey ∈ mapType.map Prod.fst, ∀ x ∈ entriesOf (mapIndex mapType mapKey), paramOk mapKey x

/-- The value stored under the control key `idx` of the object `om` can be
routed: a non-empty list under `values`, a routable value under any other
key. -/
def controlKeyOk (om : List (String × Json)) (idx : String) : Prop :=
  (idx = "values" → ∃ first more, mapIndex om "values" = Json.arr (first :: more))
  ∧ (idx ≠ "values" → paramOk idx (mapIndex om idx))

/-- The entry with outer key `key` and keys `o` is well-typed in the recipe
document: the path `recipe.<key>` leads to an object whose control keys can be
routed, and every nested key that leads to an object leads to one whose
fields can be routed. -/
def entryOk (key : String) (o : List (String × Json)) (recipe : Json) : Prop :=
  (∀ idx ∈ o.map Prod.fst, isControlKey idx = true →
      ∃ om, Data (Path recipe (RecipeKey ++ "." ++ key)) = Json.obj om ∧ controlKeyOk om idx)
  ∧ (∀ I ∈ o.map Prod.fst, isControlKey I = false → ∀ mapType,
      Data (Path recipe (RecipeKey ++ "." ++ key ++ "." ++ I)) = Json.obj mapType →
      blockOk mapType)

/-- The study of one control key by structural traversal: as
`studyMapInterfaceAction`, with the entry's own object `objectMap` in place of
the node found at the path `recipe.<key>`. -/
def structuralControlKey (key objectIndex : String) (auxactions : List (String × action))
    (objectMap : Json) : Option (List (String × action)) :=
  let auxactions1 :=
    match mapLookup auxactions key with
    | none => mapAssign auxactions key action.zero
    | some _ => auxactions
  let target := (mapLookup auxactions1 key).getD action.zero
  if objectIndex = "values" then
    (asMap objectMap).bind fun om =>
    (asSlice (mapIndex om objectIndex)).bind fun xs =>
    xs.head?.bind fun first =>
    (target.setParameter objectIndex first).bind fun a1 =>
    (a1.setParameter "context" (Json.str key)).bind fun a2 =>
    some (mapAssign auxactions1 key a2)
  else
    (asMap objectMap).bind fun om =>
    (target.setParameter objectIndex (mapIndex om objectIndex)).bind fun a1 =>
    (a1.setParameter "context" (Json.str key)).bind fun a2 =>
    some (mapAssign auxactions1 key a2)

/-- The study of one nested key by structural traversal: as
`studyMapInterfaceActions`, with the sub-block `objectMap` itself in place of
the node found at the path `recipe.<key>.<objectIndex>`. -/
def structuralNestedKey (key objectIndex : String) (actions : List action)
    (objectMap : Json) : Option (List action) :=
  match objectMap with
  | Json.obj mapType =>
      (studyMapKeys key objectIndex mapType mapType action.zero).map fun studyAction =>
        actions ++ [studyAction]
  | _ => some (actions ++ [action.zero])

/-- The loop over the keys of an entry's object by structural traversal. -/
def structuralEntryLoop (key : String) (object : List (String × Json)) :
    List (String × Json) → List action → List (String × action) →
    Option (List action × List (String × action))
  | [], actions, auxactions => some (actions, auxactions)
  | (objectIndex, sub) :: rest, actions, auxactions =>
      if isControlKey objectIndex then
        (structuralControlKey key objectIndex auxactions (Json.obj object)).bind fun aux1 =>
          structuralEntryLoop key object rest actions aux1
      else
        (structuralNestedKey key objectIndex actions sub).bind fun actions1 =>
          structuralEntryLoop key object rest actions1 auxactions

/-- The study of an object-valued entry by structural traversal. -/
def structuralEntry (key : String) (object : List (String × Json)) : Option (List action) :=
  (structuralEntryLoop key object object [] []).map fun r => r.1 ++ r.2.map Prod.snd

/-- The loop over the entries of the recipe object by structural traversal. -/
def structuralLoop : List (String × Json) → List action → Option (List action)
  | [], actions => some actions
  | (key, object) :: rest, actions =>
      match object with
      | Json.str _ =>
          structuralLoop rest (actions ++ [studyInterfaceRecipe key object Json.null])
      | Json.obj o =>
          (structuralEntry key o).bind fun studied => structuralLoop rest (actions ++ studied)
      | _ => structuralLoop rest actions

/-- The studier of the design notes: a plain structural traversal of the parsed
recipe tree, which never looks a node up again by its dotted path. -/
def studyStructural (recipe : Json) : Option (List action × Option Err) :=
  match ChildrenMap (S recipe [RecipeKey]) with
  | none => some ([], some Err.ErrParseRecipeStructure)
  | some recipeData => (structuralLoop recipeData []).map fun actions => (actions, none)

/-- The keys of the recipe object and of the objects it holds are those of Go
maps (no key twice) and contain no dot. -/
def dotFreeRecipe (es : List (String × Json)) : Prop :=
  (es.map Prod.fst).Nodup
  ∧ ∀ K v, (K, v) ∈ es → '.' ∉ K.data
      ∧ ∀ o, v = Json.obj o → (o.map Prod.fst).Nodup ∧ ∀ I ∈ o.map Prod.fst, '.' ∉ I.data

/-- The value is a JSON number. -/
def isNumber : Json → Bool
  | Json.num _ => true
  | _ => false

/-- The recipe document with every number-valued entry of its `recipe` object
removed; a document without a `recipe` object is left as it is. -/
def withoutNumbers (recipe : Json) : Json :=
  match recipe with
  | Json.obj kvs =>
      match mapLookup kvs RecipeKey with
      | some (Json.obj es) =>
          Json.obj (mapAssign kvs RecipeKey (Json.obj (es.filter fun e => !isNumber e.2)))
      | _ => recipe
  | _ => recipe

/-- The field stored under the control key `idx` of the object `om` is present
in the action `a`, for each of the nine control keys: `operation`, `format`
and `separator` as the action's string fields; the value under `value` and the
first element of the list under `values` among Values; the value under
`replace` or `replaces` among Replaces; the value under `*` or `map` in Map. -/
def fieldRouted (om : List (String × Json)) (idx : String) (a : action) : Prop :=
  (idx = "operation" → mapIndex om idx = Json.str a.Operation)
  ∧ (idx = "format" → mapIndex om idx = Json.str a.Format)
  ∧ (idx = "separator" → mapIndex om idx = Json.str a.Separator)
  ∧ (idx = "value" → mapIndex om idx ∈ a.Values)
  ∧ (idx = "values" → ∃ first more, mapIndex om idx = Json.arr (first :: more) ∧ first ∈ a.Values)
  ∧ (idx = "replace" ∨ idx = "replaces" → mapIndex om idx ∈ a.Replaces)
  ∧ (idx = "*" ∨ idx = "map" → mapIndex om idx ∈ a.Map)

/-! ## Vocabulary of writes and of iteration orders -/

/-- The action is one `apply` writes for: its Operation is one of the three
cases of the switch. -/
def writes (a : action) : Bool :=
  a.Operation = ActionSwap || a.Operation = ActionConcat || a.Operation = ActionSwapMap

/-- Two result paths collide: one is a prefix of the other (equal paths
included). -/
def collide (p q : List String) : Bool :=
  p.isPrefixOf q || q.isPrefixOf p

/-- The path `p` lies strictly below the path `q`: `q` is a proper prefix of
`p`. -/
def below (p q : List String) : Bool :=
  q.isPrefixOf p && p != q

/-- The writes of a list that the document keeps: those whose path does not
lie strictly below the path of another write, which overwrites them or turns
them into a path collision. -/
def effective (ws : List (String × Json)) : List (String × Json) :=
  ws.filter fun x => ws.all fun y => !below (splitPath x.1) (splitPath y.1)

/-- One pass of the loop of `apply`: the case of the switch the action falls
in, or nothing. -/
def applyOne (F : Fmt) (material : Json) (a : action) (result : Json) : Option Json :=
  if a.Operation = ActionSwap then swapAction F a material result
  else if a.Operation = ActionConcat then concatAction F a material result
  else if a.Operation = ActionSwapMap then swapmapAction a material result
  else some result

/-- The value an action leaves at its Context, read back after running the
action on an empty document; `none` when the action aborts. -/
def writtenValue (F : Fmt) (material : Json) (a : action) : Option Json :=
  (applyOne F material a gabsNew).map fun r => Data (Path r a.Context)

/-- The value is a string, a number or a boolean: a write that descends
through it meets a path collision, which the program ignores. -/
def isScalar : Json → Bool
  | Json.str _ => true
  | Json.num _ => true
  | Json.bool _ => true
  | _ => false

/-- The action writes a string, a number or a boolean. -/
def writesScalar (F : Fmt) (material : Json) (a : action) : Bool :=
  match writtenValue F material a with
  | some v => isScalar v
  | none => false

/-- The writes of the actions, in the order `apply` runs them, never descend
into a container written earlier and never meet at one path: of any two
actions that write, the paths are independent, or the path of the earlier one
lies strictly below the path of the later one, which then overwrites it, or
the path of the later one lies strictly below the path of the earlier one and
the earlier one wrote a string, a number or a boolean, so that the later write
is a path collision and is dropped. -/
def orderedWrites (F : Fmt) (material : Json) (actions : List action) : Prop :=
  actions.Pairwise fun a b => writes a = true → writes b = true →
    collide (splitPath a.Context) (splitPath b.Context) = false
      ∨ below (splitPath a.Context) (splitPath b.Context) = true
      ∨ (below (splitPath b.Context) (splitPath a.Context) = true
          ∧ writesScalar F material a = true)

/-- The writes of a list of actions, in order: the Context and the value of
every action that writes; `none` when one of them aborts. -/
def writesOf (F : Fmt) (material : Json) : List action → Option (List (String × Json))
  | [] => some []
  | a :: rest =>
      if writes a then
        (writtenValue F material a).bind fun v =>
          (writesOf F material rest).map fun ws => (a.Context, v) :: ws
      else writesOf F material rest

/-- A list of writes carried out in order. -/
def applyWrites : List (String × Json) → Json → Json
  | [], r => r
  | (c, v) :: rest, r => applyWrites rest (SetP r v c)

/-- Two nodes found at the same path of two documents agree: both are absent,
or both are objects, or they are the same value. -/
def sameNode : Option Json → Option Json → Prop
  | none, none => True
  | some (Json.obj _), some (Json.obj _) => True
  | some v, some w => v = w
  | _, _ => False

/-- Two documents hold the same node at every path: they are the same
document up to the order of the fields of its objects. -/
def sameDocument (r1 r2 : Json) : Prop :=
  ∀ ks, sameNode (Search r1 ks) (Search r2 ks)

/-- The document `r` holds the writes `ws` and nothing else: below the path of
a write lies the written value, above it lie objects, and there is nothing
anywhere else. -/
def holdsWrites (ws : List (String × Json)) (r : Json) : Prop :=
  (∃ m, r = Json.obj m)
  ∧ (∀ c v, (c, v) ∈ ws → ∀ more, Search r (splitPath c ++ more) = Search v more)
  ∧ (∀ ks, (∃ c v, (c, v) ∈ ws ∧ ks <+: splitPath c ∧ ks ≠ splitPath c) →
      ∃ m, Search r ks = some (Json.obj m))
  ∧ (∀ ks, ks ≠ [] → (∀ c v, (c, v) ∈ ws → ¬ splitPath c <+: ks ∧ ¬ ks <+: splitPath c) →
      Search r ks = none)

/-- Every node strictly above the path `q` in `r` is absent or an object, so
that a write at `q` meets no collision. -/
def clearPath (r : Json) (q : List String) : Prop :=
  ∀ ks, ks <+: q → ks ≠ q → Search r ks = none ∨ ∃ m, Search r ks = some (Json.obj m)

/-- The outcome of a loop of writes at one path on a document: abort, no write,
or the one value left at the path. -/
def effectOn (c : String) (o : Option (Option Json)) (result : Json) : Option Json :=
  match o with
  | none => none
  | some none => some result
  | some (some v) => some (SetP result v c)

/-- What one pass of the loop over the fields of a rule object does for the
field `k`: it aborts (`none`), leaves the object under construction as it is
(`some none`), or assigns a value to its field `k`. -/
def ruleStep (rule : List (String × Json)) (element : Json) (k : String) :
    Option (Option Json) :=
  (asMap (mapIndex rule k)).bind fun sub =>
    if !isNil (mapIndex sub SubActionReplace) then some (some (mapIndex sub SubActionReplace))
    else if !isNil (mapIndex sub SubActionValue) then
      (asMap element).bind fun e =>
      (asString (mapIndex sub SubActionValue)).bind fun field => some (some (mapIndex e field))
    else some none

/-- The object under construction after one pass of the loop over the fields
of a rule object, for the field `k`. -/
def assigned (object : List (String × Json)) (k : String) :
    Option Json → List (String × Json)
  | none => object
  | some v => mapAssign object k v

/-- The same rule object of a Map: the same value, or the same object with its
fields in another order. -/
def sameRule (w1 w2 : Json) : Prop :=
  w1 = w2 ∨ ∃ m1 m2, w1 = Json.obj m1 ∧ w2 = Json.obj m2 ∧ m1.Perm m2
    ∧ (m1.map Prod.fst).Nodup

/-- Two objects that hold the same value under every key: the same Go map. -/
def sameObject (x y : Json) : Prop :=
  ∃ o1 o2, x = Json.obj o1 ∧ y = Json.obj o2 ∧ ∀ k, mapLookup o1 k = mapLookup o2 k

/-- Two distinct keys of one object would feed the same list of an action:
`values` and `value` feed Values, `replaces` and `replace` feed Replaces, `*`
and `all` feed Map. -/
def feedsSameList (k1 k2 : String) : Bool :=
  ((k1 = "values" || k1 = "value") && (k2 = "values" || k2 = "value"))
  || ((k1 = "replaces" || k1 = "replace") && (k2 = "replaces" || k2 = "replace"))
  || ((k1 = "*" || k1 = "all") && (k2 = "*" || k2 = "all"))

/-- No two distinct keys of the object feed the same list. -/
def oneKeyPerList (m : List (String × Json)) : Prop :=
  ∀ k1 ∈ m.map Prod.fst, ∀ k2 ∈ m.map Prod.fst, k1 ≠ k2 → feedsSameList k1 k2 = false

/-- The string a loop of string-valued parameters leaves: the last string of
the list, or the default. -/
def lastString (d : String) (xs : List Json) : String :=
  xs.foldl (fun d x => (asString x).getD d) d

/-- The value routed for the control key `idx` of an entry whose object is found
as `om`: the first element of the list under `values`, the stored value under
any other key; `none` when the study aborts on it. -/
def ctlValue (om : Json) (idx : String) : Option Json :=
  if idx = "values" then
    (asMap om).bind fun o => (asSlice (mapIndex o "values")).bind List.head?
  else (asMap om).map fun o => mapIndex o idx

/-- The parameter name is one of the string-valued ones. -/
def needsString (n : String) : Bool :=
  n = "operation" || n = "format" || n = "separator" || n = "context"

/-- The action after a value has been routed to the field its parameter name
selects, when the routing does not abort. -/
def action.routedTo (a : action) (n : String) (v : Json) : action :=
  { Context := if n = "context" then (asString v).getD a.Context else a.Context,
    Values := a.Values ++ (if n = "values" ∨ n = "value" then [v] else []),
    Operation := if n = "operation" then (asString v).getD a.Operation else a.Operation,
    Format := if n = "format" then (asString v).getD a.Format else a.Format,
    Separator := if n = "separator" then (asString v).getD a.Separator else a.Separator,
    Replaces := a.Replaces ++ (if n = "replaces" ∨ n = "replace" then [v] else []),
    Map := a.Map ++ (if n = "*" ∨ n = "all" then [v] else []) }

/-- Two outcomes of the loop over the keys of an entry agree: both abort, or
both give the same control-key action and the same nested actions up to
order. -/
def sameLoop (x y : Option (List action × List (String × action))) : Prop :=
  (x = none ∧ y = none)
  ∨ ∃ a b aux, x = some (a, aux) ∧ y = some (b, aux) ∧ a.Perm b

/-- Two outcomes of a study agree: both abort, or both give the same actions up
to order. -/
def sameActions (x y : Option (List action)) : Prop :=
  (x = none ∧ y = none) ∨ ∃ a b, x = some a ∧ y = some b ∧ a.Perm b

/-- The nodes two recipe documents hold at the path of an entry route the same
value for every control key. -/
def controlAgree (om1 om2 : Json) : Prop :=
  ∀ idx, isControlKey idx = true → ctlValue om1 idx = ctlValue om2 idx

/-- The nodes two recipe documents hold at the path of a nested key are the
same, or the same object in two orders of its fields, with no key twice and no
two keys feeding the same list. -/
def nestedAgree (w1 w2 : Json) : Prop :=
  w1 = w2 ∨ ∃ m1 m2, w1 = Json.obj m1 ∧ w2 = Json.obj m2 ∧ m1.Perm m2
    ∧ (m1.map Prod.fst).Nodup ∧ oneKeyPerList m1

/-- No two distinct control keys of the entry's object feed the same list. -/
def controlKeysFedOnce (o : List (String × Json)) : Prop :=
  ∀ k1 ∈ o.map Prod.fst, ∀ k2 ∈ o.map Prod.fst, isControlKey k1 = true →
    isControlKey k2 = true → k1 ≠ k2 → feedsSameList k1 k2 = false

/-- The same nested sub-block: the same value, or the same object with its
fields in another order. -/
def sameBlock (w1 w2 : Json) : Prop :=
  w1 = w2 ∨ ∃ m1 m2, w1 = Json.obj m1 ∧ w2 = Json.obj m2 ∧ m1.Perm m2

/-- The object `o2` holds the fields of `o1` in another order, the values of
the field `k` being related by `R k`. -/
def sameFields (R : String → Json → Json → Prop) (o1 o2 : List (String × Json)) : Prop :=
  ∃ o, List.Forall₂ (fun a b => a.1 = b.1 ∧ R a.1 a.2 b.2) o1 o ∧ o.Perm o2

/-- The same entry of the recipe object: the same value, or the same object
with its keys in another order, each control key holding the same value and
each nested key the same sub-block. -/
def sameEntry (v1 v2 : Json) : Prop :=
  v1 = v2 ∨ ∃ o1 o2, v1 = Json.obj o1 ∧ v2 = Json.obj o2 ∧
    sameFields (fun k w1 w2 =>
      (isControlKey k = true → w1 = w2) ∧ (isControlKey k = false → sameBlock w1 w2)) o1 o2

/-- The same recipe object in another iteration order: its entries, the keys
of each object-valued entry and the fields of each nested sub-block may be
arranged differently. -/
def sameRecipe (es1 es2 : List (String × Json)) : Prop :=
  sameFields (fun _ v1 v2 => sameEntry v1 v2) es1 es2

/-- The recipe object, its object-valued entries and their nested sub-blocks
are Go maps: none holds a key twice. -/
def keysUnique (es : List (String × Json)) : Prop :=
  (es.map Prod.fst).Nodup
  ∧ ∀ K o, (K, Json.obj o) ∈ es → (o.map Prod.fst).Nodup
      ∧ ∀ I m, (I, Json.obj m) ∈ o → isControlKey I = false → (m.map Prod.fst).Nodup

/-- In no object-valued entry do two control keys feed the same list, and in
no nested sub-block do two keys feed the same list. -/
def listsFedOnce (es : List (String × Json)) : Prop :=
  ∀ K o, (K, Json.obj o) ∈ es → controlKeysFedOnce o
      ∧ ∀ I m, (I, Json.obj m) ∈ o → isControlKey I = false → oneKeyPerList m

/-- The actions `study` appends for one entry of the recipe object; `none`
when the study of the entry aborts. -/
def entryActions (peter : Peterjsons) (e : String × Json) : Option (List action) :=
  match e.2 with
  | Json.str _ => some [studyInterfaceRecipe e.1 e.2 peter.material]
  | Json.obj o => studyMapInterfaceRecipe e.1 o peter.recipe
  | _ => some []

/-! ## Lemmas on maps and paths -/

open Json

theorem splitDots_ne_nil (cs : List Char) : splitDots cs ≠ [] := by
  induction cs with
  | nil => simp [splitDots]
  | cons c cs ih =>
    unfold splitDots
    split
    · simp
    · split <;> simp

theorem splitDots_of_no_dot (cs : List Char) (h : '.' ∉ cs) : splitDots cs = [cs] := by
  induction cs with
  | nil => simp [splitDots]
  | cons c cs ih =>
    have hc : c ≠ '.' := fun e => h (by simp [e])
    have hcs : '.' ∉ cs := fun e => h (by simp [e])
    simp [splitDots, hc, ih hcs]

theorem splitPath_of_no_dot (K : String) (h : '.' ∉ K.data) : splitPath K = [K] := by
  simp [splitPath, splitDots_of_no_dot _ h]

theorem SetP_single (m : List (String × Json)) (v : Json) (K : String) (h : '.' ∉ K.data) :
    SetP (obj m) v K = obj (mapAssign m K v) := by
  simp [SetP, SetAt, splitPath_of_no_dot K h, setLoop, isNil]

theorem mapLookup_mapAssign_self {α : Type} (m : List (String × α)) (k : String) (v : α) :
    mapLookup (mapAssign m k v) k = some v := by
  induction m with
  | nil => simp [mapAssign, mapLookup]
  | cons e m ih =>
    obtain ⟨k', w⟩ := e
    by_cases hk : k' = k
    · simp [mapAssign, mapLookup, hk]
    · simp [mapAssign, mapLookup, hk, ih]

theorem mapLookup_mapAssign_other {α : Type} (m : List (String × α)) (k k' : String) (v : α)
    (h : k' ≠ k) : mapLookup (mapAssign m k v) k' = mapLookup m k' := by
  induction m with
  | nil => simp [mapAssign, mapLookup, Ne.symm h]
  | cons e m ih =>
    obtain ⟨k0, w⟩ := e
    by_cases hk : k0 = k
    · subst hk
      simp [mapAssign, mapLookup, Ne.symm h]
    · by_cases hk2 : k0 = k'
      · subst hk2
        simp [mapAssign, mapLookup, hk]
      · simp [mapAssign, mapLookup, hk, hk2, ih]

theorem mapAssign_of_not_mem {α : Type} (m : List (String × α)) (k : String) (v : α)
    (h : k ∉ m.map Prod.fst) : mapAssign m k v = m ++ [(k, v)] := by
  induction m with
  | nil => simp [mapAssign]
  | cons e m ih =>
    obtain ⟨k0, w⟩ := e
    simp at h
    have h0 : k0 ≠ k := fun e => h.1 e.symm
    have : k ∉ m.map Prod.fst := by simpa using h.2
    simp [mapAssign, h0, ih this]

theorem mapLookup_of_mem {α : Type} (m : List (String × α)) (k : String) (v : α)
    (hnd : (m.map Prod.fst).Nodup) (h : (k, v) ∈ m) : mapLookup m k = some v := by
  induction m with
  | nil => simp at h
  | cons e m ih =>
    obtain ⟨k0, w⟩ := e
    simp at hnd
    rcases List.mem_cons.mp h with h | h
    · cases h
      simp [mapLookup]
    · have hne : k0 ≠ k := by
        intro e
        subst e
        exact hnd.1 _ h
      simp [mapLookup, hne, ih hnd.2 h]

/-! ## Recipes of plain entries -/

theorem studyLoop_flat (peter : Peterjsons) (es : List (String × Json))
    (hflat : ∀ e ∈ es, ∀ o, e.2 ≠ Json.obj o) (acc : List action) :
    studyLoop peter es acc = some (acc ++ flatActions peter.material es) := by
  induction es generalizing acc with
  | nil => simp [studyLoop, flatActions]
  | cons e es ih =>
    obtain ⟨k, v⟩ := e
    have hes : ∀ e ∈ es, ∀ o, e.2 ≠ Json.obj o := fun e he => hflat e (by simp [he])
    have hv : ∀ o, v ≠ Json.obj o := hflat (k, v) (by simp)
    cases v with
    | obj o => exact absurd rfl (hv o)
    | str s => simp [studyLoop, ih hes, flatActions]
    | null => simp [studyLoop, ih hes, flatActions]
    | bool b => simp [studyLoop, ih hes, flatActions]
    | num n => simp [studyLoop, ih hes, flatActions]
    | arr xs => simp [studyLoop, ih hes, flatActions]

theorem Search_nil (v : Json) : Search v [] = some v := by
  cases v <;> simp [Search]

theorem searchObj_eq (kvs : List (String × Json)) (k : String) (rest : List String) :
    searchObj kvs k rest = (mapLookup kvs k).bind fun v => Search v rest := by
  induction kvs with
  | nil => simp [searchObj, mapLookup]
  | cons e kvs ih =>
    obtain ⟨k0, v⟩ := e
    by_cases hk : k0 = k <;> simp [searchObj, mapLookup, hk, ih]

theorem Search_obj_single (kvs : List (String × Json)) (k : String) :
    Search (Json.obj kvs) [k] = mapLookup kvs k := by
  simp only [Search, searchObj_eq]
  cases mapLookup kvs k <;> simp [Search_nil]

/-! ## C1 -/

/-- C1, counterexample.  With material `{"x":"1","y":"2"}` and recipe
`{"recipe":{"a":"x","a.b":"y"}}` the recipe object maps the key `a.b` to the
plain string `y`, yet after `Cook` the result document is `{"a":"1"}` in either
iteration order: the value at path `a.b` is nil, not the material value `"2"`
at path `y`.  And with recipe `{"recipe":{"a":"x","z":{"values":"x"}}}` the
recipe object maps `a` to the plain string `x`, yet `Cook` aborts in the study
of the entry `z` and leaves no result. -/
theorem C1_counterexample :
    Peterjsons.Cook Fmt.basic
        { material := Json.obj [("x", Json.str "1"), ("y", Json.str "2")],
          recipe := Json.obj [("recipe", Json.obj [("a", Json.str "x"), ("a.b", Json.str "y")])],
          result := gabsNew }
      = some ({ material := Json.obj [("x", Json.str "1"), ("y", Json.str "2")],
                recipe := Json.obj [("recipe", Json.obj [("a", Json.str "x"), ("a.b", Json.str "y")])],
                result := Json.obj [("a", Json.str "1")] }, none)
    ∧ Peterjsons.Cook Fmt.basic
        { material := Json.obj [("x", Json.str "1"), ("y", Json.str "2")],
          recipe := Json.obj [("recipe", Json.obj [("a.b", Json.str "y"), ("a", Json.str "x")])],
          result := gabsNew }
      = some ({ material := Json.obj [("x", Json.str "1"), ("y", Json.str "2")],
                recipe := Json.obj [("recipe", Json.obj [("a.b", Json.str "y"), ("a", Json.str "x")])],
                result := Json.obj [("a", Json.str "1")] }, none)
    ∧ Data (Path (Json.obj [("a", Json.str "1")]) "a.b") = Json.null
    ∧ Data (Path (Json.obj [("x", Json.str "1"), ("y", Json.str "2")]) "y") = Json.str "2"
    ∧ Peterjsons.Cook Fmt.basic
        { material := Json.obj [("x", Json.str "1"), ("y", Json.str "2")],
          recipe := Json.obj [("recipe", Json.obj
            [("a", Json.str "x"), ("z", Json.obj [("values", Json.str "x")])])],
          result := gabsNew }
      = none :=
  ⟨rfl, rfl, rfl, rfl, rfl⟩

/-! ## C2 -/

theorem ChildrenMap_recipe (recipe : Json) (es : List (String × Json)) :
    ChildrenMap (S recipe [RecipeKey]) = some es ↔
      ∃ kvs, recipe = Json.obj kvs ∧ mapLookup kvs RecipeKey = some (Json.obj es) := by
  cases recipe with
  | obj kvs =>
    simp only [S, Search_obj_single, ChildrenMap]
    constructor
    · intro h
      refine ⟨kvs, rfl, ?_⟩
      cases hl : mapLookup kvs RecipeKey with
      | none => simp [hl, Data, asMap] at h
      | some v =>
        cases v <;> simp [hl, Data, asMap] at h
        simp [h]
    · rintro ⟨kvs2, h1, h2⟩
      cases h1
      simp [h2, Data, asMap]
  | arr xs =>
    simp only [S, Search, ChildrenMap]
    constructor
    · intro h
      cases hs : searchArr xs RecipeKey [] with
      | nil => simp [hs, Data, asMap] at h
      | cons y ys => simp [hs, Data, asMap] at h
    · rintro ⟨kvs2, h1, _⟩
      cases h1
  | null => simp [S, Search, ChildrenMap, Data, asMap]
  | bool b => simp [S, Search, ChildrenMap, Data, asMap]
  | num n => simp [S, Search, ChildrenMap, Data, asMap]
  | str s => simp [S, Search, ChildrenMap, Data, asMap]

theorem study_error_iff (peter : Peterjsons) :
    (∃ actions e, peter.study = some (actions, some e)) ↔ ¬ hasRecipeObject peter.recipe := by
  unfold Peterjsons.study hasRecipeObject
  cases hc : ChildrenMap (S peter.recipe [RecipeKey]) with
  | none =>
    constructor
    · rintro _ ⟨kvs, es, h1, h2⟩
      have := (ChildrenMap_recipe peter.recipe es).mpr ⟨kvs, h1, h2⟩
      simp [hc] at this
    · intro _
      exact ⟨[], Err.ErrParseRecipeStructure, rfl⟩
  | some es =>
    obtain ⟨kvs, h1, h2⟩ := (ChildrenMap_recipe peter.recipe es).mp hc
    constructor
    · rintro ⟨actions, e, h⟩
      cases hs : studyLoop peter es [] <;> simp [hs] at h
    · intro h
      exact absurd ⟨kvs, es, h1, h2⟩ h

/-- C2.  `Cook` returns `ErrRecipeStudy` exactly when the recipe document has no
top-level `recipe` key or the value under it is not an object; an error
returned by `Cook` is never any other one; `apply` only ever returns nil; and
when `Cook` returns `ErrRecipeStudy` the instance is untouched, so the result
document of a fresh instance is still the empty object. -/
theorem C2_Cook_error (F : Fmt) (peter : Peterjsons) :
    ((∃ p, peter.Cook F = some (p, some Err.ErrRecipeStudy)) ↔ ¬ hasRecipeObject peter.recipe)
    ∧ (∀ p e, peter.Cook F = some (p, some e) → e = Err.ErrRecipeStudy ∧ p = peter)
    ∧ (∀ actions p e, peter.apply F actions = some (p, e) → e = none)
    ∧ (∀ material recipe p,
        Peterjsons.Cook F { material := material, recipe := recipe, result := gabsNew }
          = some (p, some Err.ErrRecipeStudy) → p.result = Json.obj []) := by
  have happly : ∀ (q : Peterjsons) actions p e, q.apply F actions = some (p, e) → e = none := by
    intro q actions p e h
    unfold Peterjsons.apply at h
    cases ha : applyLoop F q.material actions q.result with
    | none => simp [ha] at h
    | some r =>
      simp [ha] at h
      exact h.2.symm
  have hcook : ∀ (q : Peterjsons) p e, q.Cook F = some (p, some e) →
      e = Err.ErrRecipeStudy ∧ p = q ∧ ¬ hasRecipeObject q.recipe := by
    intro q p e h
    unfold Peterjsons.Cook at h
    cases hs : q.study with
    | none => simp [hs] at h
    | some r =>
      obtain ⟨actions, err⟩ := r
      cases err with
      | none =>
        simp only [hs] at h
        exact absurd (happly q actions p (some e) h) (by simp)
      | some e0 =>
        simp [hs] at h
        exact ⟨h.2.symm, h.1.symm, (study_error_iff q).mp ⟨actions, e0, hs⟩⟩
  refine ⟨⟨?_, ?_⟩, ?_, ?_, ?_⟩
  · rintro ⟨p, h⟩
    exact (hcook peter p _ h).2.2
  · intro h
    obtain ⟨actions, e, hs⟩ := (study_error_iff peter).mpr h
    exact ⟨peter, by simp [Peterjsons.Cook, hs]⟩
  · intro p e h
    exact ⟨(hcook peter p e h).1, (hcook peter p e h).2.1⟩
  · exact happly peter
  · intro material recipe p h
    rw [(hcook _ p _ h).2.1]
    rfl

/-- C2, at concrete inputs: the recipe `{"rules":{}}` has no `recipe` key and
the recipe `{"recipe":"name"}` holds a string under it, so `Cook` returns
`ErrRecipeStudy` on both. -/
theorem C2_Cook_error_witness :
    (∃ p, Peterjsons.Cook Fmt.basic
        { material := Json.obj [], recipe := Json.obj [("rules", Json.obj [])], result := gabsNew }
        = some (p, some Err.ErrRecipeStudy))
    ∧ (∃ p, Peterjsons.Cook Fmt.basic
        { material := Json.obj [], recipe := Json.obj [("recipe", Json.str "name")],
          result := gabsNew }
        = some (p, some Err.ErrRecipeStudy)) :=
  ⟨(C2_Cook_error Fmt.basic _).1.mpr (by
      rintro ⟨kvs, es, h1, h2⟩
      cases h1
      simp [mapLookup, RecipeKey] at h2),
   (C2_Cook_error Fmt.basic _).1.mpr (by
      rintro ⟨kvs, es, h1, h2⟩
      cases h1
      simp [mapLookup, RecipeKey] at h2)⟩

/-! ## C3 -/

theorem setLoop_empty_read (v : Json) (path : List String) (hne : path ≠ []) :
    Search (setLoop v path (Json.obj [])).1 path = some v := by
  induction path with
  | nil => exact absurd rfl hne
  | cons k rest ih =>
    cases rest with
    | nil => simp [setLoop, mapAssign, Search, searchObj, Search_nil]
    | cons k2 rest =>
      have ih2 := ih (by simp)
      simp [setLoop, mapIndex, mapLookup, isNil, mapAssign, Search, searchObj]
      simpa using ih2

theorem SetP_empty_read (v : Json) (path : String) :
    Path (SetP gabsNew v path) path = some v := by
  unfold Path SetP SetAt
  have hne : splitPath path ≠ [] := by
    simp [splitPath, splitDots_ne_nil]
  cases hs : splitPath path with
  | nil => exact absurd hs hne
  | cons k rest =>
    simp only [gabsNew, isNil]
    exact setLoop_empty_read v (k :: rest) (by simp)

theorem concatLoop_eq (F : Fmt) (a : action) (material : Json) (ps : List String)
    (value : Nat) (acc : String) (hlen : value + ps.length = a.Values.length) :
    concatLoop F a material value (ps.map Json.str) acc
      = some (acc ++ joinWith a.Separator (stringified F material ps)) := by
  induction ps generalizing value acc with
  | nil => simp [concatLoop, stringified, joinWith]
  | cons p rest ih =>
    cases rest with
    | nil =>
      have hv : ¬ value < a.Values.length - 1 := by
        simp at hlen
        omega
      simp [concatLoop, asString, hv, stringified, joinWith]
    | cons q rest =>
      have hv : value < a.Values.length - 1 := by
        simp at hlen
        omega
      have hlen2 : (value + 1) + (q :: rest).length = a.Values.length := by
        simp at hlen ⊢
        omega
      have := ih (value + 1) (acc ++ F.verbV (Data (Path material p)) ++ a.Separator) hlen2
      rw [List.map_cons, concatLoop]
      simp only [asString, Option.bind, hv, if_true]
      rw [this]
      simp [stringified, joinWith, String.append_assoc]

/-- C3.  For every concat action whose Values are the material paths
`p1..pn` (`n ≥ 0`) and every Separator, `concatAction` returns after one write
to Context of one string: the stringified material values at `p1..pn` joined
with the Separator between consecutive entries and none after the last.  On an
empty result document the value then read at Context is that string. -/
theorem C3_concat_joins (F : Fmt) (a : action) (material result : Json) (ps : List String)
    (h : a.Values = ps.map Json.str) :
    concatAction F a material result
      = some (SetP result
          (Json.str (joinWith a.Separator (stringified F material ps))) a.Context)
    ∧ ∃ r, concatAction F a material gabsNew = some r
        ∧ Data (Path r a.Context)
            = Json.str (joinWith a.Separator (stringified F material ps)) := by
  have hloop : concatLoop F a material 0 a.Values ""
      = some (joinWith a.Separator (stringified F material ps)) := by
    have := concatLoop_eq F a material ps 0 "" (by simp [h])
    rw [h, this]
    simp
  constructor
  · simp [concatAction, hloop]
  · refine ⟨SetP gabsNew (Json.str (joinWith a.Separator (stringified F material ps)))
      a.Context, by simp [concatAction, hloop], ?_⟩
    rw [SetP_empty_read]
    rfl

/-- C3, at a concrete input: Values `[a, b]` and Separator `-` over the material
`{"a":"x","b":"y"}` write the string `x-y`, which is `str(material[a])`, then
`-`, then `str(material[b])`. -/
theorem C3_concat_joins_witness :
    (concatAction Fmt.basic
        { Context := "full", Values := [Json.str "a", Json.str "b"], Operation := "concat",
          Format := "", Separator := "-", Replaces := [], Map := [] }
        (Json.obj [("a", Json.str "x"), ("b", Json.str "y")]) gabsNew
      = some (SetP gabsNew (Json.str "x-y") "full")
    ∧ ∃ r, concatAction Fmt.basic
        { Context := "full", Values := [Json.str "a", Json.str "b"], Operation := "concat",
          Format := "", Separator := "-", Replaces := [], Map := [] }
        (Json.obj [("a", Json.str "x"), ("b", Json.str "y")]) gabsNew = some r
        ∧ Data (Path r "full") = Json.str "x-y")
    ∧ "x-y" = Fmt.basic.verbV (Json.str "x") ++ "-" ++ Fmt.basic.verbV (Json.str "y") :=
  ⟨C3_concat_joins Fmt.basic
      { Context := "full", Values := [Json.str "a", Json.str "b"], Operation := "concat",
        Format := "", Separator := "-", Replaces := [], Map := [] }
      (Json.obj [("a", Json.str "x"), ("b", Json.str "y")]) gabsNew ["a", "b"] rfl,
    by decide⟩

/-! ## C4 -/

theorem mapIndex_mapAssign_self (m : List (String × Json)) (k : String) (v : Json) :
    mapIndex (mapAssign m k v) k = v := by
  simp [mapIndex, mapLookup_mapAssign_self]

theorem mapAssign_mapAssign {α : Type} (m : List (String × α)) (k : String) (v w : α) :
    mapAssign (mapAssign m k v) k w = mapAssign m k w := by
  induction m with
  | nil => simp [mapAssign]
  | cons e m ih =>
    obtain ⟨k0, x⟩ := e
    by_cases hk : k0 = k
    · simp [mapAssign, hk]
    · simp [mapAssign, hk, ih]

theorem setLoop_not_nil (v : Json) (path : List String) (node : Json)
    (h : isNil node = false) : isNil (setLoop v path node).1 = false := by
  cases path with
  | nil => simpa [setLoop] using h
  | cons k rest =>
    cases rest with
    | nil => cases node <;> simp_all [setLoop, isNil]
    | cons k2 rest => cases node <;> simp_all [setLoop, isNil]

theorem setLoop_overwrite (v1 v2 : Json) (path : List String) (node : Json) :
    (setLoop v2 path (setLoop v1 path node).1).1 = (setLoop v2 path node).1 := by
  induction path generalizing node with
  | nil => simp [setLoop]
  | cons k rest ih =>
    cases rest with
    | nil => cases node <;> simp [setLoop, mapAssign_mapAssign]
    | cons k2 rest =>
      cases node with
      | obj m =>
        simp only [setLoop]
        generalize hm1 : (if isNil (mapIndex m k) = true then mapAssign m k (Json.obj []) else m)
          = m1
        have hchild : isNil (mapIndex m1 k) = false := by
          rw [← hm1]
          by_cases hn : isNil (mapIndex m k) = true
          · rw [if_pos hn, mapIndex_mapAssign_self]
            rfl
          · rw [if_neg hn]
            exact (Bool.not_eq_true _).mp hn
        have hr1 := setLoop_not_nil v1 (k2 :: rest) (mapIndex m1 k) hchild
        simp [mapIndex_mapAssign_self, hr1, mapAssign_mapAssign, ih]
      | null => simp [setLoop]
      | bool b => simp [setLoop]
      | num n => simp [setLoop]
      | str s => simp [setLoop]
      | arr xs => simp [setLoop]

theorem SetP_overwrite (r v1 v2 : Json) (c : String) :
    SetP (SetP r v1 c) v2 c = SetP r v2 c := by
  unfold SetP SetAt
  have hne : splitPath c ≠ [] := by simp [splitPath, splitDots_ne_nil]
  cases hs : splitPath c with
  | nil => exact absurd hs hne
  | cons k rest =>
    simp only
    have h0 : isNil (if isNil r = true then Json.obj [] else r) = false := by
      by_cases hn : isNil r = true
      · rw [if_pos hn]
        rfl
      · rw [if_neg hn]
        exact (Bool.not_eq_true _).mp hn
    have h1 := setLoop_not_nil v1 (k :: rest) _ h0
    simp [h1, setLoop_overwrite]

theorem swapMultipleLoop_plain (F : Fmt) (a : action) (material : Json)
    (hf : a.Format = "") (hr : a.Replaces = []) (ps : List String) (hne : ps ≠ [])
    (value : Nat) (result : Json) :
    swapMultipleLoop F a material value (ps.map Json.str) result
      = some (SetP result (Data (Path material (ps.getLast hne))) a.Context) := by
  induction ps generalizing value result with
  | nil => exact absurd rfl hne
  | cons p rest ih =>
    rw [List.map_cons, swapMultipleLoop]
    simp only [asString, Option.bind, hf, hr]
    cases rest with
    | nil => simp [swapMultipleLoop]
    | cons q rest =>
      have := ih (by simp) (value + 1) (SetP result (Data (Path material p)) a.Context)
      rw [List.map_cons] at this
      simp [this, SetP_overwrite]

/-- C4.  For every swap action with a non-empty list Values of material paths,
empty Format and empty Replaces, applied to an empty result document, the run
returns the document a single write of the material value at the last path
gives, so the earlier entries of Values have no effect on it, and the value
read at Context is the material value at the last path. -/
theorem C4_swap_keeps_last_value (F : Fmt) (a : action) (material : Json) (ps : List String)
    (hne : ps ≠ []) (hv : a.Values = ps.map Json.str) (hf : a.Format = "")
    (hr : a.Replaces = []) :
    swapAction F a material gabsNew
      = some (SetP gabsNew (Data (Path material (ps.getLast hne))) a.Context)
    ∧ swapMultipleActions F a material gabsNew
      = some (SetP gabsNew (Data (Path material (ps.getLast hne))) a.Context)
    ∧ Data (Path (SetP gabsNew (Data (Path material (ps.getLast hne))) a.Context) a.Context)
      = Data (Path material (ps.getLast hne)) := by
  have hmul : swapMultipleActions F a material gabsNew
      = some (SetP gabsNew (Data (Path material (ps.getLast hne))) a.Context) := by
    rw [swapMultipleActions, hv]
    exact swapMultipleLoop_plain F a material hf hr ps hne 0 gabsNew
  have hlen : a.Values.length ≠ 0 := by
    rw [hv]
    cases ps with
    | nil => exact absurd rfl hne
    | cons p rest => simp
  refine ⟨?_, hmul, ?_⟩
  · rw [swapAction, if_neg hlen, hmul]
  · rw [SetP_empty_read]
    rfl

/-- C4, at a concrete input: Values `[first, second]` over the material
`{"first":"1","second":"2"}` leave `{"out":"2"}`. -/
theorem C4_swap_keeps_last_value_witness :
    swapAction Fmt.basic
        { Context := "out", Values := [Json.str "first", Json.str "second"],
          Operation := "swap", Format := "", Separator := "", Replaces := [], Map := [] }
        (Json.obj [("first", Json.str "1"), ("second", Json.str "2")]) gabsNew
      = some (Json.obj [("out", Json.str "2")]) :=
  (C4_swap_keeps_last_value Fmt.basic
    { Context := "out", Values := [Json.str "first", Json.str "second"],
      Operation := "swap", Format := "", Separator := "", Replaces := [], Map := [] }
    (Json.obj [("first", Json.str "1"), ("second", Json.str "2")]) ["first", "second"]
    (by simp) rfl rfl rfl).1

/-! ## C5 and C6 -/

theorem swapmapFields_spec (rule e : List (String × Json))
    (hnd : (rule.map Prod.fst).Nodup)
    (hrule : ∀ f sub, (f, sub) ∈ rule → ∃ s, sub = Json.obj s ∧ subRuleOk s)
    (todo : List (String × Json)) (acc : List (String × Json))
    (htodo : (todo.map Prod.fst).Nodup) (hsub : ∀ x ∈ todo, x ∈ rule) :
    ∃ o, swapmapFields rule (Json.obj e) todo acc = some o
      ∧ (∀ g, g ∉ todo.map Prod.fst → mapLookup o g = mapLookup acc g)
      ∧ (∀ f s, (f, Json.obj s) ∈ todo → fieldAgrees e f s o)
      ∧ (∀ g, mapLookup o g ≠ none → mapLookup acc g ≠ none ∨ g ∈ todo.map Prod.fst) := by
  induction todo generalizing acc with
  | nil =>
    exact ⟨acc, by simp [swapmapFields], by simp, by simp, fun g hg => Or.inl hg⟩
  | cons x rest ih =>
    obtain ⟨f, sub0⟩ := x
    have hnd2 : (rest.map Prod.fst).Nodup := (List.nodup_cons.mp (by simpa using htodo)).2
    have hf : f ∉ rest.map Prod.fst := (List.nodup_cons.mp (by simpa using htodo)).1
    have hsub2 : ∀ x ∈ rest, x ∈ rule := fun x hx => hsub x (by simp [hx])
    have hmem : (f, sub0) ∈ rule := hsub _ (by simp)
    obtain ⟨s, hs, hok⟩ := hrule f sub0 hmem
    subst hs
    have hidx : mapIndex rule f = Json.obj s := by
      simp [mapIndex, mapLookup_of_mem rule f _ hnd hmem]
    -- the object after this field, in each of the three cases
    have key : ∃ acc1, swapmapFields rule (Json.obj e) ((f, Json.obj s) :: rest) acc
          = swapmapFields rule (Json.obj e) rest acc1
        ∧ (∀ g, g ≠ f → mapLookup acc1 g = mapLookup acc g)
        ∧ fieldAgrees e f s acc1
        ∧ (mapLookup acc1 f ≠ mapLookup acc f → True) := by
      by_cases hrep : isNil (mapIndex s SubActionReplace) = true
      · by_cases hval : isNil (mapIndex s SubActionValue) = true
        · refine ⟨acc, ?_, fun _ _ => rfl, ⟨?_, ?_⟩, fun _ => trivial⟩
          · rw [swapmapFields]
            simp [hidx, asMap, hrep, hval]
          · intro h
            simp [hrep] at h
          · intro _ v hv
            rw [hv] at hval
            simp [isNil] at hval
        · have hstr : ∃ v, mapIndex s SubActionValue = Json.str v := by
            rcases hok with h | h | h
            · simp [hrep] at h
            · exact absurd h hval
            · exact h
          obtain ⟨v, hv⟩ := hstr
          refine ⟨mapAssign acc f (mapIndex e v), ?_,
            fun g hg => mapLookup_mapAssign_other _ _ _ _ hg, ⟨?_, ?_⟩, fun _ => trivial⟩
          · have hsv : isNil (Json.str v) = false := rfl
            rw [swapmapFields]
            simp [hidx, asMap, hrep, hv, asString, hsv]
          · intro h
            simp [hrep] at h
          · intro _ w hw
            rw [hv] at hw
            cases hw
            exact mapLookup_mapAssign_self _ _ _
      · refine ⟨mapAssign acc f (mapIndex s SubActionReplace), ?_,
          fun g hg => mapLookup_mapAssign_other _ _ _ _ hg, ⟨?_, ?_⟩, fun _ => trivial⟩
        · rw [swapmapFields]
          simp [hidx, asMap, hrep]
        · intro _
          exact mapLookup_mapAssign_self _ _ _
        · intro h
          exact absurd h hrep
    obtain ⟨acc1, hstep, hother, hagree, _⟩ := key
    obtain ⟨o, ho, hkeep, hfields, hdom⟩ := ih acc1 hnd2 hsub2
    refine ⟨o, by rw [hstep, ho], ?_, ?_, ?_⟩
    · intro g hg
      simp at hg
      rw [hkeep g (by simpa using hg.2), hother g hg.1]
    · intro f2 s2 hmem2
      rcases List.mem_cons.mp hmem2 with h | h
      · cases h
        have hk := hkeep f hf
        unfold fieldAgrees at hagree ⊢
        rw [hk]
        exact hagree
      · exact hfields f2 s2 h
    · intro g hg
      by_cases hgf : g = f
      · right
        simp [hgf]
      · rcases hdom g hg with h | h
        · left
          rwa [hother g hgf] at h
        · right
          simp [h]

theorem swapmapElements_single (a : action) (rule : List (String × Json))
    (hm : a.Map = [Json.obj rule])
    (hnd : (rule.map Prod.fst).Nodup)
    (hrule : ∀ f sub, (f, sub) ∈ rule → ∃ s, sub = Json.obj s ∧ subRuleOk s)
    (elems : List (List (String × Json))) (objects : List Json) :
    swapmapElements a (elems.map Json.obj) objects
      = some (objects ++ (elems.map (singleRuleObject rule)).map Json.obj) := by
  induction elems generalizing objects with
  | nil => simp [swapmapElements]
  | cons e rest ih =>
    obtain ⟨o, ho, _⟩ := swapmapFields_spec rule e hnd hrule rule [] hnd (fun x hx => hx)
    have hrules : swapmapRules (Json.obj e) a.Map [] 0 = some (o, 1) := by
      rw [hm]
      simp [swapmapRules, asMap, ho]
    have hobj : singleRuleObject rule e = o := by simp [singleRuleObject, ho]
    rw [List.map_cons, swapmapElements, hrules]
    simp only [Option.bind]
    rw [ih]
    simp [hobj, List.replicate]

/-- C6.  For every swapmap action with a one-entry Map `[rule]` over the
material array of `N` object elements at its single Values path, the action
returns after writing to Context a list of `N` objects in source array order
in which, for each target field `f` of the sub-rule object, the `i`-th object
has `f` equal to the sub-rule's `replace` literal when it carries one (a
non-nil value under `replace`) and otherwise to `element_i[v]` when it carries
`value` = `v`, and has no field outside the sub-rule object; in particular
the Map `[{"id": {"value": "id"}}]` yields `[{"id": element_1.id}, ...,
{"id": element_N.id}]`. -/
theorem C6_swapmap_single_rule (a : action) (material result : Json) (p : String)
    (rule : List (String × Json)) (elems : List (List (String × Json)))
    (hv : a.Values = [Json.str p]) (hm : a.Map = [Json.obj rule])
    (harr : Data (Path material p) = Json.arr (elems.map Json.obj))
    (hnd : (rule.map Prod.fst).Nodup)
    (hrule : ∀ f sub, (f, sub) ∈ rule → ∃ s, sub = Json.obj s ∧ subRuleOk s) :
    ∃ objs : List (List (String × Json)),
      swapmapAction a material result
        = some (SetP result (Json.arr (objs.map Json.obj)) a.Context)
      ∧ objs.length = elems.length
      ∧ List.Forall₂
          (fun e o => (∀ f s, (f, Json.obj s) ∈ rule → fieldAgrees e f s o)
            ∧ ∀ g, mapLookup o g ≠ none → g ∈ rule.map Prod.fst)
          elems objs
      ∧ (rule = [("id", Json.obj [("value", Json.str "id")])] →
          objs = elems.map fun e => [("id", mapIndex e "id")]) := by
  refine ⟨elems.map (singleRuleObject rule), ?_, by simp, ?_, ?_⟩
  · rw [swapmapAction, hv]
    simp only [swapmapValues, asString, Option.bind, harr, asSlice]
    rw [swapmapElements_single a rule hm hnd hrule elems []]
    simp
  · rw [List.forall₂_map_right_iff]
    apply List.forall₂_same.mpr
    intro e _
    obtain ⟨o, ho, _, hfields, hdom⟩ :=
      swapmapFields_spec rule e hnd hrule rule [] hnd (fun x hx => hx)
    have hobj : singleRuleObject rule e = o := by simp [singleRuleObject, ho]
    rw [hobj]
    refine ⟨hfields, ?_⟩
    intro g hg
    rcases hdom g hg with h | h
    · simp [mapLookup] at h
    · exact h
  · intro hr
    subst hr
    apply List.map_congr_left
    intro e _
    simp [singleRuleObject, swapmapFields, mapIndex, mapLookup, asMap, SubActionReplace,
      SubActionValue, isNil, asString, mapAssign]

/-- C6, at a concrete input: the Map `[{"id": {"value": "id"}}]` over the
material `{"items":[{"id":"1","n":"a"},{"id":"2","n":"b"}]}` writes
`[{"id":"1"},{"id":"2"}]`. -/
theorem C6_swapmap_single_rule_witness :
    swapmapAction
        { Context := "out", Values := [Json.str "items"], Operation := "swapmap", Format := "",
          Separator := "", Replaces := [],
          Map := [Json.obj [("id", Json.obj [("value", Json.str "id")])]] }
        (Json.obj [("items", Json.arr
          [Json.obj [("id", Json.str "1"), ("n", Json.str "a")],
           Json.obj [("id", Json.str "2"), ("n", Json.str "b")]])])
        gabsNew
      = some (Json.obj [("out", Json.arr
          [Json.obj [("id", Json.str "1")], Json.obj [("id", Json.str "2")]])]) := by
  obtain ⟨objs, h1, _, _, h4⟩ := C6_swapmap_single_rule
    { Context := "out", Values := [Json.str "items"], Operation := "swapmap", Format := "",
      Separator := "", Replaces := [],
      Map := [Json.obj [("id", Json.obj [("value", Json.str "id")])]] }
    (Json.obj [("items", Json.arr
      [Json.obj [("id", Json.str "1"), ("n", Json.str "a")],
       Json.obj [("id", Json.str "2"), ("n", Json.str "b")]])])
    gabsNew "items" [("id", Json.obj [("value", Json.str "id")])]
    [[("id", Json.str "1"), ("n", Json.str "a")], [("id", Json.str "2"), ("n", Json.str "b")]]
    rfl rfl rfl (by decide)
    (by
      intro f sub h
      simp at h
      obtain ⟨_, h2⟩ := h
      subst h2
      exact ⟨_, rfl, Or.inr (Or.inr ⟨"id", rfl⟩)⟩)
  rw [h1, h4 rfl]
  rfl

theorem swapmapRules_count (element : Json) (rules : List Json) (object : List (String × Json))
    (n : Nat) (o : List (String × Json)) (m : Nat)
    (h : swapmapRules element rules object n = some (o, m)) : m = n + rules.length := by
  induction rules generalizing object n with
  | nil =>
    simp [swapmapRules] at h
    simp [h.2]
  | cons r rest ih =>
    rw [swapmapRules] at h
    cases hr : asMap r with
    | none => simp [hr] at h
    | some rule =>
      cases hf : swapmapFields rule element rule object with
      | none => simp [hr, hf] at h
      | some o1 =>
        simp [hr, hf] at h
        have := ih o1 (n + 1) h
        simp [this]
        omega

theorem swapmapElements_length (a : action) (elems objects out : List Json)
    (h : swapmapElements a elems objects = some out) :
    out.length = objects.length + a.Map.length * elems.length := by
  induction elems generalizing objects with
  | nil =>
    simp [swapmapElements] at h
    simp [← h]
  | cons e rest ih =>
    rw [swapmapElements] at h
    cases hr : swapmapRules e a.Map [] 0 with
    | none => simp [hr] at h
    | some r =>
      obtain ⟨o, m⟩ := r
      have hm := swapmapRules_count e a.Map [] 0 o m hr
      simp [hr] at h
      have := ih _ h
      rw [this]
      simp [hm]
      ring

/-- What `swapmapAction` does for any Map and any arrays: when it returns, the
list it has built holds, for every element of the material arrays, one entry
per entry of Map. -/
theorem swapmapValues_length (a : action) (material : Json) (paths : List String)
    (objects out : List Json)
    (h : swapmapValues a material (paths.map Json.str) objects = some out) :
    out.length = objects.length + a.Map.length *
      (paths.map fun p => ((asSlice (Data (Path material p))).getD []).length).sum := by
  induction paths generalizing objects with
  | nil =>
    simp [swapmapValues] at h
    simp [← h]
  | cons p rest ih =>
    rw [List.map_cons, swapmapValues] at h
    simp only [asString, Option.bind] at h
    cases hs : asSlice (Data (Path material p)) with
    | none => simp [hs] at h
    | some xs =>
      cases he : swapmapElements a xs objects with
      | none => simp [hs, he] at h
      | some objects1 =>
        simp [hs, he] at h
        have h1 := swapmapElements_length a xs objects objects1 he
        have h2 := ih objects1 h
        rw [h2, h1]
        simp [hs]
        ring

/-- C5, the code at a failing input.  The recipe
`{"recipe":{"k":{"out":{"operation":"swapmap","values":"items","*":[{"id":{"value":"id"}},{"tag":{"replace":"t"}}]}}}}`
studies into one swapmap action with two Map entries; over the material
`{"items":[{"id":"1"}]}`, whose array has one element, `Cook` writes a list of
two objects. -/
theorem C5_swapmap_appends_per_map_entry :
    (Peterjsons.Cook Fmt.basic
        { material := Json.obj [("items", Json.arr [Json.obj [("id", Json.str "1")]])],
          recipe := Json.obj [("recipe", Json.obj [("k", Json.obj [("out", Json.obj
            [("operation", Json.str "swapmap"), ("values", Json.str "items"),
             ("*", Json.arr [Json.obj [("id", Json.obj [("value", Json.str "id")])],
                             Json.obj [("tag", Json.obj [("replace", Json.str "t")])]])])])])],
          result := gabsNew }).map (fun r => r.1.result)
      = some (Json.obj [("k", Json.obj [("out", Json.arr
          [Json.obj [("id", Json.str "1"), ("tag", Json.str "t")],
           Json.obj [("id", Json.str "1"), ("tag", Json.str "t")]])])]) := by
  rfl

/-! ## C7 and C8 -/

theorem studyMapInterfaceAction_value (key objectIndex : String)
    (aux : List (String × action)) (recipe : Json) (om : List (String × Json))
    (hpath : Data (Path recipe (RecipeKey ++ "." ++ key)) = Json.obj om)
    (hidx : objectIndex ≠ "values") :
    studyMapInterfaceAction key objectIndex aux recipe
      = (((mapLookup aux key).getD action.zero).setParameter objectIndex
            (mapIndex om objectIndex)).bind fun a1 =>
          some (mapAssign aux key { a1 with Context := key }) := by
  unfold studyMapInterfaceAction
  simp only [hpath, if_neg hidx, asMap, Option.bind]
  cases hl : mapLookup aux key with
  | none =>
    simp only [mapLookup_mapAssign_self, Option.getD]
    cases action.zero.setParameter objectIndex (mapIndex om objectIndex) with
    | none => rfl
    | some a1 => simp [action.setParameter, asString, mapAssign_mapAssign]
  | some t =>
    simp only [hl, Option.getD]
    cases t.setParameter objectIndex (mapIndex om objectIndex) with
    | none => rfl
    | some a1 => simp [action.setParameter, asString]

theorem studyMapInterfaceAction_values (key : String)
    (aux : List (String × action)) (recipe : Json) (om : List (String × Json))
    (hpath : Data (Path recipe (RecipeKey ++ "." ++ key)) = Json.obj om) :
    studyMapInterfaceAction key "values" aux recipe
      = (asSlice (mapIndex om "values")).bind fun xs => xs.head?.bind fun first =>
          some (mapAssign aux key
            { (mapLookup aux key).getD action.zero with
              Values := ((mapLookup aux key).getD action.zero).Values ++ [first],
              Context := key }) := by
  unfold studyMapInterfaceAction
  simp only [hpath, if_pos, asMap, Option.bind]
  cases asSlice (mapIndex om "values") with
  | none => rfl
  | some xs =>
    cases xs with
    | nil => rfl
    | cons first more =>
      cases hl : mapLookup aux key with
      | none =>
        simp [mapLookup_mapAssign_self, action.setParameter, asString, mapAssign_mapAssign]
      | some t => simp [hl, action.setParameter, asString]

/-- C7, counterexample.  Under the control key `value` a stored list is appended
whole: the recipe `{"recipe":{"k":{"value":["a","b"]}}}` studies into an action
whose Values hold the one entry `["a","b"]`, not its first element `"a"`.  Under
the control key `values` a stored value that is not a list is not appended:
on the recipe `{"recipe":{"k":{"values":"a"}}}` the study aborts. -/
theorem C7_counterexample :
    Peterjsons.study
        { material := Json.obj [],
          recipe := Json.obj [("recipe", Json.obj [("k", Json.obj
            [("value", Json.arr [Json.str "a", Json.str "b"])])])],
          result := gabsNew }
      = some ([{ Context := "k", Values := [Json.arr [Json.str "a", Json.str "b"]],
                 Operation := "", Format := "", Separator := "", Replaces := [], Map := [] }],
              none)
    ∧ Peterjsons.study
        { material := Json.obj [],
          recipe := Json.obj [("recipe", Json.obj [("k", Json.obj
            [("values", Json.str "a")])])],
          result := gabsNew }
      = none :=
  ⟨rfl, rfl⟩

/-- C7, amended.  For every outer key `K` whose path `recipe.K` leads, in the
recipe document, to an object (the entry itself when `K` has no dot): the
control key `value` appends exactly one entry to the Values of the action with
Context `K`, the stored value itself, list or not; the control key `values`
appends exactly one entry, the first element of the stored value, when the
stored value is a non-empty list, and the study aborts when it is not. -/
theorem C7_value_and_values (key : String) (aux : List (String × action)) (recipe : Json)
    (om : List (String × Json))
    (hpath : Data (Path recipe (RecipeKey ++ "." ++ key)) = Json.obj om) :
    studyMapInterfaceAction key "value" aux recipe
      = some (mapAssign aux key
          { (mapLookup aux key).getD action.zero with
            Values := ((mapLookup aux key).getD action.zero).Values ++ [mapIndex om "value"],
            Context := key })
    ∧ (∀ first more, mapIndex om "values" = Json.arr (first :: more) →
        studyMapInterfaceAction key "values" aux recipe
          = some (mapAssign aux key
              { (mapLookup aux key).getD action.zero with
                Values := ((mapLookup aux key).getD action.zero).Values ++ [first],
                Context := key }))
    ∧ ((∀ first more, mapIndex om "values" ≠ Json.arr (first :: more)) →
        studyMapInterfaceAction key "values" aux recipe = none) := by
  refine ⟨?_, ?_, ?_⟩
  · rw [studyMapInterfaceAction_value key "value" aux recipe om hpath (by decide)]
    simp [action.setParameter]
  · intro first more h
    rw [studyMapInterfaceAction_values key aux recipe om hpath, h]
    simp [asSlice]
  · intro h
    rw [studyMapInterfaceAction_values key aux recipe om hpath]
    cases hv : mapIndex om "values" with
    | arr xs =>
      cases xs with
      | nil => simp [asSlice]
      | cons first more => exact absurd hv (h first more)
    | null => simp [asSlice]
    | bool b => simp [asSlice]
    | num n => simp [asSlice]
    | str s => simp [asSlice]
    | obj o => simp [asSlice]

/-- C7, at a concrete input: in the recipe
`{"recipe":{"k":{"values":["a","b"],"value":["c"]}}}` the key `values` appends
`"a"` and the key `value` appends the list `["c"]`. -/
theorem C7_value_and_values_witness :
    studyMapInterfaceAction "k" "value" []
        (Json.obj [("recipe", Json.obj [("k", Json.obj
          [("values", Json.arr [Json.str "a", Json.str "b"]),
           ("value", Json.arr [Json.str "c"])])])])
      = some [("k", { Context := "k", Values := [Json.arr [Json.str "c"]], Operation := "",
                      Format := "", Separator := "", Replaces := [], Map := [] })]
    ∧ studyMapInterfaceAction "k" "values" []
        (Json.obj [("recipe", Json.obj [("k", Json.obj
          [("values", Json.arr [Json.str "a", Json.str "b"]),
           ("value", Json.arr [Json.str "c"])])])])
      = some [("k", { Context := "k", Values := [Json.str "a"], Operation := "",
                      Format := "", Separator := "", Replaces := [], Map := [] })] :=
  ⟨(C7_value_and_values "k" []
      (Json.obj [("recipe", Json.obj [("k", Json.obj
        [("values", Json.arr [Json.str "a", Json.str "b"]),
         ("value", Json.arr [Json.str "c"])])])])
      [("values", Json.arr [Json.str "a", Json.str "b"]), ("value", Json.arr [Json.str "c"])]
      rfl).1,
   (C7_value_and_values "k" []
      (Json.obj [("recipe", Json.obj [("k", Json.obj
        [("values", Json.arr [Json.str "a", Json.str "b"]),
         ("value", Json.arr [Json.str "c"])])])])
      [("values", Json.arr [Json.str "a", Json.str "b"]), ("value", Json.arr [Json.str "c"])]
      rfl).2.1 (Json.str "a") [Json.str "b"] rfl⟩

/-- C8, the code at a failing input.  Over the material
`{"items":[{"id":"1"}]}`, the recipe
`{"recipe":{"out":{"operation":"swapmap","values":["items"],"map":{"id":{"value":"id"}}}}}`
studies into an action whose Map is empty, so `Cook` writes the empty list;
the same recipe with the key `*` in place of `map` studies into an action
whose Map holds the stored value, and `Cook` writes `[{"id":"1"}]`. -/
theorem C8_map_key_is_not_routed :
    (Peterjsons.study
        { material := Json.obj [("items", Json.arr [Json.obj [("id", Json.str "1")]])],
          recipe := Json.obj [("recipe", Json.obj [("out", Json.obj
            [("operation", Json.str "swapmap"), ("values", Json.arr [Json.str "items"]),
             ("map", Json.obj [("id", Json.obj [("value", Json.str "id")])])])])],
          result := gabsNew }
      = some ([{ Context := "out", Values := [Json.str "items"], Operation := "swapmap",
                 Format := "", Separator := "", Replaces := [], Map := [] }], none))
    ∧ ((Peterjsons.Cook Fmt.basic
        { material := Json.obj [("items", Json.arr [Json.obj [("id", Json.str "1")]])],
          recipe := Json.obj [("recipe", Json.obj [("out", Json.obj
            [("operation", Json.str "swapmap"), ("values", Json.arr [Json.str "items"]),
             ("map", Json.obj [("id", Json.obj [("value", Json.str "id")])])])])],
          result := gabsNew }).map (fun r => r.1.result)
      = some (Json.obj [("out", Json.arr [])]))
    ∧ (Peterjsons.study
        { material := Json.obj [("items", Json.arr [Json.obj [("id", Json.str "1")]])],
          recipe := Json.obj [("recipe", Json.obj [("out", Json.obj
            [("operation", Json.str "swapmap"), ("values", Json.arr [Json.str "items"]),
             ("*", Json.obj [("id", Json.obj [("value", Json.str "id")])])])])],
          result := gabsNew }
      = some ([{ Context := "out", Values := [Json.str "items"], Operation := "swapmap",
                 Format := "", Separator := "", Replaces := [],
                 Map := [Json.obj [("id", Json.obj [("value", Json.str "id")])]] }], none))
    ∧ ((Peterjsons.Cook Fmt.basic
        { material := Json.obj [("items", Json.arr [Json.obj [("id", Json.str "1")]])],
          recipe := Json.obj [("recipe", Json.obj [("out", Json.obj
            [("operation", Json.str "swapmap"), ("values", Json.arr [Json.str "items"]),
             ("*", Json.obj [("id", Json.obj [("value", Json.str "id")])])])])],
          result := gabsNew }).map (fun r => r.1.result)
      = some (Json.obj [("out", Json.arr [Json.obj [("id", Json.str "1")]])])) :=
  ⟨rfl, rfl, rfl, rfl⟩

/-! ## C9 -/

theorem setParameter_context (a a1 : action) (context : String) (value : Json)
    (h : a.setParameter context value = some a1) (hc : context ≠ "context") :
    a1.Context = a.Context := by
  unfold action.setParameter at h
  split_ifs at h with h1 h2 h3 h4 h5 h6
  all_goals first
    | exact absurd h4 hc
    | (cases hv : asString value with
       | none => simp [hv] at h
       | some s =>
         simp [hv] at h
         rw [← h])
    | (simp at h
       rw [← h])

theorem setParameter_context_set (a a1 : action) (value : Json)
    (h : a.setParameter "context" value = some a1) :
    ∃ s, value = Json.str s ∧ a1.Context = s := by
  cases value <;> simp [action.setParameter, asString] at h
  rename_i s
  exact ⟨s, rfl, by rw [← h]⟩

theorem mem_mapAssign {α : Type} (m : List (String × α)) (k : String) (v : α)
    (x : String × α) (h : x ∈ mapAssign m k v) : x ∈ m ∨ x = (k, v) := by
  induction m with
  | nil =>
    simp [mapAssign] at h
    exact Or.inr h
  | cons e m ih =>
    obtain ⟨k0, w⟩ := e
    by_cases hk : k0 = k
    · simp [mapAssign, hk] at h
      rcases h with h | h
      · right
        rw [h]
      · left
        simp [h]
    · simp [mapAssign, hk] at h
      rcases h with h | h
      · left
        simp [h]
      · rcases ih h with h2 | h2
        · left
          simp [h2]
        · right
          exact h2

theorem studyMapInterfaceAction_some (key objectIndex : String)
    (aux aux1 : List (String × action)) (recipe : Json)
    (h : studyMapInterfaceAction key objectIndex aux recipe = some aux1) :
    ∃ a1, aux1 = mapAssign aux key a1 ∧ a1.Context = key := by
  cases hd : Data (Path recipe (RecipeKey ++ "." ++ key)) with
  | obj om =>
    by_cases hidx : objectIndex = "values"
    · subst hidx
      rw [studyMapInterfaceAction_values key aux recipe om hd] at h
      cases hs : asSlice (mapIndex om "values") with
      | none => simp [hs] at h
      | some xs =>
        cases xs with
        | nil => simp [hs] at h
        | cons first more =>
          simp [hs] at h
          exact ⟨_, h.symm, rfl⟩
    · rw [studyMapInterfaceAction_value key objectIndex aux recipe om hd hidx] at h
      cases hs : ((mapLookup aux key).getD action.zero).setParameter objectIndex
          (mapIndex om objectIndex) with
      | none => simp [hs] at h
      | some a1 =>
        simp [hs] at h
        exact ⟨_, h.symm, rfl⟩
  | null => simp [studyMapInterfaceAction, hd, asMap] at h
  | bool b => simp [studyMapInterfaceAction, hd, asMap] at h
  | num n => simp [studyMapInterfaceAction, hd, asMap] at h
  | str s => simp [studyMapInterfaceAction, hd, asMap] at h
  | arr xs => simp [studyMapInterfaceAction, hd, asMap] at h

theorem studyMapKeys_context (key objectIndex : String) (mapType todo : List (String × Json))
    (a a1 : action) (hne : todo ≠ [])
    (h : studyMapKeys key objectIndex mapType todo a = some a1) :
    a1.Context = key ++ "." ++ objectIndex := by
  induction todo generalizing a with
  | nil => exact absurd rfl hne
  | cons x rest ih =>
    obtain ⟨mapKey, v⟩ := x
    rw [studyMapKeys] at h
    generalize (match mapIndex mapType mapKey with
      | Json.arr objectType => studyListValues mapKey objectType a
      | objectType => a.setParameter mapKey objectType) = routed at h
    cases routed with
    | none => simp at h
    | some a2 =>
      cases hc : a2.setParameter "context" (Json.str (key ++ "." ++ objectIndex)) with
      | none => simp [hc] at h
      | some a3 =>
        simp [hc] at h
        obtain ⟨s, hs, hctx⟩ := setParameter_context_set a2 a3 _ hc
        cases hs
        cases rest with
        | nil =>
          simp [studyMapKeys] at h
          rw [← h, hctx]
        | cons y rest => exact ih a3 (by simp) h

theorem studyMapInterfaceActions_some (key objectIndex : String) (actions actions1 : List action)
    (recipe : Json)
    (h : studyMapInterfaceActions key objectIndex actions recipe = some actions1) :
    ∃ sa, actions1 = actions ++ [sa]
      ∧ ((∃ x xs, Data (Path recipe (RecipeKey ++ "." ++ key ++ "." ++ objectIndex))
            = Json.obj (x :: xs)) → sa.Context = key ++ "." ++ objectIndex) := by
  unfold studyMapInterfaceActions at h
  cases hd : Data (Path recipe (RecipeKey ++ "." ++ key ++ "." ++ objectIndex)) with
  | obj mapType =>
    simp only [hd] at h
    cases hk : studyMapKeys key objectIndex mapType mapType action.zero with
    | none => simp [hk] at h
    | some sa =>
      simp [hk] at h
      refine ⟨sa, h.symm, ?_⟩
      rintro ⟨x, xs, hx⟩
      cases hx
      exact studyMapKeys_context key objectIndex _ _ _ sa (by simp) hk
  | null =>
    simp [hd] at h
    exact ⟨_, h.symm, by rintro ⟨x, xs, hx⟩; cases hx⟩
  | bool b =>
    simp [hd] at h
    exact ⟨_, h.symm, by rintro ⟨x, xs, hx⟩; cases hx⟩
  | num n =>
    simp [hd] at h
    exact ⟨_, h.symm, by rintro ⟨x, xs, hx⟩; cases hx⟩
  | str s =>
    simp [hd] at h
    exact ⟨_, h.symm, by rintro ⟨x, xs, hx⟩; cases hx⟩
  | arr ys =>
    simp [hd] at h
    exact ⟨_, h.symm, by rintro ⟨x, xs, hx⟩; cases hx⟩

theorem nested_context_ne_empty (key objectIndex : String) : key ++ "." ++ objectIndex ≠ "" := by
  intro h
  have := congrArg String.length h
  simp [String.length_append] at this
  exact absurd this.1.2 (by decide)

theorem studyMapInterfaceRecipeLoop_context (key : String) (recipe : Json)
    (todo : List (String × Json)) (actions actions1 : List action)
    (aux aux1 : List (String × action))
    (hnested : ∀ I ∈ todo.map Prod.fst, isControlKey I = false →
      ∃ x xs, Data (Path recipe (RecipeKey ++ "." ++ key ++ "." ++ I)) = Json.obj (x :: xs))
    (hact : ∀ a ∈ actions, a.Context ≠ "")
    (haux : ∀ x ∈ aux, x.2.Context = key)
    (h : studyMapInterfaceRecipeLoop key recipe todo actions aux = some (actions1, aux1)) :
    (∀ a ∈ actions1, a.Context ≠ "") ∧ (∀ x ∈ aux1, x.2.Context = key) := by
  induction todo generalizing actions aux with
  | nil =>
    simp [studyMapInterfaceRecipeLoop] at h
    rw [← h.1, ← h.2]
    exact ⟨hact, haux⟩
  | cons x rest ih =>
    obtain ⟨objectIndex, v⟩ := x
    have hnested2 : ∀ I ∈ rest.map Prod.fst, isControlKey I = false →
        ∃ x xs, Data (Path recipe (RecipeKey ++ "." ++ key ++ "." ++ I)) = Json.obj (x :: xs) :=
      fun I hI => hnested I (by simp at hI ⊢; exact Or.inr hI)
    rw [studyMapInterfaceRecipeLoop] at h
    by_cases hc : isControlKey objectIndex = true
    · rw [if_pos hc] at h
      cases hs : studyMapInterfaceAction key objectIndex aux recipe with
      | none => simp [hs] at h
      | some aux2 =>
        simp only [hs, Option.bind] at h
        obtain ⟨a1, ha1, hctx⟩ := studyMapInterfaceAction_some key objectIndex aux aux2 recipe hs
        refine ih actions aux2 hnested2 hact ?_ h
        intro x hx
        rw [ha1] at hx
        rcases mem_mapAssign _ _ _ _ hx with hx | hx
        · exact haux x hx
        · rw [hx]
          exact hctx
    · rw [if_neg hc] at h
      cases hs : studyMapInterfaceActions key objectIndex actions recipe with
      | none => simp [hs] at h
      | some actions2 =>
        simp only [hs, Option.bind] at h
        obtain ⟨sa, hsa, hctx⟩ :=
          studyMapInterfaceActions_some key objectIndex actions actions2 recipe hs
        have hblock := hnested objectIndex (by simp) ((Bool.not_eq_true _).mp hc)
        refine ih actions2 aux ?_ ?_ haux h
        · exact hnested2
        · intro a ha
          rw [hsa] at ha
          rcases List.mem_append.mp ha with ha | ha
          · exact hact a ha
          · simp at ha
            rw [ha, hctx hblock]
            exact nested_context_ne_empty key objectIndex

theorem studyLoop_context (peter : Peterjsons) (recipeData todo : List (String × Json))
    (hsub : ∀ x ∈ todo, x ∈ recipeData)
    (hkeys : ∀ K ∈ recipeData.map Prod.fst, K ≠ "")
    (hnested : nestedBlocksNonEmpty peter.recipe recipeData)
    (acc actions : List action) (hacc : ∀ a ∈ acc, a.Context ≠ "")
    (h : studyLoop peter todo acc = some actions) :
    ∀ a ∈ actions, a.Context ≠ "" := by
  induction todo generalizing acc with
  | nil =>
    simp [studyLoop] at h
    rw [← h]
    exact hacc
  | cons x rest ih =>
    obtain ⟨key, object⟩ := x
    have hsub2 : ∀ x ∈ rest, x ∈ recipeData := fun x hx => hsub x (by simp [hx])
    have hmem : (key, object) ∈ recipeData := hsub _ (by simp)
    have hkey : key ≠ "" := hkeys key (List.mem_map.mpr ⟨_, hmem, rfl⟩)
    cases object with
    | str s =>
      rw [studyLoop] at h
      refine ih hsub2 _ ?_ h
      intro a ha
      rcases List.mem_append.mp ha with ha | ha
      · exact hacc a ha
      · simp at ha
        rw [ha]
        simpa [studyInterfaceRecipe] using hkey
    | obj o =>
      rw [studyLoop] at h
      cases hs : studyMapInterfaceRecipe key o peter.recipe with
      | none => simp [hs] at h
      | some studied =>
        simp only [hs, Option.bind] at h
        refine ih hsub2 _ ?_ h
        intro a ha
        rcases List.mem_append.mp ha with ha | ha
        · exact hacc a ha
        · unfold studyMapInterfaceRecipe at hs
          cases hl : studyMapInterfaceRecipeLoop key peter.recipe o [] [] with
          | none => simp [hl] at hs
          | some r =>
            obtain ⟨actions1, aux1⟩ := r
            simp [hl] at hs
            obtain ⟨h1, h2⟩ := studyMapInterfaceRecipeLoop_context key peter.recipe o [] actions1
              [] aux1 (hnested key o hmem) (by simp) (by simp) hl
            rw [← hs] at ha
            rcases List.mem_append.mp ha with ha | ha
            · exact h1 a ha
            · obtain ⟨x, hx, hxa⟩ := List.mem_map.mp ha
              rw [← hxa, h2 x hx]
              exact hkey
    | null =>
      simp only [studyLoop] at h
      exact ih hsub2 _ hacc h
    | bool b =>
      simp only [studyLoop] at h
      exact ih hsub2 _ hacc h
    | num n =>
      simp only [studyLoop] at h
      exact ih hsub2 _ hacc h
    | arr xs =>
      simp only [studyLoop] at h
      exact ih hsub2 _ hacc h

/-- C9, counterexample.  The study succeeds on the recipes
`{"recipe":{"k":{"inner":"x"}}}` and `{"recipe":{"":"name"}}`, and each time
it returns one action whose Context is empty: the action of a nested key whose
sub-block is not an object is the zero action, and the action of a string
entry takes the entry's key, which may be empty. -/
theorem C9_counterexample :
    Peterjsons.study
        { material := Json.obj [],
          recipe := Json.obj [("recipe", Json.obj [("k", Json.obj [("inner", Json.str "x")])])],
          result := gabsNew }
      = some ([{ Context := "", Values := [], Operation := "", Format := "", Separator := "",
                 Replaces := [], Map := [] }], none)
    ∧ Peterjsons.study
        { material := Json.obj [],
          recipe := Json.obj [("recipe", Json.obj [("", Json.str "name")])],
          result := gabsNew }
      = some ([{ Context := "", Values := [], Operation := "swap", Format := "", Separator := "",
                 Replaces := [Json.str "name"], Map := [] }], none) :=
  ⟨rfl, rfl⟩

/-- C9, amended.  Every action returned by `study` has a non-empty Context,
for every recipe on which `study` succeeds, whose recipe object has no empty
key, and in which every nested (non-control) key `I` of an object-valued entry
`K` leads at the path `recipe.K.I` to a non-empty object. -/
theorem C9_context_nonempty (peter : Peterjsons) (kvs recipeData : List (String × Json))
    (actions : List action)
    (hroot : peter.recipe = Json.obj kvs)
    (hrec : mapLookup kvs RecipeKey = some (Json.obj recipeData))
    (hkeys : ∀ K ∈ recipeData.map Prod.fst, K ≠ "")
    (hnested : nestedBlocksNonEmpty peter.recipe recipeData)
    (hstudy : peter.study = some (actions, none)) :
    ∀ a ∈ actions, a.Context ≠ "" := by
  have hc : ChildrenMap (S peter.recipe [RecipeKey]) = some recipeData :=
    (ChildrenMap_recipe peter.recipe recipeData).mpr ⟨kvs, hroot, hrec⟩
  unfold Peterjsons.study at hstudy
  rw [hc] at hstudy
  cases hl : studyLoop peter recipeData [] with
  | none => simp [hl] at hstudy
  | some acts =>
    simp [hl] at hstudy
    rw [← hstudy]
    exact studyLoop_context peter recipeData recipeData (fun x hx => hx) hkeys hnested []
      acts (by simp) hl

/-- C9, at a concrete input: the recipe
`{"recipe":{"k":{"operation":"swap","value":"a","inner":{"value":"b"}}}}`
studies into the nested action with Context `k.inner` and the control-key
action with Context `k`. -/
theorem C9_context_nonempty_witness :
    ({ Context := "k.inner", Values := [Json.str "b"], Operation := "", Format := "",
       Separator := "", Replaces := [], Map := [] } : action).Context ≠ ""
    ∧ ({ Context := "k", Values := [Json.str "a"], Operation := "swap", Format := "",
         Separator := "", Replaces := [], Map := [] } : action).Context ≠ "" := by
  have h := C9_context_nonempty
    { material := Json.obj [],
      recipe := Json.obj [("recipe", Json.obj [("k", Json.obj
        [("operation", Json.str "swap"), ("value", Json.str "a"),
         ("inner", Json.obj [("value", Json.str "b")])])])],
      result := gabsNew }
    [("recipe", Json.obj [("k", Json.obj
        [("operation", Json.str "swap"), ("value", Json.str "a"),
         ("inner", Json.obj [("value", Json.str "b")])])])]
    [("k", Json.obj
        [("operation", Json.str "swap"), ("value", Json.str "a"),
         ("inner", Json.obj [("value", Json.str "b")])])]
    [{ Context := "k.inner", Values := [Json.str "b"], Operation := "", Format := "",
       Separator := "", Replaces := [], Map := [] },
     { Context := "k", Values := [Json.str "a"], Operation := "swap", Format := "",
       Separator := "", Replaces := [], Map := [] }]
    rfl rfl (by decide)
    (by
      intro K o hK I hI hctl
      simp at hK
      obtain ⟨hK1, hK2⟩ := hK
      subst hK1
      subst hK2
      simp at hI
      rcases hI with hI | hI | hI
      · subst hI
        exact absurd hctl (by decide)
      · subst hI
        exact absurd hctl (by decide)
      · subst hI
        exact ⟨("value", Json.str "b"), [], rfl⟩)
    rfl
  exact ⟨h _ (by simp), h _ (by simp)⟩

/-! ## C10 -/

theorem mapLookup_perm {α : Type} (r r1 : List (String × α)) (hp : r.Perm r1)
    (hnd : (r.map Prod.fst).Nodup) (k : String) : mapLookup r k = mapLookup r1 k := by
  induction hp with
  | nil => rfl
  | cons x _ ih =>
    obtain ⟨k0, v⟩ := x
    rw [List.map_cons, List.nodup_cons] at hnd
    by_cases hk : k0 = k
    · simp [mapLookup, hk]
    · simp [mapLookup, hk, ih hnd.2]
  | swap x y l =>
    obtain ⟨kx, vx⟩ := x
    obtain ⟨ky, vy⟩ := y
    have hne : ky ≠ kx := by
      intro e
      simp [e] at hnd
    by_cases h1 : kx = k
    · subst h1
      simp [mapLookup, hne]
    · by_cases h2 : ky = k
      · subst h2
        simp [mapLookup, h1]
      · simp [mapLookup, h1, h2]
  | trans h1 _ ih1 ih2 =>
    have hnd2 := (List.Perm.nodup_iff (h1.map Prod.fst)).mp hnd
    rw [ih1 hnd, ih2 hnd2]

/-- C10, counterexample.  The first two recipes below are the same document,
`{"recipe":{"k":{"operation":"swap","value":"a","values":["b"]}}}`, visited in
two orders of the keys of the entry `k`.  Over the material `{"a":"1","b":"2"}`
the first order gives the result `{"k":"2"}` and the second `{"k":"1"}`.  The
last two are the document `{"recipe":{"a":"x","a.b":"y"}}` visited in its two
orders: over the material `{"y":"2"}`, which has no `x`, the order `a`, `a.b`
gives `{"a":{"b":"2"}}` and the order `a.b`, `a` gives `{"a":null}`. -/
theorem C10_counterexample :
    List.Perm
        [("operation", Json.str "swap"), ("value", Json.str "a"),
         ("values", Json.arr [Json.str "b"])]
        [("operation", Json.str "swap"), ("values", Json.arr [Json.str "b"]),
         ("value", Json.str "a")]
    ∧ (Peterjsons.Cook Fmt.basic
        { material := Json.obj [("a", Json.str "1"), ("b", Json.str "2")],
          recipe := Json.obj [("recipe", Json.obj [("k", Json.obj
            [("operation", Json.str "swap"), ("value", Json.str "a"),
             ("values", Json.arr [Json.str "b"])])])],
          result := gabsNew }).map (fun r => r.1.result)
      = some (Json.obj [("k", Json.str "2")])
    ∧ (Peterjsons.Cook Fmt.basic
        { material := Json.obj [("a", Json.str "1"), ("b", Json.str "2")],
          recipe := Json.obj [("recipe", Json.obj [("k", Json.obj
            [("operation", Json.str "swap"), ("values", Json.arr [Json.str "b"]),
             ("value", Json.str "a")])])],
          result := gabsNew }).map (fun r => r.1.result)
      = some (Json.obj [("k", Json.str "1")])
    ∧ (Peterjsons.Cook Fmt.basic
        { material := Json.obj [("y", Json.str "2")],
          recipe := Json.obj [("recipe", Json.obj [("a", Json.str "x"), ("a.b", Json.str "y")])],
          result := gabsNew }).map (fun r => r.1.result)
      = some (Json.obj [("a", Json.obj [("b", Json.str "2")])])
    ∧ (Peterjsons.Cook Fmt.basic
        { material := Json.obj [("y", Json.str "2")],
          recipe := Json.obj [("recipe", Json.obj [("a.b", Json.str "y"), ("a", Json.str "x")])],
          result := gabsNew }).map (fun r => r.1.result)
      = some (Json.obj [("a", Json.null)]) :=
  ⟨List.Perm.cons _ (List.Perm.swap _ _ _), rfl, rfl, rfl, rfl⟩

/-! ## C11 -/

theorem studyLoop_material (p1 p2 : Peterjsons) (h : p1.recipe = p2.recipe)
    (es : List (String × Json)) (acc : List action) :
    studyLoop p1 es acc = studyLoop p2 es acc := by
  induction es generalizing acc with
  | nil => simp [studyLoop]
  | cons e es ih =>
    obtain ⟨k, v⟩ := e
    cases v with
    | str s => simp only [studyLoop, studyInterfaceRecipe, ih]
    | obj o => simp only [studyLoop, h, ih]
    | null => simp only [studyLoop, ih]
    | bool b => simp only [studyLoop, ih]
    | num n => simp only [studyLoop, ih]
    | arr xs => simp only [studyLoop, ih]

/-- C11.  The action list and the error returned by `study` depend only on the
recipe document: for every recipe and any two material documents (and any two
result documents) `study` yields the same outcome. -/
theorem C11_study_ignores_material (m1 m2 recipe r1 r2 : Json) :
    Peterjsons.study { material := m1, recipe := recipe, result := r1 }
      = Peterjsons.study { material := m2, recipe := recipe, result := r2 } := by
  unfold Peterjsons.study
  simp only
  cases ChildrenMap (S recipe [RecipeKey]) with
  | none => rfl
  | some recipeData =>
    simp only
    rw [studyLoop_material { material := m1, recipe := recipe, result := r1 }
      { material := m2, recipe := recipe, result := r2 } rfl recipeData []]

/-! ## C17 -/

theorem applyLoop_skip (F : Fmt) (material : Json) (a : action) (rest : List action)
    (result : Json) (h1 : a.Operation ≠ ActionSwap) (h2 : a.Operation ≠ ActionConcat)
    (h3 : a.Operation ≠ ActionSwapMap) :
    applyLoop F material (a :: rest) result = applyLoop F material rest result := by
  rw [applyLoop, if_neg h1, if_neg h2, if_neg h3]

theorem applyLoop_all_skipped (F : Fmt) (material : Json) (acts : List action) (result : Json)
    (h : ∀ a ∈ acts, a.Operation = "") :
    applyLoop F material acts result = some result := by
  induction acts with
  | nil => simp [applyLoop]
  | cons a rest ih =>
    have ha : a.Operation = "" := h a (by simp)
    rw [applyLoop_skip F material a rest result (by rw [ha]; decide) (by rw [ha]; decide)
      (by rw [ha]; decide)]
    exact ih (fun b hb => h b (by simp [hb]))

theorem setParameter_operation (a a1 : action) (context : String) (value : Json)
    (h : a.setParameter context value = some a1) (hc : context ≠ "operation") :
    a1.Operation = a.Operation := by
  unfold action.setParameter at h
  split_ifs at h with h1 h2 h3 h4 h5 h6
  all_goals first
    | exact absurd h1 hc
    | (cases hv : asString value with
       | none => simp [hv] at h
       | some s =>
         simp [hv] at h
         rw [← h])
    | (simp at h
       rw [← h])

theorem studyMapInterfaceAction_operation (key objectIndex : String)
    (aux aux1 : List (String × action)) (recipe : Json)
    (hidx : objectIndex ≠ "operation")
    (haux : ∀ x ∈ aux, x.2.Operation = "")
    (h : studyMapInterfaceAction key objectIndex aux recipe = some aux1) :
    ∀ x ∈ aux1, x.2.Operation = "" := by
  have hzero : ((mapLookup aux key).getD action.zero).Operation = "" := by
    cases hl : mapLookup aux key with
    | none => rfl
    | some t =>
      have hmem : (key, t) ∈ aux := by
        clear haux h
        induction aux with
        | nil => simp [mapLookup] at hl
        | cons e aux ih =>
          obtain ⟨k0, w⟩ := e
          by_cases hk : k0 = key
          · simp [mapLookup, hk] at hl
            simp [hk, hl]
          · simp [mapLookup, hk] at hl
            simp [ih hl]
      exact haux _ hmem
  cases hd : Data (Path recipe (RecipeKey ++ "." ++ key)) with
  | obj om =>
    have hfin : ∀ a1 : action, a1.Operation = "" → aux1 = mapAssign aux key a1 →
        ∀ x ∈ aux1, x.2.Operation = "" := by
      intro a1 ha1 he x hx
      rw [he] at hx
      rcases mem_mapAssign _ _ _ _ hx with hx | hx
      · exact haux x hx
      · rw [hx]
        exact ha1
    by_cases hv : objectIndex = "values"
    · subst hv
      rw [studyMapInterfaceAction_values key aux recipe om hd] at h
      cases hs : asSlice (mapIndex om "values") with
      | none => simp [hs] at h
      | some xs =>
        cases xs with
        | nil => simp [hs] at h
        | cons first more =>
          simp [hs] at h
          refine hfin _ ?_ h.symm
          exact hzero
    · rw [studyMapInterfaceAction_value key objectIndex aux recipe om hd hv] at h
      cases hs : ((mapLookup aux key).getD action.zero).setParameter objectIndex
          (mapIndex om objectIndex) with
      | none => simp [hs] at h
      | some a1 =>
        simp [hs] at h
        have := setParameter_operation _ a1 objectIndex _ hs hidx
        refine hfin _ ?_ h.symm
        exact this.trans hzero
  | null => simp [studyMapInterfaceAction, hd, asMap] at h
  | bool b => simp [studyMapInterfaceAction, hd, asMap] at h
  | num n => simp [studyMapInterfaceAction, hd, asMap] at h
  | str s => simp [studyMapInterfaceAction, hd, asMap] at h
  | arr xs => simp [studyMapInterfaceAction, hd, asMap] at h

theorem studyMapInterfaceRecipeLoop_operation (key : String) (recipe : Json)
    (todo : List (String × Json)) (actions actions1 : List action)
    (aux aux1 : List (String × action))
    (hop : "operation" ∉ todo.map Prod.fst)
    (haux : ∀ x ∈ aux, x.2.Operation = "")
    (h : studyMapInterfaceRecipeLoop key recipe todo actions aux = some (actions1, aux1)) :
    ∀ x ∈ aux1, x.2.Operation = "" := by
  induction todo generalizing actions aux with
  | nil =>
    simp [studyMapInterfaceRecipeLoop] at h
    rw [← h.2]
    exact haux
  | cons x rest ih =>
    obtain ⟨objectIndex, v⟩ := x
    have hidx : objectIndex ≠ "operation" := fun e => hop (by simp [e])
    have hop2 : "operation" ∉ rest.map Prod.fst := fun e => hop (by
      simp at e ⊢
      exact Or.inr e)
    rw [studyMapInterfaceRecipeLoop] at h
    by_cases hc : isControlKey objectIndex = true
    · rw [if_pos hc] at h
      cases hs : studyMapInterfaceAction key objectIndex aux recipe with
      | none => simp [hs] at h
      | some aux2 =>
        simp only [hs, Option.bind] at h
        exact ih actions aux2 hop2
          (studyMapInterfaceAction_operation key objectIndex aux aux2 recipe hidx haux hs) h
    · rw [if_neg hc] at h
      cases hs : studyMapInterfaceActions key objectIndex actions recipe with
      | none => simp [hs] at h
      | some actions2 =>
        simp only [hs, Option.bind] at h
        exact ih actions2 aux hop2 haux h

theorem studyMapInterfaceRecipeLoop_control_only (key : String) (recipe : Json)
    (todo : List (String × Json)) (actions actions1 : List action)
    (aux aux1 : List (String × action))
    (hctl : ∀ I ∈ todo.map Prod.fst, isControlKey I = true)
    (h : studyMapInterfaceRecipeLoop key recipe todo actions aux = some (actions1, aux1)) :
    actions1 = actions := by
  induction todo generalizing aux with
  | nil =>
    simp [studyMapInterfaceRecipeLoop] at h
    exact h.1.symm
  | cons x rest ih =>
    obtain ⟨objectIndex, v⟩ := x
    have hc : isControlKey objectIndex = true := hctl objectIndex (by simp)
    have hctl2 : ∀ I ∈ rest.map Prod.fst, isControlKey I = true := fun I hI => hctl I (by
      simp at hI ⊢
      exact Or.inr hI)
    rw [studyMapInterfaceRecipeLoop, if_pos hc] at h
    cases hs : studyMapInterfaceAction key objectIndex aux recipe with
    | none => simp [hs] at h
    | some aux2 =>
      simp only [hs, Option.bind] at h
      exact ih aux2 hctl2 h

/-- C17.  `apply` leaves the instance, and so the result document, unchanged
for every action whose Operation is not exactly `swap`, `concat` or `swapmap`.
In the study of an object-valued recipe entry without an `operation` key the
action accumulated from the control keys keeps the empty Operation, so `apply`
writes nothing for it; when the entry has control keys only, `apply` of all
its actions writes nothing. -/
theorem C17_unknown_operation_writes_nothing (F : Fmt) (peter : Peterjsons) :
    (∀ a : action, a.Operation ≠ "swap" → a.Operation ≠ "concat" → a.Operation ≠ "swapmap" →
        peter.apply F [a] = some (peter, none))
    ∧ (∀ key recipe o nested aux,
        studyMapInterfaceRecipeLoop key recipe o [] [] = some (nested, aux) →
        "operation" ∉ o.map Prod.fst →
        ∀ x ∈ aux, x.2.Operation = "" ∧ peter.apply F [x.2] = some (peter, none))
    ∧ (∀ key recipe o acts,
        studyMapInterfaceRecipe key o recipe = some acts →
        (∀ I ∈ o.map Prod.fst, isControlKey I = true) →
        "operation" ∉ o.map Prod.fst →
        peter.apply F acts = some (peter, none)) := by
  refine ⟨?_, ?_, ?_⟩
  · intro a h1 h2 h3
    have hskip := applyLoop_skip F peter.material a [] peter.result h1 h2 h3
    rw [Peterjsons.apply, hskip]
    simp [applyLoop]
  · intro key recipe o nested aux h hop x hx
    have hx0 := studyMapInterfaceRecipeLoop_operation key recipe o [] nested [] aux hop
      (by simp) h x hx
    refine ⟨hx0, ?_⟩
    simp [Peterjsons.apply, applyLoop_all_skipped F peter.material [x.2] peter.result
      (by simpa using hx0)]
  · intro key recipe o acts h hctl hop
    unfold studyMapInterfaceRecipe at h
    cases hl : studyMapInterfaceRecipeLoop key recipe o [] [] with
    | none => simp [hl] at h
    | some r =>
      obtain ⟨nested, aux⟩ := r
      simp [hl] at h
      have hn := studyMapInterfaceRecipeLoop_control_only key recipe o [] nested [] aux hctl hl
      have ha := studyMapInterfaceRecipeLoop_operation key recipe o [] nested [] aux hop
        (by simp) hl
      have hall : ∀ a ∈ acts, a.Operation = "" := by
        intro a hmem
        rw [← h, hn] at hmem
        simp at hmem
        obtain ⟨k, hk⟩ := hmem
        exact ha _ hk
      simp [Peterjsons.apply, applyLoop_all_skipped F peter.material acts peter.result hall]

/-- C17, at a concrete input: the recipe `{"recipe":{"k":{"value":"a"}}}` has a
control key and no `operation` key; `Cook` leaves the result document empty. -/
theorem C17_unknown_operation_writes_nothing_witness :
    Peterjsons.apply Fmt.basic
        { material := Json.obj [("a", Json.str "1")],
          recipe := Json.obj [("recipe", Json.obj [("k", Json.obj [("value", Json.str "a")])])],
          result := gabsNew }
        [{ Context := "k", Values := [Json.str "a"], Operation := "", Format := "",
           Separator := "", Replaces := [], Map := [] }]
      = some ({ material := Json.obj [("a", Json.str "1")],
                recipe := Json.obj [("recipe", Json.obj [("k", Json.obj
                  [("value", Json.str "a")])])],
                result := gabsNew }, none) :=
  (C17_unknown_operation_writes_nothing Fmt.basic
    { material := Json.obj [("a", Json.str "1")],
      recipe := Json.obj [("recipe", Json.obj [("k", Json.obj [("value", Json.str "a")])])],
      result := gabsNew }).2.2 "k"
    (Json.obj [("recipe", Json.obj [("k", Json.obj [("value", Json.str "a")])])])
    [("value", Json.str "a")]
    [{ Context := "k", Values := [Json.str "a"], Operation := "", Format := "",
       Separator := "", Replaces := [], Map := [] }]
    rfl (by decide) (by decide)

/-! ## C19 -/

theorem applyLoop_flat_total (F : Fmt) (material : Json) (es : List (String × Json))
    (result : Json) : ∃ r, applyLoop F material (flatActions material es) result = some r := by
  induction es generalizing result with
  | nil => exact ⟨result, by simp [applyLoop, flatActions]⟩
  | cons e es ih =>
    obtain ⟨k, v⟩ := e
    cases v with
    | str s =>
      obtain ⟨r, hr⟩ := ih (SetP result (Data (Path material s)) k)
      refine ⟨r, ?_⟩
      have hstep : applyLoop F material (flatActions material ((k, Json.str s) :: es)) result
          = applyLoop F material (flatActions material es)
              (SetP result (Data (Path material s)) k) := by
        simp [flatActions, applyLoop, studyInterfaceRecipe, action.zero, ActionSwap, swapAction,
          swapSingleAction, asString]
      rw [hstep, hr]
    | null => simpa [flatActions] using ih result
    | bool b => simpa [flatActions] using ih result
    | num n => simpa [flatActions] using ih result
    | arr xs => simpa [flatActions] using ih result
    | obj o => simpa [flatActions] using ih result

/-- C19.  For every material document and every recipe whose `recipe` object
contains only string-valued and number-valued entries, `Cook` returns, and the
error it returns is nil: neither `study` nor `apply` reaches a fatal abort. -/
theorem C19_plain_recipe_completes (F : Fmt) (peter : Peterjsons)
    (kvs es : List (String × Json))
    (hroot : peter.recipe = Json.obj kvs)
    (hrec : mapLookup kvs RecipeKey = some (Json.obj es))
    (hplain : ∀ e ∈ es, (∃ s, e.2 = Json.str s) ∨ (∃ n, e.2 = Json.num n)) :
    ∃ p, peter.Cook F = some (p, none) := by
  have hflat : ∀ e ∈ es, ∀ o, e.2 ≠ Json.obj o := by
    intro e he o ho
    rcases hplain e he with ⟨s, hs⟩ | ⟨n, hn⟩
    · rw [hs] at ho
      cases ho
    · rw [hn] at ho
      cases ho
  have hc : ChildrenMap (S peter.recipe [RecipeKey]) = some es :=
    (ChildrenMap_recipe peter.recipe es).mpr ⟨kvs, hroot, hrec⟩
  have hstudy : peter.study = some (flatActions peter.material es, none) := by
    simp [Peterjsons.study, hc, studyLoop_flat peter es hflat]
  obtain ⟨r, hr⟩ := applyLoop_flat_total F peter.material es peter.result
  exact ⟨{ peter with result := r }, by simp [Peterjsons.Cook, hstudy, Peterjsons.apply, hr]⟩

/-- C19, at a concrete input: the recipe
`{"recipe":{"a":"x","a.b":"y","n":7}}` over the material `{"x":"1","y":"2"}`. -/
theorem C19_plain_recipe_completes_witness :
    ∃ p, Peterjsons.Cook Fmt.basic
        { material := Json.obj [("x", Json.str "1"), ("y", Json.str "2")],
          recipe := Json.obj [("recipe", Json.obj
            [("a", Json.str "x"), ("a.b", Json.str "y"), ("n", Json.num 7)])],
          result := gabsNew } = some (p, none) :=
  C19_plain_recipe_completes Fmt.basic
    { material := Json.obj [("x", Json.str "1"), ("y", Json.str "2")],
      recipe := Json.obj [("recipe", Json.obj
        [("a", Json.str "x"), ("a.b", Json.str "y"), ("n", Json.num 7)])],
      result := gabsNew }
    [("recipe", Json.obj [("a", Json.str "x"), ("a.b", Json.str "y"), ("n", Json.num 7)])]
    [("a", Json.str "x"), ("a.b", Json.str "y"), ("n", Json.num 7)]
    rfl rfl
    (by
      intro e he
      simp at he
      rcases he with he | he | he <;> subst he
      · exact Or.inl ⟨_, rfl⟩
      · exact Or.inl ⟨_, rfl⟩
      · exact Or.inr ⟨_, rfl⟩)

/-! ## C13 -/

theorem swapMultipleLoop_step (F : Fmt) (a : action) (material : Json) (value : Nat)
    (p : String) (rest : List Json) (result : Json)
    (hrep : a.Replaces = [] ∨ value < a.Replaces.length) :
    swapMultipleLoop F a material value (Json.str p :: rest) result
      = swapMultipleLoop F a material (value + 1) rest
          (SetP result (chosenValue F a material value p) a.Context) := by
  rw [swapMultipleLoop]
  simp only [asString, Option.bind, chosenValue]
  rcases hrep with h | h
  · simp [h]
    by_cases hf : a.Format = "" <;> simp [hf]
  · have hpos : 0 < a.Replaces.length := by omega
    by_cases hf : a.Format = "" <;> simp [hf, hpos, List.getElem?_eq_getElem h]

theorem swapMultipleLoop_priority (F : Fmt) (a : action) (material : Json)
    (ps : List String) (hne : ps ≠ []) (value : Nat) (result : Json)
    (hrep : a.Replaces = [] ∨ value + ps.length ≤ a.Replaces.length) :
    swapMultipleLoop F a material value (ps.map Json.str) result
      = some (SetP result
          (chosenValue F a material (value + ps.length - 1) (ps.getLast hne)) a.Context) := by
  induction ps generalizing value result with
  | nil => exact absurd rfl hne
  | cons p rest ih =>
    have hstep := swapMultipleLoop_step F a material value p (rest.map Json.str) result
      (by
        rcases hrep with h | h
        · exact Or.inl h
        · right
          simp at h
          omega)
    rw [List.map_cons, hstep]
    cases rest with
    | nil => simp [swapMultipleLoop]
    | cons q rest =>
      have := ih (by simp) (value + 1) (SetP result (chosenValue F a material value p) a.Context)
        (by
          rcases hrep with h | h
          · exact Or.inl h
          · right
            simp at h ⊢
            omega)
      rw [this, SetP_overwrite]
      have hidx : value + 1 + rest.length = value + (rest.length + 1) := by omega
      simp [hidx]

/-- C13, counterexample.  A swap action with Values `[a, b]` and the non-empty
Replaces `[x]` has no `Replaces[1]`: the run aborts at the last index and
leaves no value, as does `Cook` on the recipe
`{"recipe":{"k":{"operation":"swap","values":["a"],"value":"b","replace":"x"}}}`
that studies into it.  And a swap action with Context `a.b` and Values `[p]`
applied to the result document `{"a":"1"}` leaves that document as it is: the
value at `a.b` is nil, not the material value at `p`. -/
theorem C13_counterexample :
    swapAction Fmt.basic
        { Context := "k", Values := [Json.str "a", Json.str "b"], Operation := "swap",
          Format := "", Separator := "", Replaces := [Json.str "x"], Map := [] }
        (Json.obj [("a", Json.str "1"), ("b", Json.str "2")]) gabsNew
      = none
    ∧ Peterjsons.Cook Fmt.basic
        { material := Json.obj [("a", Json.str "1"), ("b", Json.str "2")],
          recipe := Json.obj [("recipe", Json.obj [("k", Json.obj
            [("operation", Json.str "swap"), ("values", Json.arr [Json.str "a"]),
             ("value", Json.str "b"), ("replace", Json.str "x")])])],
          result := gabsNew }
      = none
    ∧ swapAction Fmt.basic
        { Context := "a.b", Values := [Json.str "p"], Operation := "swap",
          Format := "", Separator := "", Replaces := [], Map := [] }
        (Json.obj [("p", Json.str "2")]) (Json.obj [("a", Json.str "1")])
      = some (Json.obj [("a", Json.str "1")])
    ∧ Data (Path (Json.obj [("a", Json.str "1")]) "a.b") = Json.null
    ∧ Data (Path (Json.obj [("p", Json.str "2")]) "p") = Json.str "2" :=
  ⟨rfl, rfl, rfl, rfl, rfl⟩

/-- C13, amended.  For every swap action whose Values are a non-empty list of
material paths and whose Replaces is empty or has an entry for every index of
Values, applied to an empty result document, the run returns and the value
left at Context is the one chosen for the last index `i` by this priority:
the formatted `Replaces[i]` if Replaces is non-empty and Format is set; else
the formatted material value at `Values[i]` if Format is set; else the literal
`Replaces[i]` if Replaces is non-empty; else the material value at
`Values[i]`. -/
theorem C13_swap_priority (F : Fmt) (a : action) (material : Json) (ps : List String)
    (hne : ps ≠ []) (hv : a.Values = ps.map Json.str)
    (hrep : a.Replaces = [] ∨ ps.length ≤ a.Replaces.length) :
    swapAction F a material gabsNew
      = some (SetP gabsNew
          (chosenValue F a material (ps.length - 1) (ps.getLast hne)) a.Context)
    ∧ Data (Path (SetP gabsNew
          (chosenValue F a material (ps.length - 1) (ps.getLast hne)) a.Context) a.Context)
      = chosenValue F a material (ps.length - 1) (ps.getLast hne) := by
  have hlen : a.Values.length ≠ 0 := by
    rw [hv]
    cases ps with
    | nil => exact absurd rfl hne
    | cons p rest => simp
  constructor
  · rw [swapAction, if_neg hlen, swapMultipleActions, hv,
      swapMultipleLoop_priority F a material ps hne 0 gabsNew (by simpa using hrep)]
    simp
  · rw [SetP_empty_read]
    rfl

/-- C13, at concrete inputs: over the material `{"a":"1","b":"2"}` and Values
`[a, b]`, the Replaces `[x, y]` without Format leave the literal `y`, and no
Replaces without Format leave the material value `2`. -/
theorem C13_swap_priority_witness :
    swapAction Fmt.basic
        { Context := "k", Values := [Json.str "a", Json.str "b"], Operation := "swap",
          Format := "", Separator := "", Replaces := [Json.str "x", Json.str "y"], Map := [] }
        (Json.obj [("a", Json.str "1"), ("b", Json.str "2")]) gabsNew
      = some (Json.obj [("k", Json.str "y")])
    ∧ swapAction Fmt.basic
        { Context := "k", Values := [Json.str "a", Json.str "b"], Operation := "swap",
          Format := "", Separator := "", Replaces := [], Map := [] }
        (Json.obj [("a", Json.str "1"), ("b", Json.str "2")]) gabsNew
      = some (Json.obj [("k", Json.str "2")]) :=
  ⟨(C13_swap_priority Fmt.basic
      { Context := "k", Values := [Json.str "a", Json.str "b"], Operation := "swap",
        Format := "", Separator := "", Replaces := [Json.str "x", Json.str "y"], Map := [] }
      (Json.obj [("a", Json.str "1"), ("b", Json.str "2")]) ["a", "b"] (by simp) rfl
      (Or.inr (by decide))).1,
   (C13_swap_priority Fmt.basic
      { Context := "k", Values := [Json.str "a", Json.str "b"], Operation := "swap",
        Format := "", Separator := "", Replaces := [], Map := [] }
      (Json.obj [("a", Json.str "1"), ("b", Json.str "2")]) ["a", "b"] (by simp) rfl
      (Or.inl rfl)).1⟩

/-! ## C15 and C18 -/

theorem studyMapInterfaceActions_zero_or_context (key objectIndex : String)
    (actions actions1 : List action) (recipe : Json)
    (h : studyMapInterfaceActions key objectIndex actions recipe = some actions1) :
    ∃ sa, actions1 = actions ++ [sa]
      ∧ (sa.Context = key ++ "." ++ objectIndex ∨ sa = action.zero) := by
  obtain ⟨sa, hsa, hctx⟩ := studyMapInterfaceActions_some key objectIndex actions actions1 recipe h
  refine ⟨sa, hsa, ?_⟩
  cases hd : Data (Path recipe (RecipeKey ++ "." ++ key ++ "." ++ objectIndex)) with
  | obj mapType =>
    cases mapType with
    | nil =>
      right
      simp [studyMapInterfaceActions, hd, studyMapKeys] at h
      rw [hsa] at h
      simpa using h.symm
    | cons x xs => exact Or.inl (hctx ⟨x, xs, hd⟩)
  | null =>
    right
    simp [studyMapInterfaceActions, hd] at h
    rw [hsa] at h
    simpa using h.symm
  | bool b =>
    right
    simp [studyMapInterfaceActions, hd] at h
    rw [hsa] at h
    simpa using h.symm
  | num n =>
    right
    simp [studyMapInterfaceActions, hd] at h
    rw [hsa] at h
    simpa using h.symm
  | str s =>
    right
    simp [studyMapInterfaceActions, hd] at h
    rw [hsa] at h
    simpa using h.symm
  | arr ys =>
    right
    simp [studyMapInterfaceActions, hd] at h
    rw [hsa] at h
    simpa using h.symm

/-- The shape of what the loop of `studyMapInterfaceRecipe` returns: the nested
actions appended in iteration order, one per nested key, and a map `auxactions`
that holds at most the one action of the outer key. -/
theorem studyMapInterfaceRecipeLoop_shape (key : String) (recipe : Json)
    (todo : List (String × Json)) (actions actions1 : List action)
    (aux aux1 : List (String × action))
    (haux : aux = [] ∨ ∃ a, aux = [(key, a)] ∧ a.Context = key)
    (h : studyMapInterfaceRecipeLoop key recipe todo actions aux = some (actions1, aux1)) :
    (∃ nested, actions1 = actions ++ nested
        ∧ nested.length = nestedKeyCount todo
        ∧ ∀ a ∈ nested, ∃ I ∈ todo.map Prod.fst, isControlKey I = false
            ∧ (a.Context = key ++ "." ++ I ∨ a = action.zero))
    ∧ (aux = [] → controlKeyCount todo = 0 → aux1 = [])
    ∧ (aux ≠ [] ∨ 0 < controlKeyCount todo → ∃ a, aux1 = [(key, a)] ∧ a.Context = key) := by
  induction todo generalizing actions aux with
  | nil =>
    simp [studyMapInterfaceRecipeLoop] at h
    obtain ⟨h1, h2⟩ := h
    subst h1
    subst h2
    refine ⟨⟨[], by simp, by simp [nestedKeyCount], by simp⟩, fun h _ => h, ?_⟩
    intro hne
    rcases hne with hne | hne
    · rcases haux with h0 | h0
      · exact absurd h0 hne
      · exact h0
    · simp [controlKeyCount] at hne
  | cons x rest ih =>
    obtain ⟨objectIndex, v⟩ := x
    rw [studyMapInterfaceRecipeLoop] at h
    by_cases hc : isControlKey objectIndex = true
    · rw [if_pos hc] at h
      cases hs : studyMapInterfaceAction key objectIndex aux recipe with
      | none => simp [hs] at h
      | some aux2 =>
        simp only [hs, Option.bind] at h
        obtain ⟨a1, ha1, hctx⟩ := studyMapInterfaceAction_some key objectIndex aux aux2 recipe hs
        have haux2 : aux2 = [(key, a1)] := by
          rcases haux with h0 | ⟨a0, h0, _⟩
          · rw [ha1, h0]
            simp [mapAssign]
          · rw [ha1, h0]
            simp [mapAssign]
        obtain ⟨⟨nested, hn1, hn2, hn3⟩, _, hb⟩ :=
          ih actions aux2 (Or.inr ⟨a1, haux2, hctx⟩) h
        refine ⟨⟨nested, hn1, ?_, ?_⟩, ?_, ?_⟩
        · simp [nestedKeyCount, hc] at hn2 ⊢
          exact hn2
        · intro a ha
          obtain ⟨I, hI, hI2⟩ := hn3 a ha
          exact ⟨I, by simp at hI ⊢; exact Or.inr hI, hI2⟩
        · intro _ hcount
          simp [controlKeyCount, hc] at hcount
        · intro _
          exact hb (Or.inl (by simp [haux2]))
    · rw [if_neg hc] at h
      cases hs : studyMapInterfaceActions key objectIndex actions recipe with
      | none => simp [hs] at h
      | some actions2 =>
        simp only [hs, Option.bind] at h
        obtain ⟨sa, hsa, hctx⟩ :=
          studyMapInterfaceActions_zero_or_context key objectIndex actions actions2 recipe hs
        obtain ⟨⟨nested, hn1, hn2, hn3⟩, ha, hb⟩ := ih actions2 aux haux h
        have hcf : isControlKey objectIndex = false := (Bool.not_eq_true _).mp hc
        refine ⟨⟨sa :: nested, ?_, ?_, ?_⟩, ?_, ?_⟩
        · rw [hn1, hsa]
          simp
        · simp [nestedKeyCount, hcf] at hn2 ⊢
          exact hn2
        · intro a hmem
          rcases List.mem_cons.mp hmem with hmem | hmem
          · rw [hmem]
            exact ⟨objectIndex, by simp, hcf, hctx⟩
          · obtain ⟨I, hI, hI2⟩ := hn3 a hmem
            exact ⟨I, by simp at hI ⊢; exact Or.inr hI, hI2⟩
        · intro h0 hcount
          simp [controlKeyCount, hcf] at hcount
          exact ha h0 (by simpa [controlKeyCount] using hcount)
        · intro hne
          apply hb
          rcases hne with hne | hne
          · exact Or.inl hne
          · right
            simpa [controlKeyCount, hcf] using hne

/-! ## Routing of parameters -/

theorem setParameter_ok (a : action) (name : String) (v : Json) (h : paramOk name v) :
    ∃ a1, a.setParameter name v = some a1 := by
  unfold action.setParameter
  split_ifs with h1 h2 h3 h4 h5 h6 h7
  · obtain ⟨s, hs⟩ := h (Or.inl h1)
    subst hs
    exact ⟨_, rfl⟩
  · obtain ⟨s, hs⟩ := h (Or.inr (Or.inl h2))
    subst hs
    exact ⟨_, rfl⟩
  · obtain ⟨s, hs⟩ := h (Or.inr (Or.inr (Or.inl h3)))
    subst hs
    exact ⟨_, rfl⟩
  · obtain ⟨s, hs⟩ := h (Or.inr (Or.inr (Or.inr h4)))
    subst hs
    exact ⟨_, rfl⟩
  · exact ⟨_, rfl⟩
  · exact ⟨_, rfl⟩
  · exact ⟨_, rfl⟩
  · exact ⟨_, rfl⟩

theorem setParameter_fields (a a1 : action) (name : String) (v : Json)
    (h : a.setParameter name v = some a1) :
    a1.Values = a.Values ++ (if name ∈ ["values", "value"] then [v] else [])
    ∧ a1.Replaces = a.Replaces ++ (if name ∈ ["replaces", "replace"] then [v] else [])
    ∧ a1.Map = a.Map ++ (if name ∈ ["*", "all"] then [v] else []) := by
  unfold action.setParameter at h
  split_ifs at h with h1 h2 h3 h4 h5 h6 h7
  · cases hv : asString v with
    | none => simp [hv] at h
    | some s =>
      simp [hv] at h
      subst h
      subst h1
      simp
  · cases hv : asString v with
    | none => simp [hv] at h
    | some s =>
      simp [hv] at h
      subst h
      subst h2
      simp
  · cases hv : asString v with
    | none => simp [hv] at h
    | some s =>
      simp [hv] at h
      subst h
      subst h3
      simp
  · cases hv : asString v with
    | none => simp [hv] at h
    | some s =>
      simp [hv] at h
      subst h
      subst h4
      simp
  · simp at h
    subst h
    rcases h5 with h5 | h5 <;> subst h5 <;> simp
  · simp at h
    subst h
    rcases h6 with h6 | h6 <;> subst h6 <;> simp
  · simp at h
    subst h
    rcases h7 with h7 | h7 <;> subst h7 <;> simp
  · simp at h
    subst h
    have e1 : name ∉ ["values", "value"] := by
      simp
      exact ⟨fun e => h5 (Or.inl e), fun e => h5 (Or.inr e)⟩
    have e2 : name ∉ ["replaces", "replace"] := by
      simp
      exact ⟨fun e => h6 (Or.inl e), fun e => h6 (Or.inr e)⟩
    have e3 : name ∉ ["*", "all"] := by
      simp
      exact ⟨fun e => h7 (Or.inl e), fun e => h7 (Or.inr e)⟩
    simp [e1, e2, e3]

theorem studyListValues_ok (name : String) (xs : List Json) (a : action)
    (h : ∀ x ∈ xs, paramOk name x) : ∃ a1, studyListValues name xs a = some a1 := by
  induction xs generalizing a with
  | nil => exact ⟨a, rfl⟩
  | cons x xs ih =>
    obtain ⟨a1, ha1⟩ := setParameter_ok a name x (h x (by simp))
    obtain ⟨a2, ha2⟩ := ih a1 (fun y hy => h y (by simp [hy]))
    exact ⟨a2, by simp [studyListValues, ha1, ha2]⟩

theorem studyListValues_fields (name : String) (xs : List Json) (a a1 : action)
    (h : studyListValues name xs a = some a1) :
    a1.Values = a.Values ++ (if name ∈ ["values", "value"] then xs else [])
    ∧ a1.Replaces = a.Replaces ++ (if name ∈ ["replaces", "replace"] then xs else [])
    ∧ a1.Map = a.Map ++ (if name ∈ ["*", "all"] then xs else []) := by
  induction xs generalizing a with
  | nil =>
    simp [studyListValues] at h
    subst h
    simp
  | cons x xs ih =>
    rw [studyListValues] at h
    cases hs : a.setParameter name x with
    | none => simp [hs] at h
    | some a2 =>
      simp only [hs, Option.bind] at h
      obtain ⟨f1, f2, f3⟩ := setParameter_fields a a2 name x hs
      obtain ⟨g1, g2, g3⟩ := ih a2 h
      rw [g1, g2, g3, f1, f2, f3]
      refine ⟨?_, ?_, ?_⟩
      · by_cases hn : name ∈ ["values", "value"] <;> simp [hn]
      · by_cases hn : name ∈ ["replaces", "replace"] <;> simp [hn]
      · by_cases hn : name ∈ ["*", "all"] <;> simp [hn]

/-- The routing of one stored value in the study of a nested key: a list is
routed element by element, any other value once. -/
theorem routed_fields (name : String) (v : Json) (a a1 : action)
    (h : (match v with
          | Json.arr objectType => studyListValues name objectType a
          | objectType => a.setParameter name objectType) = some a1) :
    a1.Values = a.Values ++ (if name ∈ ["values", "value"] then entriesOf v else [])
    ∧ a1.Replaces = a.Replaces ++ (if name ∈ ["replaces", "replace"] then entriesOf v else [])
    ∧ a1.Map = a.Map ++ (if name ∈ ["*", "all"] then entriesOf v else []) := by
  cases v with
  | arr xs => exact studyListValues_fields name xs a a1 h
  | null => exact setParameter_fields a a1 name _ h
  | bool b => exact setParameter_fields a a1 name _ h
  | num n => exact setParameter_fields a a1 name _ h
  | str s => exact setParameter_fields a a1 name _ h
  | obj o => exact setParameter_fields a a1 name _ h

theorem routed_ok (name : String) (v : Json) (a : action)
    (h : ∀ x ∈ entriesOf v, paramOk name x) :
    ∃ a1, (match v with
          | Json.arr objectType => studyListValues name objectType a
          | objectType => a.setParameter name objectType) = some a1 := by
  cases v with
  | arr xs => exact studyListValues_ok name xs a h
  | null => exact setParameter_ok a name _ (h _ (by simp [entriesOf]))
  | bool b => exact setParameter_ok a name _ (h _ (by simp [entriesOf]))
  | num n => exact setParameter_ok a name _ (h _ (by simp [entriesOf]))
  | str s => exact setParameter_ok a name _ (h _ (by simp [entriesOf]))
  | obj o => exact setParameter_ok a name _ (h _ (by simp [entriesOf]))

theorem studyMapKeys_ok (key objectIndex : String) (mapType todo : List (String × Json))
    (a : action)
    (h : ∀ mapKey ∈ todo.map Prod.fst, ∀ x ∈ entriesOf (mapIndex mapType mapKey),
      paramOk mapKey x) :
    ∃ a1, studyMapKeys key objectIndex mapType todo a = some a1 := by
  induction todo generalizing a with
  | nil => exact ⟨a, rfl⟩
  | cons x rest ih =>
    obtain ⟨mapKey, v⟩ := x
    obtain ⟨a1, ha1⟩ := routed_ok mapKey (mapIndex mapType mapKey) a (h mapKey (by simp))
    obtain ⟨a2, ha2⟩ := setParameter_ok a1 "context" (Json.str (key ++ "." ++ objectIndex))
      (fun _ => ⟨_, rfl⟩)
    obtain ⟨a3, ha3⟩ := ih a2 (fun k hk => h k (by simp at hk ⊢; exact Or.inr hk))
    refine ⟨a3, ?_⟩
    rw [studyMapKeys]
    simp only [ha1, Option.bind, ha2, ha3]

theorem studyMapKeys_fields (key objectIndex : String) (mapType todo : List (String × Json))
    (a a1 : action) (hnd : (mapType.map Prod.fst).Nodup) (hsub : ∀ x ∈ todo, x ∈ mapType)
    (h : studyMapKeys key objectIndex mapType todo a = some a1) :
    a1.Values = a.Values ++ collect ["values", "value"] todo
    ∧ a1.Replaces = a.Replaces ++ collect ["replaces", "replace"] todo
    ∧ a1.Map = a.Map ++ collect ["*", "all"] todo := by
  induction todo generalizing a with
  | nil =>
    simp [studyMapKeys] at h
    subst h
    simp [collect]
  | cons x rest ih =>
    obtain ⟨mapKey, v⟩ := x
    have hidx : mapIndex mapType mapKey = v := by
      simp [mapIndex, mapLookup_of_mem mapType mapKey v hnd (hsub _ (by simp))]
    rw [studyMapKeys, hidx] at h
    cases hr : (match v with
          | Json.arr objectType => studyListValues mapKey objectType a
          | objectType => a.setParameter mapKey objectType) with
    | none => simp [hr] at h
    | some a2 =>
      simp only [hr, Option.bind] at h
      cases hc : a2.setParameter "context" (Json.str (key ++ "." ++ objectIndex)) with
      | none => simp [hc] at h
      | some a3 =>
        simp only [hc] at h
        obtain ⟨f1, f2, f3⟩ := routed_fields mapKey v a a2 hr
        obtain ⟨c1, c2, c3⟩ := setParameter_fields a2 a3 "context" _ hc
        obtain ⟨g1, g2, g3⟩ := ih a3 (fun y hy => hsub y (by simp [hy])) h
        have n1 : "context" ∉ ["values", "value"] := by decide
        have n2 : "context" ∉ ["replaces", "replace"] := by decide
        have n3 : "context" ∉ ["*", "all"] := by decide
        rw [if_neg n1] at c1
        rw [if_neg n2] at c2
        rw [if_neg n3] at c3
        rw [g1, g2, g3, c1, c2, c3, f1, f2, f3]
        simp [collect]

theorem studyMapInterfaceActions_ok (key objectIndex : String) (actions : List action)
    (recipe : Json)
    (h : ∀ mapType,
      Data (Path recipe (RecipeKey ++ "." ++ key ++ "." ++ objectIndex)) = Json.obj mapType →
      blockOk mapType) :
    ∃ actions1, studyMapInterfaceActions key objectIndex actions recipe = some actions1 := by
  unfold studyMapInterfaceActions
  cases hd : Data (Path recipe (RecipeKey ++ "." ++ key ++ "." ++ objectIndex)) with
  | obj mapType =>
    obtain ⟨a1, ha1⟩ := studyMapKeys_ok key objectIndex mapType mapType action.zero (h mapType hd)
    exact ⟨actions ++ [a1], by simp [ha1]⟩
  | null => exact ⟨_, rfl⟩
  | bool b => exact ⟨_, rfl⟩
  | num n => exact ⟨_, rfl⟩
  | str s => exact ⟨_, rfl⟩
  | arr xs => exact ⟨_, rfl⟩

theorem studyMapInterfaceAction_ok (key objectIndex : String) (aux : List (String × action))
    (recipe : Json) (om : List (String × Json))
    (hpath : Data (Path recipe (RecipeKey ++ "." ++ key)) = Json.obj om)
    (hok : controlKeyOk om objectIndex) :
    ∃ aux1, studyMapInterfaceAction key objectIndex aux recipe = some aux1 := by
  by_cases hv : objectIndex = "values"
  · subst hv
    obtain ⟨first, more, hfm⟩ := hok.1 rfl
    rw [studyMapInterfaceAction_values key aux recipe om hpath, hfm]
    exact ⟨_, rfl⟩
  · rw [studyMapInterfaceAction_value key objectIndex aux recipe om hpath hv]
    obtain ⟨a1, ha1⟩ := setParameter_ok ((mapLookup aux key).getD action.zero) objectIndex
      (mapIndex om objectIndex) (hok.2 hv)
    rw [ha1]
    exact ⟨_, rfl⟩

theorem studyMapInterfaceRecipeLoop_ok (key : String) (recipe : Json)
    (todo : List (String × Json)) (actions : List action) (aux : List (String × action))
    (hok : entryOk key todo recipe) :
    ∃ r, studyMapInterfaceRecipeLoop key recipe todo actions aux = some r := by
  induction todo generalizing actions aux with
  | nil => exact ⟨_, rfl⟩
  | cons x rest ih =>
    obtain ⟨objectIndex, v⟩ := x
    have hrest : entryOk key rest recipe :=
      ⟨fun idx hidx => hok.1 idx (by simp at hidx ⊢; exact Or.inr hidx),
       fun I hI => hok.2 I (by simp at hI ⊢; exact Or.inr hI)⟩
    rw [studyMapInterfaceRecipeLoop]
    by_cases hc : isControlKey objectIndex = true
    · rw [if_pos hc]
      obtain ⟨om, hpath, hk⟩ := hok.1 objectIndex (by simp) hc
      obtain ⟨aux1, h1⟩ := studyMapInterfaceAction_ok key objectIndex aux recipe om hpath hk
      obtain ⟨r, hr⟩ := ih actions aux1 hrest
      exact ⟨r, by simp [h1, hr]⟩
    · rw [if_neg hc]
      obtain ⟨actions1, h1⟩ := studyMapInterfaceActions_ok key objectIndex actions recipe
        (hok.2 objectIndex (by simp) ((Bool.not_eq_true _).mp hc))
      obtain ⟨r, hr⟩ := ih actions1 aux hrest
      exact ⟨r, by simp [h1, hr]⟩

/-- A well-typed entry is studied without abort. -/
theorem studyMapInterfaceRecipe_ok (key : String) (o : List (String × Json)) (recipe : Json)
    (hok : entryOk key o recipe) :
    ∃ acts, studyMapInterfaceRecipe key o recipe = some acts := by
  obtain ⟨r, hr⟩ := studyMapInterfaceRecipeLoop_ok key recipe o [] [] hok
  exact ⟨r.1 ++ r.2.map Prod.snd, by simp [studyMapInterfaceRecipe, hr]⟩

/-! ## C14 -/

/-- C14, counterexample.  In the recipe `{"recipe":{"k":{"inner":{}}}}` the
sub-block of the nested key `inner` is an object, and in the recipe
`{"recipe":{"k":{"in.ner":{"values":["a"]}}}}` so is the sub-block of the
nested key `in.ner`; each time the study returns the zero action, whose Context
is empty and whose Values are empty. -/
theorem C14_counterexample :
    Peterjsons.study
        { material := Json.obj [],
          recipe := Json.obj [("recipe", Json.obj [("k", Json.obj [("inner", Json.obj [])])])],
          result := gabsNew }
      = some ([{ Context := "", Values := [], Operation := "", Format := "", Separator := "",
                 Replaces := [], Map := [] }], none)
    ∧ Peterjsons.study
        { material := Json.obj [],
          recipe := Json.obj [("recipe", Json.obj [("k", Json.obj
            [("in.ner", Json.obj [("values", Json.arr [Json.str "a"])])])])],
          result := gabsNew }
      = some ([{ Context := "", Values := [], Operation := "", Format := "", Separator := "",
                 Replaces := [], Map := [] }], none) :=
  ⟨rfl, rfl⟩

/-- C14, amended.  For every outer key `K` and nested key `I` whose path
`recipe.K.I` leads, in the recipe document, to a non-empty object whose fields
can be routed (the sub-block itself when `K` and `I` have no dot), the study of
the nested key returns and appends one separate action with Context `K.I`, in
which, field by field in iteration order, a field `values` or `value` whose
value is a list `[v1..vn]` contributes `v1..vn` to Values as `n` separate
entries in list order and a non-list value contributes a single entry;
likewise `replaces` and `replace` to Replaces, and `*` and `all` to Map. -/
theorem C14_nested_action (key objectIndex : String) (actions : List action) (recipe : Json)
    (mapType : List (String × Json))
    (hpath : Data (Path recipe (RecipeKey ++ "." ++ key ++ "." ++ objectIndex))
      = Json.obj mapType)
    (hne : mapType ≠ [])
    (hnd : (mapType.map Prod.fst).Nodup)
    (hok : blockOk mapType) :
    ∃ sa, studyMapInterfaceActions key objectIndex actions recipe = some (actions ++ [sa])
      ∧ sa.Context = key ++ "." ++ objectIndex
      ∧ sa.Values = collect ["values", "value"] mapType
      ∧ sa.Replaces = collect ["replaces", "replace"] mapType
      ∧ sa.Map = collect ["*", "all"] mapType := by
  obtain ⟨sa, hsa⟩ := studyMapKeys_ok key objectIndex mapType mapType action.zero hok
  obtain ⟨f1, f2, f3⟩ := studyMapKeys_fields key objectIndex mapType mapType action.zero sa hnd
    (fun x hx => hx) hsa
  refine ⟨sa, ?_, studyMapKeys_context key objectIndex mapType mapType action.zero sa hne hsa,
    ?_, ?_, ?_⟩
  · simp [studyMapInterfaceActions, hpath, hsa]
  · simpa [action.zero] using f1
  · simpa [action.zero] using f2
  · simpa [action.zero] using f3

/-- C14, at a concrete input: in the recipe
`{"recipe":{"k":{"inner":{"operation":"concat","values":["a","b"],"value":"c"}}}}`
the nested key `inner` gives the action with Context `k.inner` and Values
`[a, b, c]`. -/
theorem C14_nested_action_witness :
    ∃ sa, studyMapInterfaceActions "k" "inner" []
        (Json.obj [("recipe", Json.obj [("k", Json.obj [("inner", Json.obj
          [("operation", Json.str "concat"),
           ("values", Json.arr [Json.str "a", Json.str "b"]),
           ("value", Json.str "c")])])])])
        = some ([] ++ [sa])
      ∧ sa.Context = "k.inner"
      ∧ sa.Values = [Json.str "a", Json.str "b", Json.str "c"]
      ∧ sa.Replaces = []
      ∧ sa.Map = [] :=
  C14_nested_action "k" "inner" []
    (Json.obj [("recipe", Json.obj [("k", Json.obj [("inner", Json.obj
      [("operation", Json.str "concat"),
       ("values", Json.arr [Json.str "a", Json.str "b"]),
       ("value", Json.str "c")])])])])
    [("operation", Json.str "concat"), ("values", Json.arr [Json.str "a", Json.str "b"]),
     ("value", Json.str "c")]
    rfl (by simp) (by decide)
    (by
      intro mapKey hk x hx
      simp at hk
      rcases hk with hk | hk | hk <;> subst hk
      · simp [mapIndex, mapLookup, entriesOf] at hx
        subst hx
        exact fun _ => ⟨_, rfl⟩
      · exact fun h => absurd h (by decide)
      · exact fun h => absurd h (by decide))

/-! ## The fields of the control-key action -/

theorem setParameter_strings (a a1 : action) (name : String) (v : Json)
    (h : a.setParameter name v = some a1) :
    (name = "operation" → v = Json.str a1.Operation)
    ∧ (name ≠ "operation" → a1.Operation = a.Operation)
    ∧ (name = "format" → v = Json.str a1.Format)
    ∧ (name ≠ "format" → a1.Format = a.Format)
    ∧ (name = "separator" → v = Json.str a1.Separator)
    ∧ (name ≠ "separator" → a1.Separator = a.Separator) := by
  unfold action.setParameter at h
  split_ifs at h with h1 h2 h3 h4 h5 h6 h7
  · cases v <;> simp [asString] at h
    subst h
    subst h1
    simp
  · cases v <;> simp [asString] at h
    subst h
    subst h2
    simp
  · cases v <;> simp [asString] at h
    subst h
    subst h3
    simp
  · cases v <;> simp [asString] at h
    subst h
    subst h4
    simp
  · simp at h
    subst h
    exact ⟨fun e => absurd e h1, fun _ => rfl, fun e => absurd e h2, fun _ => rfl,
      fun e => absurd e h3, fun _ => rfl⟩
  · simp at h
    subst h
    exact ⟨fun e => absurd e h1, fun _ => rfl, fun e => absurd e h2, fun _ => rfl,
      fun e => absurd e h3, fun _ => rfl⟩
  · simp at h
    subst h
    exact ⟨fun e => absurd e h1, fun _ => rfl, fun e => absurd e h2, fun _ => rfl,
      fun e => absurd e h3, fun _ => rfl⟩
  · simp at h
    subst h
    exact ⟨fun e => absurd e h1, fun _ => rfl, fun e => absurd e h2, fun _ => rfl,
      fun e => absurd e h3, fun _ => rfl⟩

theorem studyMapInterfaceAction_routed (key idx0 : String) (aux aux1 : List (String × action))
    (recipe : Json) (om : List (String × Json))
    (hpath : Data (Path recipe (RecipeKey ++ "." ++ key)) = Json.obj om)
    (h : studyMapInterfaceAction key idx0 aux recipe = some aux1) :
    ∃ a1, aux1 = mapAssign aux key a1 ∧ a1.Context = key
      ∧ (idx0 ≠ "map" → fieldRouted om idx0 a1)
      ∧ ∀ idx, fieldRouted om idx ((mapLookup aux key).getD action.zero) →
          fieldRouted om idx a1 := by
  by_cases hv : idx0 = "values"
  · subst hv
    rw [studyMapInterfaceAction_values key aux recipe om hpath] at h
    cases hs : asSlice (mapIndex om "values") with
    | none => simp [hs] at h
    | some xs =>
      cases xs with
      | nil => simp [hs] at h
      | cons first more =>
        simp [hs] at h
        have harr : mapIndex om "values" = Json.arr (first :: more) := by
          cases hm : mapIndex om "values" <;> simp [hm, asSlice] at hs
          rw [hs]
        refine ⟨_, h.symm, rfl, fun _ => ?_, ?_⟩
        · refine ⟨fun e => absurd e (by decide), fun e => absurd e (by decide),
            fun e => absurd e (by decide), fun e => absurd e (by decide),
            fun _ => ⟨first, more, harr, by simp⟩, ?_, ?_⟩
          · intro e
            rcases e with e | e <;> exact absurd e (by decide)
          · intro e
            rcases e with e | e <;> exact absurd e (by decide)
        · intro idx hr
          obtain ⟨r1, r2, r3, r4, r5, r6, r7⟩ := hr
          refine ⟨r1, r2, r3, ?_, ?_, r6, r7⟩
          · intro e
            exact List.mem_append_left _ (r4 e)
          · intro e
            obtain ⟨f, m, hf1, hf2⟩ := r5 e
            exact ⟨f, m, hf1, List.mem_append_left _ hf2⟩
  · rw [studyMapInterfaceAction_value key idx0 aux recipe om hpath hv] at h
    cases hs : ((mapLookup aux key).getD action.zero).setParameter idx0 (mapIndex om idx0) with
    | none => simp [hs] at h
    | some a1 =>
      simp [hs] at h
      obtain ⟨s1, s2, s3, s4, s5, s6⟩ := setParameter_strings _ a1 idx0 _ hs
      obtain ⟨f1, f2, f3⟩ := setParameter_fields _ a1 idx0 _ hs
      refine ⟨_, h.symm, rfl, fun hmap => ?_, ?_⟩
      · refine ⟨s1, s3, s5, ?_, fun e => absurd e hv, ?_, ?_⟩
        · intro e
          show mapIndex om idx0 ∈ a1.Values
          rw [f1, e]
          simp
        · intro e
          show mapIndex om idx0 ∈ a1.Replaces
          rw [f2]
          rcases e with e | e <;> simp [e]
        · intro e
          rcases e with e | e
          · show mapIndex om idx0 ∈ a1.Map
            rw [f3, e]
            simp
          · exact absurd e hmap
      · intro idx hr
        obtain ⟨r1, r2, r3, r4, r5, r6, r7⟩ := hr
        refine ⟨?_, ?_, ?_, ?_, ?_, ?_, ?_⟩
        · intro e
          show mapIndex om idx = Json.str a1.Operation
          by_cases h0 : idx0 = "operation"
          · rw [e, ← h0]
            exact s1 h0
          · rw [s2 h0]
            exact r1 e
        · intro e
          show mapIndex om idx = Json.str a1.Format
          by_cases h0 : idx0 = "format"
          · rw [e, ← h0]
            exact s3 h0
          · rw [s4 h0]
            exact r2 e
        · intro e
          show mapIndex om idx = Json.str a1.Separator
          by_cases h0 : idx0 = "separator"
          · rw [e, ← h0]
            exact s5 h0
          · rw [s6 h0]
            exact r3 e
        · intro e
          show mapIndex om idx ∈ a1.Values
          rw [f1]
          exact List.mem_append_left _ (r4 e)
        · intro e
          obtain ⟨f, m, hf1, hf2⟩ := r5 e
          refine ⟨f, m, hf1, ?_⟩
          show f ∈ a1.Values
          rw [f1]
          exact List.mem_append_left _ hf2
        · intro e
          show mapIndex om idx ∈ a1.Replaces
          rw [f2]
          exact List.mem_append_left _ (r6 e)
        · intro e
          show mapIndex om idx ∈ a1.Map
          rw [f3]
          exact List.mem_append_left _ (r7 e)

theorem studyMapInterfaceRecipeLoop_routed (key : String) (recipe : Json)
    (om todo : List (String × Json)) (actions actions1 : List action)
    (aux aux1 : List (String × action)) (done : List String)
    (hpath : Data (Path recipe (RecipeKey ++ "." ++ key)) = Json.obj om)
    (haux : (aux = [] ∧ done = [])
      ∨ ∃ a, aux = [(key, a)] ∧ ∀ idx ∈ done, idx ≠ "map" → fieldRouted om idx a)
    (h : studyMapInterfaceRecipeLoop key recipe todo actions aux = some (actions1, aux1)) :
    ∀ x ∈ aux1, ∀ idx, idx ∈ done ∨ (idx ∈ todo.map Prod.fst ∧ isControlKey idx = true) →
      idx ≠ "map" → fieldRouted om idx x.2 := by
  induction todo generalizing actions aux done with
  | nil =>
    simp [studyMapInterfaceRecipeLoop] at h
    rw [← h.2]
    intro x hx idx hidx
    rcases haux with ⟨h0, _⟩ | ⟨a, h0, hd⟩
    · rw [h0] at hx
      simp at hx
    · rw [h0] at hx
      simp at hx
      subst hx
      rcases hidx with hidx | hidx
      · exact hd idx hidx
      · simp at hidx
  | cons e rest ih =>
    obtain ⟨objectIndex, v⟩ := e
    rw [studyMapInterfaceRecipeLoop] at h
    by_cases hc : isControlKey objectIndex = true
    · rw [if_pos hc] at h
      cases hs : studyMapInterfaceAction key objectIndex aux recipe with
      | none => simp [hs] at h
      | some aux2 =>
        simp only [hs, Option.bind] at h
        obtain ⟨a1, ha1, _, hnew, hkeep⟩ :=
          studyMapInterfaceAction_routed key objectIndex aux aux2 recipe om hpath hs
        have haux2 : aux2 = [(key, a1)] := by
          rcases haux with ⟨h0, _⟩ | ⟨a0, h0, _⟩
          · rw [ha1, h0]
            simp [mapAssign]
          · rw [ha1, h0]
            simp [mapAssign]
        have hdone2 : ∀ idx ∈ objectIndex :: done, idx ≠ "map" → fieldRouted om idx a1 := by
          intro idx hidx hmap
          rcases List.mem_cons.mp hidx with hidx | hidx
          · rw [hidx]
            exact hnew (hidx ▸ hmap)
          · rcases haux with ⟨_, h1⟩ | ⟨a0, h0, hd⟩
            · rw [h1] at hidx
              simp at hidx
            · apply hkeep
              rw [h0]
              simp only [mapLookup, if_true, Option.getD]
              exact hd idx hidx hmap
        have := ih actions aux2 (objectIndex :: done) (Or.inr ⟨a1, haux2, hdone2⟩) h
        intro x hx idx hidx
        apply this x hx idx
        rcases hidx with hidx | ⟨hidx, hctl⟩
        · exact Or.inl (by simp [hidx])
        · simp at hidx
          rcases hidx with hidx | hidx
          · exact Or.inl (by simp [hidx])
          · exact Or.inr ⟨by simpa using hidx, hctl⟩
    · rw [if_neg hc] at h
      cases hs : studyMapInterfaceActions key objectIndex actions recipe with
      | none => simp [hs] at h
      | some actions2 =>
        simp only [hs, Option.bind] at h
        have := ih actions2 aux done haux h
        intro x hx idx hidx
        apply this x hx idx
        rcases hidx with hidx | ⟨hidx, hctl⟩
        · exact Or.inl hidx
        · simp at hidx
          rcases hidx with hidx | hidx
          · rw [hidx] at hctl
            exact absurd hctl hc
          · exact Or.inr ⟨by simpa using hidx, hctl⟩

theorem studyMapInterfaceRecipeLoop_needs_object (key : String) (recipe : Json)
    (todo : List (String × Json)) (actions : List action) (aux : List (String × action))
    (hno : ∀ om, Data (Path recipe (RecipeKey ++ "." ++ key)) ≠ Json.obj om)
    (hc : 0 < controlKeyCount todo) :
    studyMapInterfaceRecipeLoop key recipe todo actions aux = none := by
  induction todo generalizing actions aux with
  | nil => simp [controlKeyCount] at hc
  | cons e rest ih =>
    obtain ⟨objectIndex, v⟩ := e
    rw [studyMapInterfaceRecipeLoop]
    by_cases hk : isControlKey objectIndex = true
    · rw [if_pos hk]
      have : studyMapInterfaceAction key objectIndex aux recipe = none := by
        cases hs : studyMapInterfaceAction key objectIndex aux recipe with
        | none => rfl
        | some aux1 =>
          exfalso
          cases hd : Data (Path recipe (RecipeKey ++ "." ++ key)) with
          | obj om => exact hno om hd
          | null => simp [studyMapInterfaceAction, hd, asMap] at hs
          | bool b => simp [studyMapInterfaceAction, hd, asMap] at hs
          | num n => simp [studyMapInterfaceAction, hd, asMap] at hs
          | str s => simp [studyMapInterfaceAction, hd, asMap] at hs
          | arr xs => simp [studyMapInterfaceAction, hd, asMap] at hs
      rw [this]
      rfl
    · rw [if_neg hk]
      have hc2 : 0 < controlKeyCount rest := by
        simpa [controlKeyCount, (Bool.not_eq_true _).mp hk] using hc
      cases studyMapInterfaceActions key objectIndex actions recipe with
      | none => rfl
      | some actions1 => exact ih actions1 aux hc2

/-- The control-key action of an entry carries the field of every control key
of the entry other than `map`, as read in the object found at the path
`recipe.<key>`. -/
theorem studyMapInterfaceRecipe_routed (key : String) (o : List (String × Json))
    (recipe : Json) (acts : List action)
    (h : studyMapInterfaceRecipe key o recipe = some acts) (hc : 0 < controlKeyCount o) :
    ∃ om, Data (Path recipe (RecipeKey ++ "." ++ key)) = Json.obj om
      ∧ ∀ a, acts.getLast? = some a →
          ∀ idx ∈ o.map Prod.fst, isControlKey idx = true → idx ≠ "map" →
            fieldRouted om idx a := by
  unfold studyMapInterfaceRecipe at h
  cases hl : studyMapInterfaceRecipeLoop key recipe o [] [] with
  | none => simp [hl] at h
  | some r =>
    obtain ⟨actions1, aux1⟩ := r
    simp [hl] at h
    have hobj : ∃ om, Data (Path recipe (RecipeKey ++ "." ++ key)) = Json.obj om := by
      by_contra hno
      have hnone := studyMapInterfaceRecipeLoop_needs_object key recipe o [] []
        (fun om hom => hno ⟨om, hom⟩) hc
      rw [hnone] at hl
      cases hl
    obtain ⟨om, hom⟩ := hobj
    refine ⟨om, hom, ?_⟩
    obtain ⟨_, _, hb⟩ :=
      studyMapInterfaceRecipeLoop_shape key recipe o [] actions1 [] aux1 (Or.inl rfl) hl
    obtain ⟨a0, ha0, _⟩ := hb (Or.inr hc)
    have hrouted := studyMapInterfaceRecipeLoop_routed key recipe om o [] actions1 [] aux1 []
      hom (Or.inl ⟨rfl, rfl⟩) hl
    intro a ha idx hidx hctl
    rw [← h, ha0] at ha
    simp at ha
    subst ha
    exact hrouted (key, a0) (by simp [ha0]) idx (Or.inr ⟨hidx, hctl⟩)

/-! ## C15 and C18, the statements -/

theorem nested_context_ne_key (key objectIndex : String) : key ++ "." ++ objectIndex ≠ key := by
  intro h
  have := congrArg String.length h
  simp [String.length_append] at this
  have h1 : (".".length) = 1 := by decide
  omega

theorem applyLoop_append (F : Fmt) (material : Json) (xs ys : List action) (result : Json) :
    applyLoop F material (xs ++ ys) result
      = (applyLoop F material xs result).bind (applyLoop F material ys) := by
  induction xs generalizing result with
  | nil => simp [applyLoop]
  | cons a rest ih =>
    rw [List.cons_append, applyLoop, applyLoop]
    split_ifs
    · cases swapAction F a material result <;> simp [ih]
    · cases concatAction F a material result <;> simp [ih]
    · cases swapmapAction a material result <;> simp [ih]
    · exact ih result

theorem studyMapInterfaceRecipe_shape (key : String) (o : List (String × Json)) (recipe : Json)
    (acts : List action) (h : studyMapInterfaceRecipe key o recipe = some acts) :
    ∃ nested ctl, acts = nested ++ ctl
      ∧ nested.length = nestedKeyCount o
      ∧ (∀ a ∈ nested, ∃ I ∈ o.map Prod.fst, isControlKey I = false
          ∧ (a.Context = key ++ "." ++ I ∨ a = action.zero))
      ∧ (controlKeyCount o = 0 → ctl = [])
      ∧ (0 < controlKeyCount o → ∃ a, ctl = [a] ∧ a.Context = key) := by
  unfold studyMapInterfaceRecipe at h
  cases hl : studyMapInterfaceRecipeLoop key recipe o [] [] with
  | none => simp [hl] at h
  | some r =>
    obtain ⟨actions1, aux1⟩ := r
    simp [hl] at h
    obtain ⟨⟨nested, hn1, hn2, hn3⟩, ha, hb⟩ :=
      studyMapInterfaceRecipeLoop_shape key recipe o [] actions1 [] aux1 (Or.inl rfl) hl
    refine ⟨nested, aux1.map Prod.snd, ?_, hn2, hn3, ?_, ?_⟩
    · rw [← h, hn1]
      simp
    · intro hc
      rw [ha rfl hc]
      rfl
    · intro hc
      obtain ⟨a, ha1, ha2⟩ := hb (Or.inr hc)
      exact ⟨a, by rw [ha1]; rfl, ha2⟩

/-- The actions of one object-valued entry.  For every object-valued recipe
entry under outer key `K` with `c` control keys and `n` nested keys, a
well-typed entry is studied without abort, and whenever the study of the entry
returns it yields exactly `n + (1 if c > 0 else 0)` actions: one per nested
key, plus, when `c > 0`, one single action, which comes last, has Context `K`
and carries the field of every control key of the entry other than `map`, as
stored in the object at `recipe.K`; for a non-empty `K` it is the only action
with Context `K`. -/
theorem studyMapInterfaceRecipe_actions_per_entry (key : String) (o : List (String × Json))
    (recipe : Json) :
    (entryOk key o recipe → ∃ acts, studyMapInterfaceRecipe key o recipe = some acts)
    ∧ ∀ acts, studyMapInterfaceRecipe key o recipe = some acts →
        acts.length = nestedKeyCount o + (if 0 < controlKeyCount o then 1 else 0)
        ∧ (0 < controlKeyCount o → ∃ a om, acts.getLast? = some a ∧ a.Context = key
              ∧ Data (Path recipe (RecipeKey ++ "." ++ key)) = Json.obj om
              ∧ ∀ idx ∈ o.map Prod.fst, isControlKey idx = true → idx ≠ "map" →
                  fieldRouted om idx a)
        ∧ (key ≠ "" → (acts.filter fun a => decide (a.Context = key)).length
              = if 0 < controlKeyCount o then 1 else 0) := by
  refine ⟨studyMapInterfaceRecipe_ok key o recipe, ?_⟩
  intro acts h
  obtain ⟨nested, ctl, hacts, hn, hnested, hc0, hc1⟩ :=
    studyMapInterfaceRecipe_shape key o recipe acts h
  have hfilter : key ≠ "" → nested.filter (fun a => decide (a.Context = key)) = [] := by
    intro hk
    apply List.filter_eq_nil_iff.mpr
    intro a ha
    obtain ⟨I, _, _, hI⟩ := hnested a ha
    rcases hI with hI | hI
    · simp [hI, nested_context_ne_key]
    · simp [hI, action.zero, Ne.symm hk]
  by_cases hc : 0 < controlKeyCount o
  · obtain ⟨a, ha, hctx⟩ := hc1 hc
    obtain ⟨om, hom, hrouted⟩ := studyMapInterfaceRecipe_routed key o recipe acts h hc
    subst hacts
    subst ha
    refine ⟨by simp [hn, hc],
      fun _ => ⟨a, om, by simp, hctx, hom, hrouted a (by simp)⟩, fun hk => ?_⟩
    simp [List.filter_append, hfilter hk, hctx, hc]
  · have hz : controlKeyCount o = 0 := by omega
    have := hc0 hz
    subst hacts
    subst this
    refine ⟨by simp [hn, hc], fun h0 => absurd h0 hc, fun hk => ?_⟩
    simp [hfilter hk, hc]

/-- C15, the run that departs from the claim.  The entry
`{"operation":"swapmap","values":["items"],"map":{"id":{"value":"id"}}}` under
the key `out` has `c = 3` control keys and `n = 0` nested keys, and the path
`recipe.out` leads to the entry itself.  Its study yields the one action the
claim counts, with Context `out`, and that action carries the fields of
`operation` and `values`, but not the field of the control key `map`: its Map
is empty.  With the key `*` in place of `map` the same entry is studied into
an action that carries all three fields. -/
theorem C15_map_field_is_not_accumulated :
    studyMapInterfaceRecipe "out"
        [("operation", Json.str "swapmap"), ("values", Json.arr [Json.str "items"]),
         ("map", Json.obj [("id", Json.obj [("value", Json.str "id")])])]
        (Json.obj [("recipe", Json.obj [("out", Json.obj
          [("operation", Json.str "swapmap"), ("values", Json.arr [Json.str "items"]),
           ("map", Json.obj [("id", Json.obj [("value", Json.str "id")])])])])])
      = some [{ Context := "out", Values := [Json.str "items"], Operation := "swapmap",
                Format := "", Separator := "", Replaces := [], Map := [] }]
    ∧ controlKeyCount
        [("operation", Json.str "swapmap"), ("values", Json.arr [Json.str "items"]),
         ("map", Json.obj [("id", Json.obj [("value", Json.str "id")])])] = 3
    ∧ nestedKeyCount
        [("operation", Json.str "swapmap"), ("values", Json.arr [Json.str "items"]),
         ("map", Json.obj [("id", Json.obj [("value", Json.str "id")])])] = 0
    ∧ Data (Path (Json.obj [("recipe", Json.obj [("out", Json.obj
          [("operation", Json.str "swapmap"), ("values", Json.arr [Json.str "items"]),
           ("map", Json.obj [("id", Json.obj [("value", Json.str "id")])])])])])
        (RecipeKey ++ "." ++ "out"))
      = Json.obj
          [("operation", Json.str "swapmap"), ("values", Json.arr [Json.str "items"]),
           ("map", Json.obj [("id", Json.obj [("value", Json.str "id")])])]
    ∧ fieldRouted
        [("operation", Json.str "swapmap"), ("values", Json.arr [Json.str "items"]),
         ("map", Json.obj [("id", Json.obj [("value", Json.str "id")])])]
        "operation"
        { Context := "out", Values := [Json.str "items"], Operation := "swapmap",
          Format := "", Separator := "", Replaces := [], Map := [] }
    ∧ fieldRouted
        [("operation", Json.str "swapmap"), ("values", Json.arr [Json.str "items"]),
         ("map", Json.obj [("id", Json.obj [("value", Json.str "id")])])]
        "values"
        { Context := "out", Values := [Json.str "items"], Operation := "swapmap",
          Format := "", Separator := "", Replaces := [], Map := [] }
    ∧ ¬ fieldRouted
        [("operation", Json.str "swapmap"), ("values", Json.arr [Json.str "items"]),
         ("map", Json.obj [("id", Json.obj [("value", Json.str "id")])])]
        "map"
        { Context := "out", Values := [Json.str "items"], Operation := "swapmap",
          Format := "", Separator := "", Replaces := [], Map := [] }
    ∧ studyMapInterfaceRecipe "out"
        [("operation", Json.str "swapmap"), ("values", Json.arr [Json.str "items"]),
         ("*", Json.obj [("id", Json.obj [("value", Json.str "id")])])]
        (Json.obj [("recipe", Json.obj [("out", Json.obj
          [("operation", Json.str "swapmap"), ("values", Json.arr [Json.str "items"]),
           ("*", Json.obj [("id", Json.obj [("value", Json.str "id")])])])])])
      = some [{ Context := "out", Values := [Json.str "items"], Operation := "swapmap",
                Format := "", Separator := "", Replaces := [],
                Map := [Json.obj [("id", Json.obj [("value", Json.str "id")])]] }]
    ∧ fieldRouted
        [("operation", Json.str "swapmap"), ("values", Json.arr [Json.str "items"]),
         ("*", Json.obj [("id", Json.obj [("value", Json.str "id")])])]
        "*"
        { Context := "out", Values := [Json.str "items"], Operation := "swapmap",
          Format := "", Separator := "", Replaces := [],
          Map := [Json.obj [("id", Json.obj [("value", Json.str "id")])]] } := by
  refine ⟨rfl, rfl, rfl, rfl, ?_, ?_, ?_, rfl, ?_⟩
  · refine ⟨fun _ => rfl, fun e => absurd e (by decide), fun e => absurd e (by decide),
      fun e => absurd e (by decide), fun e => absurd e (by decide), ?_, ?_⟩
    · intro e
      rcases e with e | e <;> exact absurd e (by decide)
    · intro e
      rcases e with e | e <;> exact absurd e (by decide)
  · refine ⟨fun e => absurd e (by decide), fun e => absurd e (by decide),
      fun e => absurd e (by decide), fun e => absurd e (by decide),
      fun _ => ⟨Json.str "items", [], rfl, by simp⟩, ?_, ?_⟩
    · intro e
      rcases e with e | e <;> exact absurd e (by decide)
    · intro e
      rcases e with e | e <;> exact absurd e (by decide)
  · intro h
    have := h.2.2.2.2.2.2 (Or.inr rfl)
    simp at this
  · refine ⟨fun e => absurd e (by decide), fun e => absurd e (by decide),
      fun e => absurd e (by decide), fun e => absurd e (by decide),
      fun e => absurd e (by decide), ?_, ?_⟩
    · intro e
      rcases e with e | e <;> exact absurd e (by decide)
    · intro _
      show mapIndex _ "*" ∈ [Json.obj [("id", Json.obj [("value", Json.str "id")])]]
      have e : mapIndex
          [("operation", Json.str "swapmap"), ("values", Json.arr [Json.str "items"]),
           ("*", Json.obj [("id", Json.obj [("value", Json.str "id")])])] "*"
          = Json.obj [("id", Json.obj [("value", Json.str "id")])] := rfl
      rw [e]
      simp

/-- C18.  For every object-valued recipe entry under outer key `K`, whatever the
iteration order of the entry's keys, the list returned by
`studyMapInterfaceRecipe` is the nested actions, one per nested key, each with
Context `K.<innerKey>` or the zero action, followed by the single control-key
action with Context `K` when the entry has a control key, and by nothing
otherwise; hence `apply` runs every nested action before the write to `K`. -/
theorem C18_control_action_last (key : String) (o : List (String × Json)) (recipe : Json)
    (acts : List action) (h : studyMapInterfaceRecipe key o recipe = some acts) :
    ∃ nested ctl, acts = nested ++ ctl
      ∧ nested.length = nestedKeyCount o
      ∧ (∀ a ∈ nested, ∃ I ∈ o.map Prod.fst, isControlKey I = false
          ∧ (a.Context = key ++ "." ++ I ∨ a = action.zero))
      ∧ (controlKeyCount o = 0 → ctl = [])
      ∧ (0 < controlKeyCount o → ∃ a, ctl = [a] ∧ a.Context = key)
      ∧ ∀ (F : Fmt) (material result : Json),
          applyLoop F material acts result
            = (applyLoop F material nested result).bind (applyLoop F material ctl) := by
  obtain ⟨nested, ctl, hacts, hn, hnested, hc0, hc1⟩ :=
    studyMapInterfaceRecipe_shape key o recipe acts h
  refine ⟨nested, ctl, hacts, hn, hnested, hc0, hc1, ?_⟩
  intro F material result
  rw [hacts, applyLoop_append]

/-- C18, at a concrete input: the entry
`{"operation":"swap","inner":{"operation":"swap","value":"b"},"value":"a"}`
under the key `k`, visited with the control keys first and last, is studied
into the nested action followed by the control-key action; over the material
`{"a":"1","b":"2"}` the write to `k` comes after the write to `k.inner`, and
the result is `{"k":"1"}`. -/
theorem C18_control_action_last_witness :
    (∃ nested ctl,
        [({ Context := "k.inner", Values := [Json.str "b"], Operation := "swap", Format := "",
            Separator := "", Replaces := [], Map := [] } : action),
         { Context := "k", Values := [Json.str "a"], Operation := "swap", Format := "",
           Separator := "", Replaces := [], Map := [] }] = nested ++ ctl
      ∧ nested.length = 1
      ∧ ∃ a, ctl = [a] ∧ a.Context = "k")
    ∧ (Peterjsons.Cook Fmt.basic
        { material := Json.obj [("a", Json.str "1"), ("b", Json.str "2")],
          recipe := Json.obj [("recipe", Json.obj [("k", Json.obj
            [("operation", Json.str "swap"),
             ("inner", Json.obj [("operation", Json.str "swap"), ("value", Json.str "b")]),
             ("value", Json.str "a")])])],
          result := gabsNew }).map (fun r => r.1.result)
      = some (Json.obj [("k", Json.str "1")]) := by
  obtain ⟨nested, ctl, h1, h2, _, _, h5, _⟩ := C18_control_action_last "k"
    [("operation", Json.str "swap"),
     ("inner", Json.obj [("operation", Json.str "swap"), ("value", Json.str "b")]),
     ("value", Json.str "a")]
    (Json.obj [("recipe", Json.obj [("k", Json.obj
      [("operation", Json.str "swap"),
       ("inner", Json.obj [("operation", Json.str "swap"), ("value", Json.str "b")]),
       ("value", Json.str "a")])])])
    [{ Context := "k.inner", Values := [Json.str "b"], Operation := "swap", Format := "",
       Separator := "", Replaces := [], Map := [] },
     { Context := "k", Values := [Json.str "a"], Operation := "swap", Format := "",
       Separator := "", Replaces := [], Map := [] }]
    rfl
  exact ⟨⟨nested, ctl, h1, h2, h5 (by decide)⟩, rfl⟩

/-! ## Paths into the recipe document -/

theorem splitDots_append_dot (xs ys : List Char) :
    splitDots (xs ++ '.' :: ys) = splitDots xs ++ splitDots ys := by
  induction xs with
  | nil => simp [splitDots]
  | cons c xs ih =>
    by_cases hc : c = '.'
    · simp [splitDots, hc, ih]
    · have e1 : ∀ zs, splitDots (c :: zs)
          = (match splitDots zs with
             | [] => [[c]]
             | seg :: segs => (c :: seg) :: segs) := by
        intro zs
        simp [splitDots, hc]
      cases hs : splitDots xs with
      | nil => exact absurd hs (splitDots_ne_nil xs)
      | cons seg segs =>
        rw [List.cons_append, e1, e1, ih, hs]
        simp

theorem splitPath_append_dot (a b : String) :
    splitPath (a ++ "." ++ b) = splitPath a ++ splitPath b := by
  have hdata : (a ++ "." ++ b).data = a.data ++ '.' :: b.data := by
    simp [String.data_append]
  simp [splitPath, hdata, splitDots_append_dot]

theorem splitPath_ne_nil (p : String) : splitPath p ≠ [] := by
  simp [splitPath, splitDots_ne_nil]

theorem splitDots_single (cs seg : List Char) (h : splitDots cs = [seg]) : seg = cs := by
  induction cs generalizing seg with
  | nil =>
    simp [splitDots] at h
    exact h
  | cons c cs ih =>
    by_cases hc : c = '.'
    · simp [splitDots, hc] at h
      exact absurd h.2 (splitDots_ne_nil cs)
    · simp only [splitDots, if_neg hc] at h
      cases hs : splitDots cs with
      | nil => exact absurd hs (splitDots_ne_nil cs)
      | cons seg1 segs =>
        simp [hs] at h
        obtain ⟨h1, h2⟩ := h
        subst h2
        rw [ih seg1 hs] at h1
        exact h1.symm

theorem splitPath_single (p k : String) (h : splitPath p = [k]) : k = p := by
  unfold splitPath at h
  cases hs : splitDots p.data with
  | nil => exact absurd hs (splitDots_ne_nil _)
  | cons seg segs =>
    simp [hs] at h
    obtain ⟨h1, h2⟩ := h
    subst h2
    have := splitDots_single p.data seg hs
    rw [← h1, this]

theorem Search_obj_cons (kvs : List (String × Json)) (k : String) (rest : List String) :
    Search (Json.obj kvs) (k :: rest) = (mapLookup kvs k).bind fun v => Search v rest := by
  simp [Search, searchObj_eq]

/-- The path `recipe.<p>` is searched below the recipe object. -/
theorem Path_recipe (kvs es : List (String × Json)) (p : String)
    (hrec : mapLookup kvs RecipeKey = some (Json.obj es)) :
    Path (Json.obj kvs) (RecipeKey ++ "." ++ p) = Search (Json.obj es) (splitPath p) := by
  have hsplit : splitPath RecipeKey = [RecipeKey] := by decide
  rw [Path, splitPath_append_dot, hsplit, List.singleton_append, Search_obj_cons, hrec]
  rfl

/-- The re-resolution of a dot-free outer key finds the entry itself. -/
theorem Path_recipe_entry (kvs es : List (String × Json)) (K : String) (v : Json)
    (hrec : mapLookup kvs RecipeKey = some (Json.obj es))
    (hnd : (es.map Prod.fst).Nodup) (hK : (K, v) ∈ es) (hdot : '.' ∉ K.data) :
    Path (Json.obj kvs) (RecipeKey ++ "." ++ K) = some v := by
  rw [Path_recipe kvs es K hrec, splitPath_of_no_dot K hdot, Search_obj_cons,
    mapLookup_of_mem es K v hnd hK]
  simp [Search_nil]

/-- The re-resolution of a dot-free nested key of a dot-free outer key finds
the sub-block itself. -/
theorem Path_recipe_nested (kvs es o : List (String × Json)) (K I : String) (w : Json)
    (hrec : mapLookup kvs RecipeKey = some (Json.obj es))
    (hnd : (es.map Prod.fst).Nodup) (hK : (K, Json.obj o) ∈ es) (hdot : '.' ∉ K.data)
    (hndo : (o.map Prod.fst).Nodup) (hI : (I, w) ∈ o) (hdotI : '.' ∉ I.data) :
    Path (Json.obj kvs) (RecipeKey ++ "." ++ K ++ "." ++ I) = some w := by
  have hassoc : RecipeKey ++ "." ++ K ++ "." ++ I = RecipeKey ++ "." ++ (K ++ "." ++ I) := by
    simp [String.append_assoc]
  rw [hassoc, Path_recipe kvs es _ hrec, splitPath_append_dot, splitPath_of_no_dot K hdot,
    splitPath_of_no_dot I hdotI]
  simp [Search_obj_cons, mapLookup_of_mem es K _ hnd hK, mapLookup_of_mem o I w hndo hI,
    Search_nil]

/-! ## C16 -/

theorem studyMapInterfaceAction_structural (key objectIndex : String)
    (aux : List (String × action)) (recipe : Json) :
    studyMapInterfaceAction key objectIndex aux recipe
      = structuralControlKey key objectIndex aux (Data (Path recipe (RecipeKey ++ "." ++ key))) :=
  rfl

theorem studyMapInterfaceActions_structural (key objectIndex : String)
    (actions : List action) (recipe : Json) :
    studyMapInterfaceActions key objectIndex actions recipe
      = structuralNestedKey key objectIndex actions
          (Data (Path recipe (RecipeKey ++ "." ++ key ++ "." ++ objectIndex))) :=
  rfl

theorem studyMapInterfaceRecipeLoop_structural (key : String) (recipe : Json)
    (object todo : List (String × Json)) (actions : List action) (aux : List (String × action))
    (hentry : Data (Path recipe (RecipeKey ++ "." ++ key)) = Json.obj object)
    (hnested : ∀ I w, (I, w) ∈ todo →
      Data (Path recipe (RecipeKey ++ "." ++ key ++ "." ++ I)) = w) :
    studyMapInterfaceRecipeLoop key recipe todo actions aux
      = structuralEntryLoop key object todo actions aux := by
  induction todo generalizing actions aux with
  | nil => rfl
  | cons x rest ih =>
    obtain ⟨objectIndex, sub⟩ := x
    have hrest : ∀ I w, (I, w) ∈ rest →
        Data (Path recipe (RecipeKey ++ "." ++ key ++ "." ++ I)) = w :=
      fun I w h => hnested I w (by simp [h])
    rw [studyMapInterfaceRecipeLoop, structuralEntryLoop, studyMapInterfaceAction_structural,
      studyMapInterfaceActions_structural, hentry, hnested objectIndex sub (by simp)]
    by_cases hc : isControlKey objectIndex = true
    · simp only [if_pos hc]
      cases structuralControlKey key objectIndex aux (Json.obj object) with
      | none => rfl
      | some aux1 => exact ih actions aux1 hrest
    · simp only [if_neg hc]
      cases structuralNestedKey key objectIndex actions sub with
      | none => rfl
      | some actions1 => exact ih actions1 aux hrest

theorem studyLoop_structural (peter : Peterjsons) (kvs es todo : List (String × Json))
    (hroot : peter.recipe = Json.obj kvs)
    (hrec : mapLookup kvs RecipeKey = some (Json.obj es))
    (hfree : dotFreeRecipe es) (hsub : ∀ x ∈ todo, x ∈ es) (acc : List action) :
    studyLoop peter todo acc = structuralLoop todo acc := by
  induction todo generalizing acc with
  | nil => rfl
  | cons x rest ih =>
    obtain ⟨key, object⟩ := x
    have hsub2 : ∀ x ∈ rest, x ∈ es := fun x hx => hsub x (by simp [hx])
    have hmem : (key, object) ∈ es := hsub _ (by simp)
    cases object with
    | str s => simp only [studyLoop, structuralLoop, studyInterfaceRecipe, ih hsub2]
    | obj o =>
      obtain ⟨hdot, hobj⟩ := hfree.2 key _ hmem
      obtain ⟨hndo, hdoto⟩ := hobj o rfl
      have hentry : Data (Path peter.recipe (RecipeKey ++ "." ++ key)) = Json.obj o := by
        rw [hroot, Path_recipe_entry kvs es key _ hrec hfree.1 hmem hdot]
        rfl
      have hnested : ∀ I w, (I, w) ∈ o →
          Data (Path peter.recipe (RecipeKey ++ "." ++ key ++ "." ++ I)) = w := by
        intro I w hI
        rw [hroot, Path_recipe_nested kvs es o key I w hrec hfree.1 hmem hdot hndo hI
          (hdoto I (List.mem_map.mpr ⟨_, hI, rfl⟩))]
        rfl
      have hentryEq : studyMapInterfaceRecipe key o peter.recipe = structuralEntry key o := by
        simp only [studyMapInterfaceRecipe, structuralEntry,
          studyMapInterfaceRecipeLoop_structural key peter.recipe o o [] [] hentry hnested]
      simp only [studyLoop, structuralLoop, hentryEq]
      cases structuralEntry key o with
      | none => rfl
      | some studied => exact ih hsub2 _
    | null => simp only [studyLoop, structuralLoop, ih hsub2]
    | bool b => simp only [studyLoop, structuralLoop, ih hsub2]
    | num n => simp only [studyLoop, structuralLoop, ih hsub2]
    | arr xs => simp only [studyLoop, structuralLoop, ih hsub2]

/-- C16, counterexample.  In the recipe `{"recipe":{"a.b":{"value":"x"}}}` the
key `a.b` of the recipe object names an entry, but the dotted path
`recipe.a.b` leads nowhere: the study aborts, where a structural traversal
returns the action of the entry.  In the recipe
`{"recipe":{"a.b":{"value":"x"},"a":{"b":{"value":"y"}}}}` the path
`recipe.a.b` leads to the sub-block `b` of the entry `a`, not to the entry
`a.b`: the study gives the entry `a.b` the Values `[y]`, a structural
traversal the Values `[x]`. -/
theorem C16_counterexample :
    mapLookup [("a.b", Json.obj [("value", Json.str "x")])] "a.b"
      = some (Json.obj [("value", Json.str "x")])
    ∧ Path (Json.obj [("recipe", Json.obj [("a.b", Json.obj [("value", Json.str "x")])])])
        "recipe.a.b" = none
    ∧ Peterjsons.study
        { material := Json.obj [],
          recipe := Json.obj [("recipe", Json.obj [("a.b", Json.obj [("value", Json.str "x")])])],
          result := gabsNew } = none
    ∧ studyStructural
        (Json.obj [("recipe", Json.obj [("a.b", Json.obj [("value", Json.str "x")])])])
      = some ([{ Context := "a.b", Values := [Json.str "x"], Operation := "", Format := "",
                 Separator := "", Replaces := [], Map := [] }], none)
    ∧ Path (Json.obj [("recipe", Json.obj
          [("a.b", Json.obj [("value", Json.str "x")]),
           ("a", Json.obj [("b", Json.obj [("value", Json.str "y")])])])])
        "recipe.a.b" = some (Json.obj [("value", Json.str "y")])
    ∧ Peterjsons.study
        { material := Json.obj [],
          recipe := Json.obj [("recipe", Json.obj
            [("a.b", Json.obj [("value", Json.str "x")]),
             ("a", Json.obj [("b", Json.obj [("value", Json.str "y")])])])],
          result := gabsNew }
      = some ([{ Context := "a.b", Values := [Json.str "y"], Operation := "", Format := "",
                 Separator := "", Replaces := [], Map := [] },
               { Context := "a.b", Values := [Json.str "y"], Operation := "", Format := "",
                 Separator := "", Replaces := [], Map := [] }], none)
    ∧ studyStructural
        (Json.obj [("recipe", Json.obj
          [("a.b", Json.obj [("value", Json.str "x")]),
           ("a", Json.obj [("b", Json.obj [("value", Json.str "y")])])])])
      = some ([{ Context := "a.b", Values := [Json.str "x"], Operation := "", Format := "",
                 Separator := "", Replaces := [], Map := [] },
               { Context := "a.b", Values := [Json.str "y"], Operation := "", Format := "",
                 Separator := "", Replaces := [], Map := [] }], none) :=
  ⟨rfl, rfl, rfl, rfl, rfl, rfl, rfl⟩

/-- C16, amended.  For every recipe in which no key of the `recipe` object and
no key of an object it holds contains a dot, re-resolving an entry through the
dotted path `recipe.<outerKey>`, respectively `recipe.<outerKey>.<innerKey>`,
yields the same node as direct structural lookup of that entry in the parsed
tree, and `study` returns what the structural traversal of the tree returns. -/
theorem C16_dot_free_paths_are_structural (peter : Peterjsons)
    (kvs es : List (String × Json))
    (hroot : peter.recipe = Json.obj kvs)
    (hrec : mapLookup kvs RecipeKey = some (Json.obj es))
    (hfree : dotFreeRecipe es) :
    (∀ K v, (K, v) ∈ es → Path peter.recipe (RecipeKey ++ "." ++ K) = some v)
    ∧ (∀ K o I w, (K, Json.obj o) ∈ es → (I, w) ∈ o →
        Path peter.recipe (RecipeKey ++ "." ++ K ++ "." ++ I) = some w)
    ∧ peter.study = studyStructural peter.recipe := by
  refine ⟨?_, ?_, ?_⟩
  · intro K v hK
    rw [hroot]
    exact Path_recipe_entry kvs es K v hrec hfree.1 hK (hfree.2 K v hK).1
  · intro K o I w hK hI
    obtain ⟨hdot, hobj⟩ := hfree.2 K _ hK
    obtain ⟨hndo, hdoto⟩ := hobj o rfl
    rw [hroot]
    exact Path_recipe_nested kvs es o K I w hrec hfree.1 hK hdot hndo hI
      (hdoto I (List.mem_map.mpr ⟨_, hI, rfl⟩))
  · have hc : ChildrenMap (S peter.recipe [RecipeKey]) = some es :=
      (ChildrenMap_recipe peter.recipe es).mpr ⟨kvs, hroot, hrec⟩
    simp only [Peterjsons.study, studyStructural, hc,
      studyLoop_structural peter kvs es es hroot hrec hfree (fun x hx => hx) []]

/-- C16, at a concrete input: the recipe
`{"recipe":{"k":{"operation":"swap","value":"a","inner":{"value":"b"}}}}`. -/
theorem C16_dot_free_paths_are_structural_witness :
    Path (Json.obj [("recipe", Json.obj [("k", Json.obj
          [("operation", Json.str "swap"), ("value", Json.str "a"),
           ("inner", Json.obj [("value", Json.str "b")])])])])
        (RecipeKey ++ "." ++ "k" ++ "." ++ "inner")
      = some (Json.obj [("value", Json.str "b")])
    ∧ Peterjsons.study
        { material := Json.obj [],
          recipe := Json.obj [("recipe", Json.obj [("k", Json.obj
            [("operation", Json.str "swap"), ("value", Json.str "a"),
             ("inner", Json.obj [("value", Json.str "b")])])])],
          result := gabsNew }
      = studyStructural
          (Json.obj [("recipe", Json.obj [("k", Json.obj
            [("operation", Json.str "swap"), ("value", Json.str "a"),
             ("inner", Json.obj [("value", Json.str "b")])])])]) := by
  have h := C16_dot_free_paths_are_structural
    { material := Json.obj [],
      recipe := Json.obj [("recipe", Json.obj [("k", Json.obj
        [("operation", Json.str "swap"), ("value", Json.str "a"),
         ("inner", Json.obj [("value", Json.str "b")])])])],
      result := gabsNew }
    [("recipe", Json.obj [("k", Json.obj
        [("operation", Json.str "swap"), ("value", Json.str "a"),
         ("inner", Json.obj [("value", Json.str "b")])])])]
    [("k", Json.obj
        [("operation", Json.str "swap"), ("value", Json.str "a"),
         ("inner", Json.obj [("value", Json.str "b")])])]
    rfl rfl
    ⟨by decide, by
      intro K v hK
      simp at hK
      obtain ⟨hK1, hK2⟩ := hK
      subst hK1
      subst hK2
      refine ⟨by decide, ?_⟩
      intro o ho
      cases ho
      exact ⟨by decide, by decide⟩⟩
  exact ⟨h.2.1 "k"
      [("operation", Json.str "swap"), ("value", Json.str "a"),
       ("inner", Json.obj [("value", Json.str "b")])]
      "inner" (Json.obj [("value", Json.str "b")]) (List.mem_singleton.mpr rfl) (by simp),
    h.2.2⟩

/-! ## C12 -/

theorem mapLookup_of_not_mem {α : Type} (m : List (String × α)) (k : String)
    (h : k ∉ m.map Prod.fst) : mapLookup m k = none := by
  induction m with
  | nil => rfl
  | cons e m ih =>
    obtain ⟨k0, v⟩ := e
    simp at h
    have h0 : k0 ≠ k := fun e => h.1 e.symm
    have : k ∉ m.map Prod.fst := by simpa using h.2
    simp [mapLookup, h0, ih this]

theorem mapLookup_filter_numbers (es : List (String × Json)) (k : String)
    (hnd : (es.map Prod.fst).Nodup) :
    mapLookup (es.filter fun e => !isNumber e.2) k
      = (mapLookup es k).bind fun v => if isNumber v = true then none else some v := by
  induction es with
  | nil => rfl
  | cons e es ih =>
    obtain ⟨k0, v⟩ := e
    rw [List.map_cons, List.nodup_cons] at hnd
    by_cases hk : k0 = k
    · subst hk
      have hnone : mapLookup (es.filter fun e => !isNumber e.2) k0 = none := by
        apply mapLookup_of_not_mem
        intro hmem
        obtain ⟨x, hx, hxk⟩ := List.mem_map.mp hmem
        exact hnd.1 (List.mem_map.mpr ⟨x, (List.mem_filter.mp hx).1, hxk⟩)
      by_cases hn : isNumber v = true
      · simp [List.filter, hn, mapLookup, hnone]
      · simp [List.filter, hn, mapLookup]
    · by_cases hn : isNumber v = true
      · simp [List.filter, hn, mapLookup, hk, ih hnd.2]
      · simp [List.filter, hn, mapLookup, hk, ih hnd.2]

theorem Search_number (n : ℚ) (k : String) (rest : List String) :
    Search (Json.num n) (k :: rest) = none := by
  simp [Search]

theorem Search_filter_numbers (es : List (String × Json)) (k : String) (more : List String)
    (hnd : (es.map Prod.fst).Nodup)
    (h : more ≠ [] ∨ ∀ v, mapLookup es k = some v → isNumber v = false) :
    Search (Json.obj (es.filter fun e => !isNumber e.2)) (k :: more)
      = Search (Json.obj es) (k :: more) := by
  rw [Search_obj_cons, Search_obj_cons, mapLookup_filter_numbers es k hnd]
  cases hl : mapLookup es k with
  | none => rfl
  | some v =>
    by_cases hn : isNumber v = true
    · rcases h with h | h
      · cases v <;> simp [isNumber] at hn
        cases more with
        | nil => exact absurd rfl h
        | cons m ms => simp [isNumber, Search_number]
      · rw [h v hl] at hn
        cases hn
    · simp [hn]

theorem studyMapInterfaceRecipeLoop_congr (key : String) (r1 r2 : Json)
    (todo : List (String × Json)) (actions : List action) (aux : List (String × action))
    (h1 : Data (Path r1 (RecipeKey ++ "." ++ key)) = Data (Path r2 (RecipeKey ++ "." ++ key)))
    (h2 : ∀ I, Data (Path r1 (RecipeKey ++ "." ++ key ++ "." ++ I))
      = Data (Path r2 (RecipeKey ++ "." ++ key ++ "." ++ I))) :
    studyMapInterfaceRecipeLoop key r1 todo actions aux
      = studyMapInterfaceRecipeLoop key r2 todo actions aux := by
  induction todo generalizing actions aux with
  | nil => rfl
  | cons x rest ih =>
    obtain ⟨objectIndex, sub⟩ := x
    rw [studyMapInterfaceRecipeLoop, studyMapInterfaceRecipeLoop,
      studyMapInterfaceAction_structural, studyMapInterfaceActions_structural,
      studyMapInterfaceAction_structural, studyMapInterfaceActions_structural, h1, h2]
    by_cases hc : isControlKey objectIndex = true
    · simp only [if_pos hc]
      cases structuralControlKey key objectIndex aux
          (Data (Path r2 (RecipeKey ++ "." ++ key))) with
      | none => rfl
      | some aux1 => exact ih actions aux1
    · simp only [if_neg hc]
      cases structuralNestedKey key objectIndex actions
          (Data (Path r2 (RecipeKey ++ "." ++ key ++ "." ++ objectIndex))) with
      | none => rfl
      | some actions1 => exact ih actions1 aux

theorem Path_without_numbers_entry (kvs es o : List (String × Json)) (key : String)
    (hrec : mapLookup kvs RecipeKey = some (Json.obj es))
    (hnd : (es.map Prod.fst).Nodup) (hmem : (key, Json.obj o) ∈ es) :
    Path (Json.obj (mapAssign kvs RecipeKey (Json.obj (es.filter fun e => !isNumber e.2))))
        (RecipeKey ++ "." ++ key)
      = Path (Json.obj kvs) (RecipeKey ++ "." ++ key) := by
  rw [Path_recipe _ _ key (mapLookup_mapAssign_self kvs RecipeKey _), Path_recipe kvs es key hrec]
  cases hs : splitPath key with
  | nil => exact absurd hs (splitPath_ne_nil key)
  | cons k more =>
    apply Search_filter_numbers es k more hnd
    cases more with
    | cons m ms => exact Or.inl (by simp)
    | nil =>
      right
      intro v hv
      have hk : k = key := splitPath_single key k hs
      rw [hk, mapLookup_of_mem es key _ hnd hmem] at hv
      cases hv
      rfl

theorem Path_without_numbers_nested (kvs es : List (String × Json)) (key I : String)
    (hrec : mapLookup kvs RecipeKey = some (Json.obj es))
    (hnd : (es.map Prod.fst).Nodup) :
    Path (Json.obj (mapAssign kvs RecipeKey (Json.obj (es.filter fun e => !isNumber e.2))))
        (RecipeKey ++ "." ++ key ++ "." ++ I)
      = Path (Json.obj kvs) (RecipeKey ++ "." ++ key ++ "." ++ I) := by
  have hassoc : RecipeKey ++ "." ++ key ++ "." ++ I = RecipeKey ++ "." ++ (key ++ "." ++ I) := by
    simp [String.append_assoc]
  rw [hassoc, Path_recipe _ _ _ (mapLookup_mapAssign_self kvs RecipeKey _),
    Path_recipe kvs es _ hrec, splitPath_append_dot]
  cases hs : splitPath key with
  | nil => exact absurd hs (splitPath_ne_nil key)
  | cons k more =>
    cases hi : splitPath I with
    | nil => exact absurd hi (splitPath_ne_nil I)
    | cons i is =>
      rw [List.cons_append]
      exact Search_filter_numbers es k _ hnd (Or.inl (by simp))

theorem studyLoop_without_numbers (p1 p2 : Peterjsons) (kvs es : List (String × Json))
    (h1 : p1.recipe
      = Json.obj (mapAssign kvs RecipeKey (Json.obj (es.filter fun e => !isNumber e.2))))
    (h2 : p2.recipe = Json.obj kvs)
    (hrec : mapLookup kvs RecipeKey = some (Json.obj es))
    (hnd : (es.map Prod.fst).Nodup)
    (todo : List (String × Json)) (hsub : ∀ x ∈ todo, x ∈ es) (acc : List action) :
    studyLoop p1 (todo.filter fun e => !isNumber e.2) acc = studyLoop p2 todo acc := by
  induction todo generalizing acc with
  | nil => rfl
  | cons x rest ih =>
    obtain ⟨key, object⟩ := x
    have hsub2 : ∀ x ∈ rest, x ∈ es := fun x hx => hsub x (by simp [hx])
    have hmem : (key, object) ∈ es := hsub _ (by simp)
    cases object with
    | num n =>
      rw [List.filter_cons_of_neg (by simp [isNumber])]
      simp only [studyLoop]
      exact ih hsub2 acc
    | str s =>
      rw [List.filter_cons_of_pos (by simp [isNumber])]
      simp only [studyLoop, studyInterfaceRecipe]
      exact ih hsub2 _
    | obj o =>
      have hentry : studyMapInterfaceRecipe key o p1.recipe
          = studyMapInterfaceRecipe key o p2.recipe := by
        simp only [studyMapInterfaceRecipe]
        rw [studyMapInterfaceRecipeLoop_congr key p1.recipe p2.recipe o [] []
          (by rw [h1, h2, Path_without_numbers_entry kvs es o key hrec hnd hmem])
          (by
            intro I
            rw [h1, h2, Path_without_numbers_nested kvs es key I hrec hnd])]
      rw [List.filter_cons_of_pos (by simp [isNumber])]
      simp only [studyLoop, hentry]
      cases studyMapInterfaceRecipe key o p2.recipe with
      | none => rfl
      | some studied => exact ih hsub2 _
    | null =>
      rw [List.filter_cons_of_pos (by simp [isNumber])]
      simp only [studyLoop]
      exact ih hsub2 acc
    | bool b =>
      rw [List.filter_cons_of_pos (by simp [isNumber])]
      simp only [studyLoop]
      exact ih hsub2 acc
    | arr xs =>
      rw [List.filter_cons_of_pos (by simp [isNumber])]
      simp only [studyLoop]
      exact ih hsub2 acc

/-- C12.  A recipe entry whose value is a number contributes no action and no
error: for every recipe (its `recipe` object, like any decoded object, holding
no key twice), `study` returns for the recipe with all number-valued entries
removed exactly what it returns for the recipe itself. -/
theorem C12_numbers_are_ignored (peter : Peterjsons)
    (hwf : ∀ kvs es, peter.recipe = Json.obj kvs →
      mapLookup kvs RecipeKey = some (Json.obj es) → (es.map Prod.fst).Nodup) :
    Peterjsons.study { peter with recipe := withoutNumbers peter.recipe } = peter.study := by
  cases hr : peter.recipe with
  | obj kvs =>
    cases hl : mapLookup kvs RecipeKey with
    | none =>
      have : withoutNumbers (Json.obj kvs) = Json.obj kvs := by simp [withoutNumbers, hl]
      rw [this, ← hr]
    | some v =>
      cases v with
      | obj es =>
        have hnd := hwf kvs es hr hl
        have hw : withoutNumbers (Json.obj kvs)
            = Json.obj (mapAssign kvs RecipeKey (Json.obj (es.filter fun e => !isNumber e.2))) := by
          simp [withoutNumbers, hl]
        have hc1 : ChildrenMap (S (withoutNumbers (Json.obj kvs)) [RecipeKey])
            = some (es.filter fun e => !isNumber e.2) := by
          rw [hw]
          exact (ChildrenMap_recipe _ _).mpr ⟨_, rfl, mapLookup_mapAssign_self kvs RecipeKey _⟩
        have hc2 : ChildrenMap (S peter.recipe [RecipeKey]) = some es :=
          (ChildrenMap_recipe _ _).mpr ⟨kvs, hr, hl⟩
        have hloop := studyLoop_without_numbers
          { peter with recipe := withoutNumbers (Json.obj kvs) } peter kvs es hw hr hl hnd es
          (fun x hx => hx) []
        simp only [Peterjsons.study, hc1, hc2, hloop]
      | null =>
        have : withoutNumbers (Json.obj kvs) = Json.obj kvs := by simp [withoutNumbers, hl]
        rw [this, ← hr]
      | bool b =>
        have : withoutNumbers (Json.obj kvs) = Json.obj kvs := by simp [withoutNumbers, hl]
        rw [this, ← hr]
      | num n =>
        have : withoutNumbers (Json.obj kvs) = Json.obj kvs := by simp [withoutNumbers, hl]
        rw [this, ← hr]
      | str s =>
        have : withoutNumbers (Json.obj kvs) = Json.obj kvs := by simp [withoutNumbers, hl]
        rw [this, ← hr]
      | arr xs =>
        have : withoutNumbers (Json.obj kvs) = Json.obj kvs := by simp [withoutNumbers, hl]
        rw [this, ← hr]
  | null => rw [show withoutNumbers Json.null = Json.null from rfl, ← hr]
  | bool b => rw [show withoutNumbers (Json.bool b) = Json.bool b from rfl, ← hr]
  | num n => rw [show withoutNumbers (Json.num n) = Json.num n from rfl, ← hr]
  | str s => rw [show withoutNumbers (Json.str s) = Json.str s from rfl, ← hr]
  | arr xs => rw [show withoutNumbers (Json.arr xs) = Json.arr xs from rfl, ← hr]

/-- C12, at a concrete input: the recipe
`{"recipe":{"n":7,"fullName":"name","m":0.5}}` is studied like
`{"recipe":{"fullName":"name"}}`, into the one swap action of `fullName`. -/
theorem C12_numbers_are_ignored_witness :
    Peterjsons.study
        { material := Json.obj [],
          recipe := Json.obj [("recipe", Json.obj [("fullName", Json.str "name")])],
          result := gabsNew }
      = Peterjsons.study
        { material := Json.obj [],
          recipe := Json.obj [("recipe", Json.obj
            [("n", Json.num 7), ("fullName", Json.str "name"), ("m", Json.num (1 / 2))])],
          result := gabsNew }
    ∧ Peterjsons.study
        { material := Json.obj [],
          recipe := Json.obj [("recipe", Json.obj
            [("n", Json.num 7), ("fullName", Json.str "name"), ("m", Json.num (1 / 2))])],
          result := gabsNew }
      = some ([{ Context := "fullName", Values := [], Operation := "swap", Format := "",
                 Separator := "", Replaces := [Json.str "name"], Map := [] }], none) :=
  ⟨C12_numbers_are_ignored
      { material := Json.obj [],
        recipe := Json.obj [("recipe", Json.obj
          [("n", Json.num 7), ("fullName", Json.str "name"), ("m", Json.num (1 / 2))])],
        result := gabsNew }
      (by
        intro kvs es h1 h2
        simp at h1
        subst h1
        simp [mapLookup, RecipeKey] at h2
        subst h2
        decide),
    rfl⟩

/-! ## Writes at independent paths -/

theorem collide_false (p q : List String) :
    collide p q = false ↔ ¬ p <+: q ∧ ¬ q <+: p := by
  unfold collide
  rw [Bool.or_eq_false_iff, ← Bool.not_eq_true, ← Bool.not_eq_true,
    List.isPrefixOf_iff_prefix, List.isPrefixOf_iff_prefix]

theorem below_true (p q : List String) : below p q = true ↔ q <+: p ∧ p ≠ q := by
  unfold below
  rw [Bool.and_eq_true, List.isPrefixOf_iff_prefix, bne_iff_ne]

theorem below_false (p q : List String) : below p q = false ↔ ¬ (q <+: p ∧ p ≠ q) := by
  rw [← below_true, Bool.not_eq_true]

theorem isPrefix_antisymm (p q : List String) (h1 : p <+: q) (h2 : q <+: p) : p = q :=
  List.IsPrefix.eq_of_length h1 (Nat.le_antisymm (List.IsPrefix.length_le h1)
    (List.IsPrefix.length_le h2))

theorem mem_effective (ws : List (String × Json)) (x : String × Json) :
    x ∈ effective ws ↔ x ∈ ws ∧ ∀ y ∈ ws, below (splitPath x.1) (splitPath y.1) = false := by
  simp [effective, List.mem_filter, List.all_eq_true]

theorem Search_obj_bind (m : List (String × Json)) (k : String) (rest : List String) :
    Search (Json.obj m) (k :: rest) = (mapLookup m k).bind fun v => Search v rest := by
  simp only [Search, searchObj_eq]

theorem Search_empty_obj (k : String) (rest : List String) :
    Search (Json.obj []) (k :: rest) = none := by
  simp [Search_obj_bind, mapLookup]

theorem Search_null (k : String) (rest : List String) :
    Search Json.null (k :: rest) = none := by
  simp [Search]

theorem isNil_eq_true (v : Json) : isNil v = true ↔ v = Json.null := by
  cases v <;> simp [isNil]

/-- The child a write descends into: the field `k`, or a fresh object when the
field is absent or nil. -/
theorem setLoop_cons_cons (v : Json) (k k2 : String) (rest : List String)
    (m : List (String × Json)) :
    (setLoop v (k :: k2 :: rest) (Json.obj m)).1
      = Json.obj (mapAssign
          (if isNil (mapIndex m k) then mapAssign m k (Json.obj []) else m) k
          (setLoop v (k2 :: rest)
            (if isNil (mapIndex m k) then Json.obj [] else mapIndex m k)).1) := by
  simp only [setLoop]
  by_cases hn : isNil (mapIndex m k) = true
  · simp [hn, mapIndex_mapAssign_self]
  · simp [hn]

theorem mapLookup_mapAssign_ite (m : List (String × Json)) (k k' : String) (v : Json)
    (b : Bool) (hne : k ≠ k') :
    mapLookup (mapAssign (if b then mapAssign m k (Json.obj []) else m) k v) k'
      = mapLookup m k' := by
  cases b
  · simp [mapLookup_mapAssign_other _ _ _ _ (Ne.symm hne)]
  · simp [mapLookup_mapAssign_other _ _ _ _ (Ne.symm hne)]

theorem Search_child (m : List (String × Json)) (k x : String) (xs : List String) :
    Search (if isNil (mapIndex m k) then Json.obj [] else mapIndex m k) (x :: xs)
      = Search (Json.obj m) (k :: x :: xs) := by
  rw [Search_obj_bind]
  cases hl : mapLookup m k with
  | none => simp [mapIndex, hl, isNil, Search_empty_obj]
  | some w =>
    by_cases hn : isNil w = true
    · have : w = Json.null := (isNil_eq_true w).mp hn
      subst this
      simp [mapIndex, hl, isNil, Search_empty_obj, Search_null]
    · simp [mapIndex, hl, hn]

/-- A write at `q` leaves what is read at an independent path `p` as it was. -/
theorem setLoop_read_other (v : Json) (q p : List String) (node : Json)
    (h1 : ¬ p <+: q) (h2 : ¬ q <+: p) :
    Search (setLoop v q node).1 p = Search node p := by
  induction q generalizing p node with
  | nil => exact absurd (List.nil_prefix) h2
  | cons k q' ih =>
    cases p with
    | nil => exact absurd (List.nil_prefix) h1
    | cons k' p' =>
      cases node with
      | obj m =>
        cases q' with
        | nil =>
          have hne : k ≠ k' := by
            intro e
            subst e
            exact h2 (by simp)
          simp only [setLoop, Search_obj_bind, mapLookup_mapAssign_other _ _ _ _ (Ne.symm hne)]
        | cons k2 rest =>
          rw [setLoop_cons_cons, Search_obj_bind, Search_obj_bind]
          by_cases hk : k = k'
          · subst hk
            have g1 : ¬ p' <+: k2 :: rest := fun hp => h1 ((List.prefix_cons_inj k).mpr hp)
            have g2 : ¬ k2 :: rest <+: p' := fun hp => h2 ((List.prefix_cons_inj k).mpr hp)
            rw [mapLookup_mapAssign_self]
            simp only [Option.bind]
            rw [ih p' _ g1 g2]
            cases p' with
            | nil => exact absurd (List.nil_prefix) g1
            | cons x xs =>
              rw [Search_child, Search_obj_bind]
              rfl
          · rw [mapLookup_mapAssign_ite _ _ _ _ _ hk]
      | null => cases q' <;> simp [setLoop]
      | bool b => cases q' <;> simp [setLoop]
      | num n => cases q' <;> simp [setLoop]
      | str s => cases q' <;> simp [setLoop]
      | arr xs => cases q' <;> simp [setLoop]

theorem clearPath_root (r : Json) (k : String) (q : List String) (h : clearPath r (k :: q)) :
    ∃ m, r = Json.obj m := by
  rcases h [] List.nil_prefix (by simp) with h0 | ⟨m, h0⟩
  · simp [Search_nil] at h0
  · rw [Search_nil] at h0
    exact ⟨m, Option.some.inj h0⟩

theorem clearPath_child (m : List (String × Json)) (k : String) (q : List String)
    (h : clearPath (Json.obj m) (k :: q)) :
    clearPath (if isNil (mapIndex m k) then Json.obj [] else mapIndex m k) q := by
  intro ks hp hne
  cases ks with
  | nil =>
    right
    rw [Search_nil]
    have := h [k] (by
      cases q with
      | nil => exact absurd rfl hne
      | cons x xs => exact (List.prefix_cons_inj k).mpr List.nil_prefix) (by
      intro e
      cases q with
      | nil => exact hne rfl
      | cons x xs => simp at e)
    rw [Search_obj_bind] at this
    cases hl : mapLookup m k with
    | none => exact ⟨[], by simp [mapIndex, hl, isNil]⟩
    | some w =>
      by_cases hn : isNil w = true
      · exact ⟨[], by simp [mapIndex, hl, hn]⟩
      · simp only [hl, Option.bind, Search_nil] at this
        rcases this with h0 | ⟨m0, h0⟩
        · cases h0
        · have hw : w = Json.obj m0 := Option.some.inj h0
          subst hw
          exact ⟨m0, by simp [mapIndex, hl, isNil]⟩
  | cons x xs =>
    rw [Search_child]
    exact h (k :: x :: xs) ((List.prefix_cons_inj k).mpr hp) (by
      intro e
      exact hne (List.cons.inj e).2)

/-- A write at a clear path is read back, and below it the written value. -/
theorem setLoop_read_below (v : Json) (q : List String) (r : Json) (more : List String)
    (hq : q ≠ []) (hc : clearPath r q) :
    Search (setLoop v q r).1 (q ++ more) = Search v more := by
  induction q generalizing r with
  | nil => exact absurd rfl hq
  | cons k q' ih =>
    obtain ⟨m, hm⟩ := clearPath_root r k q' hc
    subst hm
    cases q' with
    | nil =>
      simp only [setLoop, List.cons_append, List.nil_append, Search_obj_bind,
        mapLookup_mapAssign_self, Option.bind]
    | cons k2 rest =>
      rw [setLoop_cons_cons, List.cons_append, Search_obj_bind, mapLookup_mapAssign_self]
      simp only [Option.bind]
      exact ih _ (by simp) (clearPath_child m k _ hc)

/-- After a write at a clear path every node strictly above it is an object. -/
theorem setLoop_read_above (v : Json) (q : List String) (r : Json) (ks : List String)
    (hc : clearPath r q) (h1 : ks <+: q) (h2 : ks ≠ q) :
    ∃ m, Search (setLoop v q r).1 ks = some (Json.obj m) := by
  induction q generalizing r ks with
  | nil =>
    have := List.prefix_nil.mp h1
    exact absurd this h2
  | cons k q' ih =>
    obtain ⟨m, hm⟩ := clearPath_root r k q' hc
    subst hm
    cases q' with
    | nil =>
      cases ks with
      | nil => exact ⟨mapAssign m k v, by simp only [setLoop, Search_nil]⟩
      | cons x xs =>
        exfalso
        have hx := List.IsPrefix.length_le h1
        simp at hx
        subst hx
        obtain ⟨t, ht⟩ := h1
        simp at ht
        exact h2 (by rw [ht.1])
    | cons k2 rest =>
      rw [setLoop_cons_cons]
      cases ks with
      | nil => exact ⟨_, by rw [Search_nil]⟩
      | cons x xs =>
        have hx : x = k := by
          obtain ⟨t, ht⟩ := h1
          simp at ht
          exact ht.1
        subst hx
        rw [Search_obj_bind, mapLookup_mapAssign_self]
        simp only [Option.bind]
        exact ih _ xs (clearPath_child m x _ hc) ((List.prefix_cons_inj x).mp h1)
          (fun e => h2 (by rw [e]))

theorem mapAssign_lookup_self {α : Type} (m : List (String × α)) (k : String) (v : α)
    (h : mapLookup m k = some v) : mapAssign m k v = m := by
  induction m with
  | nil => simp [mapLookup] at h
  | cons e m ih =>
    obtain ⟨k0, w⟩ := e
    by_cases e : k0 = k
    · subst e
      simp [mapLookup] at h
      subst h
      simp [mapAssign]
    · simp [mapLookup, e] at h
      simp [mapAssign, e, ih h]

/-- A write whose path runs through a string, a number or a boolean is a path
collision: the document stays as it is. -/
theorem setLoop_collision (v s : Json) (p q : List String) (node : Json)
    (hs : isScalar s = true) (h : Search node p = some s) (hp : p <+: q) (hne : p ≠ q) :
    (setLoop v q node).1 = node := by
  induction p generalizing q node with
  | nil =>
    rw [Search_nil] at h
    cases h
    cases q with
    | nil => exact absurd rfl hne
    | cons k rest => cases s <;> cases rest <;> simp [setLoop, isScalar] at hs ⊢
  | cons k p' ih =>
    cases q with
    | nil => simp at hp
    | cons k0 q' =>
      have hk : k = k0 := by
        obtain ⟨t, ht⟩ := hp
        simp at ht
        exact ht.1
      subst hk
      have hp' : p' <+: q' := (List.prefix_cons_inj k).mp hp
      have hne' : p' ≠ q' := fun e => hne (by rw [e])
      cases q' with
      | nil =>
        have := List.prefix_nil.mp hp'
        exact absurd this hne'
      | cons k2 rest =>
        cases node with
        | obj m =>
          rw [Search_obj_bind] at h
          cases hl : mapLookup m k with
          | none => simp [hl] at h
          | some c =>
            simp only [hl, Option.some_bind] at h
            have hnil : isNil (mapIndex m k) = false := by
              cases c with
              | null =>
                cases p' with
                | nil =>
                  rw [Search_nil] at h
                  cases h
                  simp [isScalar] at hs
                | cons x xs => simp [Search_null] at h
              | bool b => simp [mapIndex, hl, isNil]
              | num n => simp [mapIndex, hl, isNil]
              | str t => simp [mapIndex, hl, isNil]
              | arr xs => simp [mapIndex, hl, isNil]
              | obj o => simp [mapIndex, hl, isNil]
            have hc : mapIndex m k = c := by simp [mapIndex, hl]
            rw [setLoop_cons_cons]
            simp only [hnil, Bool.false_eq_true, if_false]
            rw [hc, ih (k2 :: rest) c h hp' hne', mapAssign_lookup_self m k c hl]
        | arr xs =>
          exfalso
          simp only [Search] at h
          split at h
          · cases h
          · cases h
            simp [isScalar] at hs
        | null => simp [Search] at h
        | bool b => simp [Search] at h
        | num n => simp [Search] at h
        | str t => simp [Search] at h

/-- Above every write of a list lies one that no other write overwrites. -/
theorem exists_effective_above (ws : List (String × Json)) (n : Nat) (y : String × Json)
    (hy : y ∈ ws) (hn : (splitPath y.1).length ≤ n) :
    ∃ x ∈ effective ws, splitPath x.1 <+: splitPath y.1 := by
  induction n generalizing y with
  | zero =>
    have := splitPath_ne_nil y.1
    have h0 : splitPath y.1 = [] := List.length_eq_zero.mp (Nat.le_zero.mp hn)
    exact absurd h0 this
  | succ n ih =>
    by_cases he : y ∈ effective ws
    · exact ⟨y, he, List.prefix_refl _⟩
    · rw [mem_effective] at he
      push_neg at he
      obtain ⟨z, hz, hb⟩ := he hy
      rw [ne_eq, Bool.not_eq_false, below_true] at hb
      have hlen : (splitPath z.1).length < (splitPath y.1).length := by
        rcases Nat.lt_or_ge (splitPath z.1).length (splitPath y.1).length with hl | hl
        · exact hl
        · exact absurd (List.IsPrefix.eq_of_length hb.1
            (Nat.le_antisymm (List.IsPrefix.length_le hb.1) hl)).symm hb.2
      obtain ⟨x, hx, hpre⟩ := ih z hz (by omega)
      exact ⟨x, hx, hpre.trans hb.1⟩

/-! ## The document the writes leave -/

theorem SetP_obj (m : List (String × Json)) (v : Json) (c : String) :
    SetP (Json.obj m) v c = (setLoop v (splitPath c) (Json.obj m)).1 := by
  unfold SetP SetAt
  cases hs : splitPath c with
  | nil => exact absurd hs (splitPath_ne_nil c)
  | cons k rest => simp [isNil]

theorem holdsWrites_nil : holdsWrites [] gabsNew := by
  refine ⟨⟨[], rfl⟩, ?_, ?_, ?_⟩
  · intro c v h
    simp at h
  · rintro ks ⟨c, v, h, _⟩
    simp at h
  · intro ks hks _
    cases ks with
    | nil => exact absurd rfl hks
    | cons k rest => exact Search_empty_obj k rest

theorem holdsWrites_step (ws ws' : List (String × Json)) (r : Json) (c : String) (v : Json)
    (h : holdsWrites ws r)
    (hord : ∀ c' v', (c', v') ∈ ws →
      (¬ splitPath c' <+: splitPath c ∧ ¬ splitPath c <+: splitPath c')
      ∨ (splitPath c <+: splitPath c' ∧ splitPath c' ≠ splitPath c))
    (hws' : ∀ x, x ∈ ws' ↔ (x = (c, v) ∨ (x ∈ ws ∧ ¬ splitPath c <+: splitPath x.1))) :
    holdsWrites ws' (SetP r v c) := by
  obtain ⟨⟨m, hm⟩, hbelow, habove, helse⟩ := h
  subst hm
  rw [SetP_obj]
  have hq : splitPath c ≠ [] := splitPath_ne_nil c
  have hindep : ∀ c' v', (c', v') ∈ ws → ¬ splitPath c <+: splitPath c' →
      ¬ splitPath c' <+: splitPath c := by
    intro c' v' hmem hn
    rcases hord c' v' hmem with hh | hh
    · exact hh.1
    · exact absurd hh.1 hn
  have hnotabove : ∀ c' v', (c', v') ∈ ws → splitPath c' <+: splitPath c →
      splitPath c' = splitPath c := by
    intro c' v' hmem hp
    rcases hord c' v' hmem with hh | hh
    · exact absurd hp hh.1
    · exact isPrefix_antisymm _ _ hp hh.1
  have hclear : clearPath (Json.obj m) (splitPath c) := by
    intro ks hp hne
    by_cases hks : ks = []
    · subst hks
      right
      exact ⟨m, Search_nil _⟩
    by_cases h1 : ∃ c' v', (c', v') ∈ ws ∧ splitPath c' <+: ks
    · obtain ⟨c', v', hmem, hpre⟩ := h1
      exfalso
      have e := hnotabove c' v' hmem (hpre.trans hp)
      rw [e] at hpre
      exact hne (isPrefix_antisymm _ _ hp hpre)
    by_cases h2 : ∃ c' v', (c', v') ∈ ws ∧ ks <+: splitPath c'
    · obtain ⟨c', v', hmem, hpre⟩ := h2
      right
      apply habove ks ⟨c', v', hmem, hpre, ?_⟩
      intro e
      exact h1 ⟨c', v', hmem, by rw [e]⟩
    · left
      apply helse ks hks
      intro c' v' hmem
      exact ⟨fun hp' => h1 ⟨c', v', hmem, hp'⟩, fun hp' => h2 ⟨c', v', hmem, hp'⟩⟩
  refine ⟨?_, ?_, ?_, ?_⟩
  · obtain ⟨m', hm'⟩ := setLoop_read_above v _ _ [] hclear List.nil_prefix (Ne.symm hq)
    rw [Search_nil] at hm'
    exact ⟨m', Option.some.inj hm'⟩
  · intro c' v' hmem more
    rcases (hws' (c', v')).mp hmem with hmem | ⟨hmem, hnc⟩
    · cases hmem
      exact setLoop_read_below _ _ _ more hq hclear
    · have i1 := hindep c' v' hmem hnc
      rw [setLoop_read_other v _ _ _ ?_ ?_]
      · exact hbelow c' v' hmem more
      · intro hp
        exact i1 ((List.prefix_append _ _).trans hp)
      · intro hp
        rcases List.prefix_or_prefix_of_prefix hp (List.prefix_append _ _) with h' | h'
        · exact hnc h'
        · exact i1 h'
  · rintro ks ⟨c', v', hmem, hpre, hne⟩
    by_cases hkq : ks <+: splitPath c
    · by_cases heq : ks = splitPath c
      · rcases (hws' (c', v')).mp hmem with hmem | ⟨hmem, hnc⟩
        · cases hmem
          exact absurd heq hne
        · exact absurd (heq ▸ hpre) hnc
      · exact setLoop_read_above v _ _ ks hclear hkq heq
    · rcases (hws' (c', v')).mp hmem with hmem | ⟨hmem, hnc⟩
      · cases hmem
        exact absurd hpre hkq
      · rw [setLoop_read_other v _ _ _ hkq ?_]
        · exact habove ks ⟨c', v', hmem, hpre, hne⟩
        · intro hp
          exact hnc (hp.trans hpre)
  · intro ks hks hno
    have hq' := hno c v ((hws' (c, v)).mpr (Or.inl rfl))
    rw [setLoop_read_other v _ _ _ hq'.2 hq'.1]
    apply helse ks hks
    intro c' v' hmem
    by_cases hnc : splitPath c <+: splitPath c'
    · constructor
      · intro hp
        exact hq'.1 (hnc.trans hp)
      · intro hp
        rcases List.prefix_or_prefix_of_prefix hnc hp with h' | h'
        · exact hq'.1 h'
        · exact hq'.2 h'
    · exact hno c' v' ((hws' (c', v')).mpr (Or.inr ⟨hmem, hnc⟩))

theorem effective_snoc (done : List (String × Json)) (c : String) (v : Json)
    (hord : ∀ y ∈ done, collide (splitPath y.1) (splitPath c) = false
      ∨ below (splitPath y.1) (splitPath c) = true) (x : String × Json) :
    x ∈ effective (done ++ [(c, v)])
      ↔ (x = (c, v) ∨ (x ∈ effective done ∧ ¬ splitPath c <+: splitPath x.1)) := by
  rw [mem_effective, mem_effective]
  constructor
  · rintro ⟨hx, hall⟩
    rcases List.mem_append.mp hx with hx | hx
    · right
      refine ⟨⟨hx, fun y hy => hall y (by simp [hy])⟩, ?_⟩
      intro hp
      have hb := hall (c, v) (by simp)
      rw [below_false] at hb
      rcases hord x hx with ho | ho
      · exact ((collide_false _ _).mp ho).2 hp
      · exact hb ⟨hp, ((below_true _ _).mp ho).2⟩
    · left
      simpa using hx
  · rintro (hx | ⟨⟨hx, hall⟩, hnc⟩)
    · subst hx
      refine ⟨by simp, ?_⟩
      intro y hy
      rw [below_false]
      rintro ⟨hp, hne⟩
      rcases List.mem_append.mp hy with hy | hy
      · rcases hord y hy with ho | ho
        · exact ((collide_false _ _).mp ho).1 hp
        · exact hne (isPrefix_antisymm _ _ ((below_true _ _).mp ho).1 hp)
      · simp at hy
        subst hy
        exact hne rfl
    · refine ⟨by simp [hx], ?_⟩
      intro y hy
      rcases List.mem_append.mp hy with hy | hy
      · exact hall y hy
      · simp at hy
        subst hy
        rw [below_false]
        rintro ⟨hp, _⟩
        exact hnc hp

theorem holdsWrites_congr (ws ws' : List (String × Json)) (r : Json)
    (hmem : ∀ x, x ∈ ws ↔ x ∈ ws') (h : holdsWrites ws r) : holdsWrites ws' r := by
  obtain ⟨h0, h1, h2, h3⟩ := h
  refine ⟨h0, ?_, ?_, ?_⟩
  · intro c v hcv
    exact h1 c v ((hmem _).mpr hcv)
  · rintro ks ⟨c, v, hcv, hp⟩
    exact h2 ks ⟨c, v, (hmem _).mpr hcv, hp⟩
  · intro ks hks hno
    exact h3 ks hks (fun c v hcv => hno c v ((hmem _).mp hcv))

/-- A write below a string, a number or a boolean that the document holds at
the path of a write is dropped. -/
theorem SetP_collision (ws : List (String × Json)) (r : Json) (c c' : String) (v v' : Json)
    (h : holdsWrites ws r) (hmem : (c', v') ∈ ws)
    (hb : below (splitPath c) (splitPath c') = true) (hs : isScalar v' = true) :
    SetP r v c = r := by
  obtain ⟨⟨m, hm⟩, hbelow, _, _⟩ := h
  subst hm
  rw [SetP_obj]
  have hread := hbelow c' v' hmem []
  rw [List.append_nil, Search_nil] at hread
  rw [below_true] at hb
  exact setLoop_collision v v' _ _ _ hs hread hb.1 (Ne.symm hb.2)

theorem below_trans (p q t : List String) (h1 : below p q = true)
    (h2 : t <+: q) : below p t = true := by
  rw [below_true] at h1 ⊢
  refine ⟨h2.trans h1.1, ?_⟩
  intro e
  subst e
  exact h1.2 (isPrefix_antisymm _ _ h2 h1.1)

theorem effective_drop (done : List (String × Json)) (c : String) (v : Json)
    (x0 : String × Json) (hx0 : x0 ∈ effective done)
    (hb : below (splitPath c) (splitPath x0.1) = true) (x : String × Json) :
    x ∈ effective (done ++ [(c, v)]) ↔ x ∈ effective done := by
  rw [mem_effective, mem_effective]
  constructor
  · rintro ⟨hx, hall⟩
    rcases List.mem_append.mp hx with hx | hx
    · exact ⟨hx, fun y hy => hall y (by simp [hy])⟩
    · simp at hx
      subst hx
      have := hall x0 (by simp [((mem_effective done x0).mp hx0).1])
      rw [hb] at this
      cases this
  · rintro ⟨hx, hall⟩
    refine ⟨by simp [hx], ?_⟩
    intro y hy
    rcases List.mem_append.mp hy with hy | hy
    · exact hall y hy
    · simp at hy
      subst hy
      rw [below_false]
      rintro ⟨hp, hne⟩
      have hbx : below (splitPath x.1) (splitPath c) = true := (below_true _ _).mpr ⟨hp, hne⟩
      have hxx0 : below (splitPath x.1) (splitPath x0.1) = true := by
        rw [below_true] at hb hbx ⊢
        refine ⟨hb.1.trans hbx.1, ?_⟩
        intro e
        rw [e] at hbx
        exact hb.2 (isPrefix_antisymm _ _ hbx.1 hb.1)
      have := hall x0 ((mem_effective done x0).mp hx0).1
      rw [hxx0] at this
      cases this

theorem holdsWrites_applyWrites (done ws : List (String × Json)) (r : Json)
    (h : holdsWrites (effective done) r)
    (hord : (done ++ ws).Pairwise fun a b =>
      collide (splitPath a.1) (splitPath b.1) = false
        ∨ below (splitPath a.1) (splitPath b.1) = true
        ∨ (below (splitPath b.1) (splitPath a.1) = true ∧ isScalar a.2 = true)) :
    holdsWrites (effective (done ++ ws)) (applyWrites ws r) := by
  induction ws generalizing done r with
  | nil => simpa [applyWrites] using h
  | cons x rest ih =>
    obtain ⟨c, v⟩ := x
    rw [applyWrites]
    have hnew : ∀ y ∈ done, collide (splitPath y.1) (splitPath c) = false
        ∨ below (splitPath y.1) (splitPath c) = true
        ∨ (below (splitPath c) (splitPath y.1) = true ∧ isScalar y.2 = true) :=
      fun y hy => (List.pairwise_append.mp hord).2.2 y hy (c, v) (by simp)
    have hstep : holdsWrites (effective (done ++ [(c, v)])) (SetP r v c) := by
      by_cases hB : ∃ x0 ∈ effective done, below (splitPath c) (splitPath x0.1) = true
      · obtain ⟨x0, hx0, hb⟩ := hB
        have hx0' := ((mem_effective done x0).mp hx0).1
        have hs : isScalar x0.2 = true := by
          rcases hnew x0 hx0' with ho | ho | ho
          · exact absurd ((below_true _ _).mp hb).1 ((collide_false _ _).mp ho).1
          · rw [below_true] at hb ho
            exact absurd (isPrefix_antisymm _ _ hb.1 ho.1).symm hb.2
          · exact ho.2
        rw [SetP_collision (effective done) r c x0.1 v x0.2 h hx0 hb hs]
        exact holdsWrites_congr _ _ r (fun x => (effective_drop done c v x0 hx0 hb x).symm) h
      · have hold : ∀ y ∈ done, collide (splitPath y.1) (splitPath c) = false
            ∨ below (splitPath y.1) (splitPath c) = true := by
          intro y hy
          rcases hnew y hy with ho | ho | ho
          · exact Or.inl ho
          · exact Or.inr ho
          · exfalso
            obtain ⟨x0, hx0, hpre⟩ := exists_effective_above done _ y hy (Nat.le_refl _)
            exact hB ⟨x0, hx0, below_trans _ _ _ ho.1 hpre⟩
        apply holdsWrites_step (effective done) _ r c v h
        · intro c' v' hmem
          have hmem' := ((mem_effective done (c', v')).mp hmem).1
          rcases hold (c', v') hmem' with ho | ho
          · exact Or.inl ((collide_false _ _).mp ho)
          · exact Or.inr ((below_true _ _).mp ho)
        · exact effective_snoc done c v hold
    have := ih (done ++ [(c, v)]) (SetP r v c) hstep (by simpa using hord)
    simpa using this

theorem sameNode_refl (x : Option Json) : sameNode x x := by
  cases x with
  | none => trivial
  | some v => cases v <;> simp [sameNode]

theorem sameDocument_of_holdsWrites (ws1 ws2 : List (String × Json)) (r1 r2 : Json)
    (h1 : holdsWrites ws1 r1) (h2 : holdsWrites ws2 r2) (hmem : ∀ x, x ∈ ws1 ↔ x ∈ ws2) :
    sameDocument r1 r2 := by
  obtain ⟨⟨m1, hm1⟩, b1, a1, e1⟩ := h1
  obtain ⟨⟨m2, hm2⟩, b2, a2, e2⟩ := h2
  intro ks
  by_cases ha : ∃ c v, (c, v) ∈ ws1 ∧ splitPath c <+: ks
  · obtain ⟨c, v, hcv, more, hmore⟩ := ha
    rw [← hmore, b1 c v hcv more, b2 c v ((hmem _).mp hcv) more]
    exact sameNode_refl _
  by_cases hb : ∃ c v, (c, v) ∈ ws1 ∧ ks <+: splitPath c
  · obtain ⟨c, v, hcv, hpre⟩ := hb
    have hne : ks ≠ splitPath c := by
      intro e
      exact ha ⟨c, v, hcv, by rw [e]⟩
    obtain ⟨n1, hn1⟩ := a1 ks ⟨c, v, hcv, hpre, hne⟩
    obtain ⟨n2, hn2⟩ := a2 ks ⟨c, v, (hmem _).mp hcv, hpre, hne⟩
    rw [hn1, hn2]
    trivial
  by_cases hks : ks = []
  · subst hks
    rw [Search_nil, Search_nil, hm1, hm2]
    trivial
  · have hno : ∀ c v, (c, v) ∈ ws1 → ¬ splitPath c <+: ks ∧ ¬ ks <+: splitPath c :=
      fun c v hcv => ⟨fun hp => ha ⟨c, v, hcv, hp⟩, fun hp => hb ⟨c, v, hcv, hp⟩⟩
    rw [e1 ks hks hno, e2 ks hks (fun c v hcv => hno c v ((hmem _).mpr hcv))]
    trivial

/-! ## The one write of an action -/

theorem swapMultipleLoop_effect (F : Fmt) (a : action) (material : Json) (vs : List Json)
    (value : Nat) :
    ∃ o : Option (Option Json), (vs ≠ [] → o ≠ some none) ∧ ∀ result,
      swapMultipleLoop F a material value vs result = effectOn a.Context o result := by
  induction vs generalizing value with
  | nil => exact ⟨some none, fun h => absurd rfl h, fun result => rfl⟩
  | cons v rest ih =>
    obtain ⟨o', _, ho'⟩ := ih (value + 1)
    have hafter : ∀ w : Json, ∃ o : Option (Option Json), o ≠ some none ∧ ∀ result,
        swapMultipleLoop F a material (value + 1) rest (SetP result w a.Context)
          = effectOn a.Context o result := by
      intro w
      cases o' with
      | none => exact ⟨none, by simp, fun result => by rw [ho']; rfl⟩
      | some o2 =>
        cases o2 with
        | none => exact ⟨some (some w), by simp, fun result => by rw [ho']; rfl⟩
        | some v' =>
          refine ⟨some (some v'), by simp, fun result => ?_⟩
          rw [ho']
          simp only [effectOn, SetP_overwrite]
    cases hs : asString v with
    | none =>
      refine ⟨none, by simp, fun result => ?_⟩
      simp [swapMultipleLoop, hs, effectOn]
    | some valuePath =>
      by_cases c1 : 0 < a.Replaces.length ∧ a.Format ≠ ""
      · cases hg : a.Replaces.get? value with
        | none =>
          refine ⟨none, by simp, fun result => ?_⟩
          simp only [swapMultipleLoop, hs, Option.bind, if_pos c1, hg, effectOn]
        | some r =>
          obtain ⟨o, ho1, ho2⟩ := hafter (Json.str (F.sprintf a.Format r))
          refine ⟨o, fun _ => ho1, fun result => ?_⟩
          simp only [swapMultipleLoop, hs, Option.bind, if_pos c1, hg]
          exact ho2 result
      · by_cases c2 : a.Format ≠ ""
        · obtain ⟨o, ho1, ho2⟩ :=
            hafter (Json.str (F.sprintf a.Format (Data (Path material valuePath))))
          refine ⟨o, fun _ => ho1, fun result => ?_⟩
          simp only [swapMultipleLoop, hs, Option.bind, if_neg c1, if_pos c2]
          exact ho2 result
        · by_cases c3 : 0 < a.Replaces.length
          · cases hg : a.Replaces.get? value with
            | none =>
              refine ⟨none, by simp, fun result => ?_⟩
              simp only [swapMultipleLoop, hs, Option.bind, if_neg c1, if_neg c2, if_pos c3, hg,
                effectOn]
            | some r =>
              obtain ⟨o, ho1, ho2⟩ := hafter r
              refine ⟨o, fun _ => ho1, fun result => ?_⟩
              simp only [swapMultipleLoop, hs, Option.bind, if_neg c1, if_neg c2, if_pos c3, hg]
              exact ho2 result
          · obtain ⟨o, ho1, ho2⟩ := hafter (Data (Path material valuePath))
            refine ⟨o, fun _ => ho1, fun result => ?_⟩
            simp only [swapMultipleLoop, hs, Option.bind, if_neg c1, if_neg c2, if_neg c3]
            exact ho2 result

theorem applyOne_effect (F : Fmt) (material : Json) (a : action) (hw : writes a = true) :
    ∃ o : Option Json, ∀ result,
      applyOne F material a result = o.map fun v => SetP result v a.Context := by
  by_cases h1 : a.Operation = ActionSwap
  · by_cases hv : a.Values.length = 0
    · refine ⟨a.Replaces.head?.bind fun r0 => (asString r0).bind fun path =>
        some (if a.Format ≠ "" then Json.str (F.sprintf a.Format (Data (Path material path)))
              else Data (Path material path)), fun result => ?_⟩
      simp only [applyOne, if_pos h1, swapAction, if_pos hv, swapSingleAction]
      cases a.Replaces.head? with
      | none => rfl
      | some r0 =>
        rw [Option.some_bind, Option.some_bind]
        cases asString r0 with
        | none => rfl
        | some path =>
          rw [Option.some_bind, Option.some_bind]
          by_cases hf : a.Format ≠ ""
          · simp [hf]
          · simp [hf]
    · have hne : a.Values ≠ [] := by
        intro e
        exact hv (by simp [e])
      obtain ⟨o, ho1, ho2⟩ := swapMultipleLoop_effect F a material a.Values 0
      have ho1 := ho1 hne
      cases o with
      | none =>
        refine ⟨none, fun result => ?_⟩
        simp only [applyOne, if_pos h1, swapAction, if_neg hv, swapMultipleActions, ho2]
        rfl
      | some o2 =>
        cases o2 with
        | none => exact absurd rfl ho1
        | some v =>
          refine ⟨some v, fun result => ?_⟩
          simp only [applyOne, if_pos h1, swapAction, if_neg hv, swapMultipleActions, ho2]
          rfl
  · by_cases h2 : a.Operation = ActionConcat
    · refine ⟨(concatLoop F a material 0 a.Values "").map Json.str, fun result => ?_⟩
      simp only [applyOne, if_neg h1, if_pos h2, concatAction, Option.map_map]
      rfl
    · by_cases h3 : a.Operation = ActionSwapMap
      · refine ⟨(swapmapValues a material a.Values []).map Json.arr, fun result => ?_⟩
        simp only [applyOne, if_neg h1, if_neg h2, if_pos h3, swapmapAction, Option.map_map]
        rfl
      · simp [writes, h1, h2, h3] at hw

theorem applyOne_writtenValue (F : Fmt) (material : Json) (a : action) (hw : writes a = true)
    (result : Json) :
    applyOne F material a result
      = (writtenValue F material a).map fun v => SetP result v a.Context := by
  obtain ⟨o, ho⟩ := applyOne_effect F material a hw
  unfold writtenValue
  rw [ho gabsNew, ho result]
  cases o with
  | none => rfl
  | some v => simp [SetP_empty_read, Data]

theorem applyOne_skip (F : Fmt) (material : Json) (a : action) (hw : writes a = false)
    (result : Json) : applyOne F material a result = some result := by
  simp [writes] at hw
  simp [applyOne, hw]

theorem applyLoop_cons (F : Fmt) (material : Json) (a : action) (rest : List action)
    (result : Json) :
    applyLoop F material (a :: rest) result
      = (applyOne F material a result).bind (applyLoop F material rest) := by
  rw [applyLoop, applyOne]
  split_ifs <;> rfl

theorem applyLoop_writesOf (F : Fmt) (material : Json) (acts : List action) (result : Json) :
    applyLoop F material acts result
      = (writesOf F material acts).map fun ws => applyWrites ws result := by
  induction acts generalizing result with
  | nil => rfl
  | cons a rest ih =>
    rw [applyLoop_cons, writesOf]
    by_cases hw : writes a = true
    · rw [if_pos hw, applyOne_writtenValue F material a hw]
      cases writtenValue F material a with
      | none => rfl
      | some v =>
        simp only [Option.map, Option.bind]
        rw [ih]
        cases writesOf F material rest with
        | none => rfl
        | some ws => rfl
    · rw [if_neg hw, applyOne_skip F material a ((Bool.not_eq_true _).mp hw)]
      exact ih result

theorem writesOf_mem (F : Fmt) (material : Json) (acts : List action)
    (ws : List (String × Json)) (h : writesOf F material acts = some ws) :
    (∀ x ∈ ws, ∃ a ∈ acts, writes a = true ∧ a.Context = x.1
        ∧ writtenValue F material a = some x.2)
    ∧ (∀ a ∈ acts, writes a = true →
        ∃ v, writtenValue F material a = some v ∧ (a.Context, v) ∈ ws) := by
  induction acts generalizing ws with
  | nil =>
    simp [writesOf] at h
    subst h
    simp
  | cons a rest ih =>
    rw [writesOf] at h
    by_cases hw : writes a = true
    · rw [if_pos hw] at h
      cases hv : writtenValue F material a with
      | none => simp [hv] at h
      | some v =>
        cases hr : writesOf F material rest with
        | none => simp [hv, hr] at h
        | some ws' =>
          simp [hv, hr] at h
          subst h
          obtain ⟨i1, i2⟩ := ih ws' hr
          constructor
          · intro x hx
            rcases List.mem_cons.mp hx with hx | hx
            · subst hx
              exact ⟨a, by simp, hw, rfl, hv⟩
            · obtain ⟨b, hb, r1, r2, r3⟩ := i1 x hx
              exact ⟨b, by simp [hb], r1, r2, r3⟩
          · intro b hb hwb
            rcases List.mem_cons.mp hb with hb | hb
            · subst hb
              exact ⟨v, hv, by simp⟩
            · obtain ⟨v', r1, r2⟩ := i2 b hb hwb
              exact ⟨v', r1, by simp [r2]⟩
    · rw [if_neg hw] at h
      obtain ⟨i1, i2⟩ := ih ws h
      constructor
      · intro x hx
        obtain ⟨b, hb, r1, r2, r3⟩ := i1 x hx
        exact ⟨b, by simp [hb], r1, r2, r3⟩
      · intro b hb hwb
        rcases List.mem_cons.mp hb with hb | hb
        · subst hb
          exact absurd hwb hw
        · exact i2 b hb hwb

theorem writesOf_ordered (F : Fmt) (material : Json) (acts : List action)
    (ws : List (String × Json)) (hord : orderedWrites F material acts)
    (h : writesOf F material acts = some ws) :
    ws.Pairwise fun a b => collide (splitPath a.1) (splitPath b.1) = false
      ∨ below (splitPath a.1) (splitPath b.1) = true
      ∨ (below (splitPath b.1) (splitPath a.1) = true ∧ isScalar a.2 = true) := by
  induction acts generalizing ws with
  | nil =>
    simp [writesOf] at h
    subst h
    exact List.Pairwise.nil
  | cons a rest ih =>
    unfold orderedWrites at hord
    rw [List.pairwise_cons] at hord
    rw [writesOf] at h
    by_cases hw : writes a = true
    · rw [if_pos hw] at h
      cases hv : writtenValue F material a with
      | none => simp [hv] at h
      | some v =>
        cases hr : writesOf F material rest with
        | none => simp [hv, hr] at h
        | some ws' =>
          simp [hv, hr] at h
          subst h
          rw [List.pairwise_cons]
          refine ⟨?_, ih ws' hord.2 hr⟩
          intro x hx
          obtain ⟨b, hb, r1, r2, _⟩ := (writesOf_mem F material rest ws' hr).1 x hx
          rw [← r2]
          rcases hord.1 b hb hw r1 with ho | ho | ho
          · exact Or.inl ho
          · exact Or.inr (Or.inl ho)
          · refine Or.inr (Or.inr ⟨ho.1, ?_⟩)
            have := ho.2
            simp only [writesScalar, hv] at this
            exact this
    · rw [if_neg hw] at h
      exact ih ws hord.2 h

theorem writesOf_perm (F : Fmt) (material : Json) (acts1 acts2 : List action)
    (hp : acts1.Perm acts2) :
    (writesOf F material acts1 = none ∧ writesOf F material acts2 = none)
    ∨ ∃ ws1 ws2, writesOf F material acts1 = some ws1 ∧ writesOf F material acts2 = some ws2
        ∧ ws1.Perm ws2 := by
  induction hp with
  | nil => exact Or.inr ⟨[], [], rfl, rfl, List.Perm.refl _⟩
  | cons a _ ih =>
    rw [writesOf, writesOf]
    by_cases hw : writes a = true
    · simp only [if_pos hw]
      cases writtenValue F material a with
      | none => exact Or.inl ⟨rfl, rfl⟩
      | some v =>
        rcases ih with ⟨e1, e2⟩ | ⟨ws1, ws2, e1, e2, e3⟩
        · exact Or.inl ⟨by simp [e1], by simp [e2]⟩
        · exact Or.inr ⟨(a.Context, v) :: ws1, (a.Context, v) :: ws2, by simp [e1],
            by simp [e2], List.Perm.cons _ e3⟩
    · simp only [if_neg hw]
      exact ih
  | swap a b l =>
    rw [writesOf, writesOf, writesOf, writesOf]
    cases hl : writesOf F material l with
    | none =>
      left
      constructor
      · split_ifs <;> simp
      · split_ifs <;> simp
    | some ws =>
      by_cases hwa : writes a = true
      · by_cases hwb : writes b = true
        · simp only [if_pos hwa, if_pos hwb]
          cases writtenValue F material a with
          | none =>
            left
            cases writtenValue F material b <;> simp
          | some va =>
            cases writtenValue F material b with
            | none => exact Or.inl ⟨rfl, rfl⟩
            | some vb =>
              exact Or.inr ⟨_, _, rfl, rfl, List.Perm.swap _ _ _⟩
        · simp only [if_pos hwa, if_neg hwb]
          cases writtenValue F material a with
          | none => exact Or.inl ⟨rfl, rfl⟩
          | some va => exact Or.inr ⟨_, _, rfl, rfl, List.Perm.refl _⟩
      · by_cases hwb : writes b = true
        · simp only [if_neg hwa, if_pos hwb]
          cases writtenValue F material b with
          | none => exact Or.inl ⟨rfl, rfl⟩
          | some vb => exact Or.inr ⟨_, _, rfl, rfl, List.Perm.refl _⟩
        · simp only [if_neg hwa, if_neg hwb]
          exact Or.inr ⟨_, _, rfl, rfl, List.Perm.refl _⟩
  | trans _ _ ih1 ih2 =>
    rcases ih1 with ⟨e1, e2⟩ | ⟨ws1, ws2, e1, e2, e3⟩
    · rcases ih2 with ⟨f1, f2⟩ | ⟨ws3, ws4, f1, f2, f3⟩
      · exact Or.inl ⟨e1, f2⟩
      · rw [e2] at f1
        cases f1
    · rcases ih2 with ⟨f1, f2⟩ | ⟨ws3, ws4, f1, f2, f3⟩
      · rw [e2] at f1
        cases f1
      · rw [e2] at f1
        cases f1
        exact Or.inr ⟨ws1, ws4, e1, f2, e3.trans f3⟩

/-- The document `apply` leaves when the writes are ordered: it holds the
writes whose path does not lie below another, and nothing else. -/
theorem applyLoop_holdsWrites (F : Fmt) (material : Json) (acts : List action) (r : Json)
    (hord : orderedWrites F material acts) (h : applyLoop F material acts gabsNew = some r) :
    ∃ ws, writesOf F material acts = some ws ∧ holdsWrites (effective ws) r := by
  rw [applyLoop_writesOf] at h
  cases hw : writesOf F material acts with
  | none => simp [hw] at h
  | some ws =>
    simp [hw] at h
    subst h
    refine ⟨ws, rfl, ?_⟩
    have h0 : holdsWrites (effective []) gabsNew := holdsWrites_nil
    have := holdsWrites_applyWrites [] ws gabsNew h0
      (by simpa using writesOf_ordered F material acts ws hord hw)
    simpa using this

/-- After `apply`, an action whose write no other action overwrites is read
back at its Context. -/
theorem applyLoop_read (F : Fmt) (material : Json) (acts : List action) (r : Json)
    (a : action) (hord : orderedWrites F material acts)
    (h : applyLoop F material acts gabsNew = some r) (ha : a ∈ acts) (hw : writes a = true)
    (hkeep : ∀ b ∈ acts, writes b = true →
      below (splitPath a.Context) (splitPath b.Context) = false) :
    ∃ v, writtenValue F material a = some v ∧ Path r a.Context = some v := by
  obtain ⟨ws, h1, h2⟩ := applyLoop_holdsWrites F material acts r hord h
  obtain ⟨v, hv, hmem⟩ := (writesOf_mem F material acts ws h1).2 a ha hw
  refine ⟨v, hv, ?_⟩
  have heff : (a.Context, v) ∈ effective ws := by
    rw [mem_effective]
    refine ⟨hmem, ?_⟩
    intro y hy
    obtain ⟨b, hb, r1, r2, _⟩ := (writesOf_mem F material acts ws h1).1 y hy
    rw [← r2]
    exact hkeep b hb r1
  have := h2.2.1 a.Context v heff []
  rw [List.append_nil, Search_nil] at this
  exact this

/-- Two arrangements of the same actions, each with ordered writes, leave the
same document, or both abort. -/
theorem applyLoop_perm (F : Fmt) (material : Json) (acts1 acts2 : List action)
    (hp : acts1.Perm acts2) (hord1 : orderedWrites F material acts1)
    (hord2 : orderedWrites F material acts2) :
    (applyLoop F material acts1 gabsNew = none ∧ applyLoop F material acts2 gabsNew = none)
    ∨ ∃ r1 r2, applyLoop F material acts1 gabsNew = some r1
        ∧ applyLoop F material acts2 gabsNew = some r2 ∧ sameDocument r1 r2 := by
  rcases writesOf_perm F material acts1 acts2 hp with ⟨e1, e2⟩ | ⟨ws1, ws2, e1, e2, e3⟩
  · left
    rw [applyLoop_writesOf, applyLoop_writesOf, e1, e2]
    exact ⟨rfl, rfl⟩
  · right
    have a1 : applyLoop F material acts1 gabsNew = some (applyWrites ws1 gabsNew) := by
      rw [applyLoop_writesOf, e1]
      rfl
    have a2 : applyLoop F material acts2 gabsNew = some (applyWrites ws2 gabsNew) := by
      rw [applyLoop_writesOf, e2]
      rfl
    obtain ⟨w1, f1, g1⟩ := applyLoop_holdsWrites F material acts1 _ hord1 a1
    obtain ⟨w2, f2, g2⟩ := applyLoop_holdsWrites F material acts2 _ hord2 a2
    rw [e1] at f1
    rw [e2] at f2
    cases f1
    cases f2
    refine ⟨_, _, a1, a2, sameDocument_of_holdsWrites _ _ _ _ g1 g2 ?_⟩
    intro x
    rw [mem_effective, mem_effective]
    constructor
    · rintro ⟨hx, hall⟩
      exact ⟨e3.mem_iff.mp hx, fun y hy => hall y (e3.mem_iff.mpr hy)⟩
    · rintro ⟨hx, hall⟩
      exact ⟨e3.mem_iff.mpr hx, fun y hy => hall y (e3.mem_iff.mp hy)⟩

/-! ## The fields of a rule object in another order -/

theorem mapLookup_mapAssign (o : List (String × Json)) (k g : String) (v : Json) :
    mapLookup (mapAssign o k v) g = if k = g then some v else mapLookup o g := by
  by_cases h : k = g
  · subst h
    simp [mapLookup_mapAssign_self]
  · simp [h, mapLookup_mapAssign_other _ _ _ _ (Ne.symm h)]

theorem swapmapFields_cons (rule : List (String × Json)) (element : Json) (k : String)
    (x : Json) (rest object : List (String × Json)) :
    swapmapFields rule element ((k, x) :: rest) object
      = (ruleStep rule element k).bind fun o =>
          swapmapFields rule element rest (assigned object k o) := by
  rw [swapmapFields, ruleStep]
  cases asMap (mapIndex rule k) with
  | none => rfl
  | some sub =>
    simp only [Option.some_bind]
    by_cases h1 : isNil (mapIndex sub SubActionReplace) = true
    · by_cases h2 : isNil (mapIndex sub SubActionValue) = true
      · simp [h1, h2, assigned]
      · simp only [h1, h2, Bool.not_true, Bool.false_eq_true, if_false, Bool.not_false, if_true]
        cases asMap element with
        | none => rfl
        | some e =>
          simp only [Option.some_bind]
          cases asString (mapIndex sub SubActionValue) with
          | none => rfl
          | some field => rfl
    · simp [h1, assigned]

/-- The loop over the fields of a rule object aborts when one field does, and
otherwise leaves under every key the value its field assigns, or the value the
object held before. -/
theorem swapmapFields_char (rule : List (String × Json)) (element : Json)
    (todo object : List (String × Json)) (hnd : (todo.map Prod.fst).Nodup) :
    ((∃ k ∈ todo.map Prod.fst, ruleStep rule element k = none)
      ∧ swapmapFields rule element todo object = none)
    ∨ ((∀ k ∈ todo.map Prod.fst, ruleStep rule element k ≠ none)
      ∧ ∃ o, swapmapFields rule element todo object = some o
        ∧ ∀ g, mapLookup o g
            = if g ∈ todo.map Prod.fst then
                (match ruleStep rule element g with
                  | some (some v) => some v
                  | _ => mapLookup object g)
              else mapLookup object g) := by
  induction todo generalizing object with
  | nil =>
    right
    exact ⟨by simp, object, by simp [swapmapFields], by simp⟩
  | cons e rest ih =>
    obtain ⟨k, x⟩ := e
    rw [List.map_cons, List.nodup_cons] at hnd
    rw [swapmapFields_cons]
    cases hs : ruleStep rule element k with
    | none =>
      left
      exact ⟨⟨k, by simp, hs⟩, rfl⟩
    | some o =>
      simp only [Option.some_bind]
      rcases ih (assigned object k o) hnd.2 with ⟨⟨k', hk', hn⟩, hr⟩ | ⟨hall, o', ho', hl⟩
      · left
        exact ⟨⟨k', by simp [List.mem_map] at hk' ⊢; exact Or.inr hk', hn⟩, hr⟩
      · right
        refine ⟨?_, o', ho', ?_⟩
        · intro k' hk'
          simp only [List.map_cons, List.mem_cons] at hk'
          rcases hk' with hk' | hk'
          · rw [hk', hs]
            simp
          · exact hall k' hk'
        · intro g
          rw [hl g]
          by_cases hg : g ∈ rest.map Prod.fst
          · have hne : k ≠ g := by
              intro e
              subst e
              exact hnd.1 hg
            have hgm : g ∈ (k, x).1 :: rest.map Prod.fst := by simp [hg]
            simp only [List.map_cons, hg, hgm, if_true]
            cases hsg : ruleStep rule element g with
            | none => exact absurd hsg (hall g hg)
            | some og =>
              cases og with
              | some v => rfl
              | none =>
                cases o with
                | none => rfl
                | some v => simp [assigned, mapLookup_mapAssign, hne]
          · simp only [hg, if_false]
            by_cases hkg : g = k
            · subst hkg
              simp only [List.map_cons, List.mem_cons, true_or, if_true, hs]
              cases o with
              | none => rfl
              | some v => simp [assigned, mapLookup_mapAssign]
            · have hgm : ¬ g ∈ (k, x).1 :: rest.map Prod.fst := by
                simp [hkg, hg]
              simp only [List.map_cons, hgm, if_false]
              cases o with
              | none => rfl
              | some v => simp [assigned, mapLookup_mapAssign, Ne.symm hkg]

/-- The loop over the fields of a rule object treats two objects under
construction that hold the same values alike. -/
theorem swapmapFields_congr (rule : List (String × Json)) (element : Json)
    (todo o1 o2 : List (String × Json)) (h : ∀ k, mapLookup o1 k = mapLookup o2 k) :
    (swapmapFields rule element todo o1 = none ∧ swapmapFields rule element todo o2 = none)
    ∨ ∃ r1 r2, swapmapFields rule element todo o1 = some r1
        ∧ swapmapFields rule element todo o2 = some r2
        ∧ ∀ k, mapLookup r1 k = mapLookup r2 k := by
  induction todo generalizing o1 o2 with
  | nil => exact Or.inr ⟨o1, o2, by simp [swapmapFields], by simp [swapmapFields], h⟩
  | cons e rest ih =>
    obtain ⟨k, x⟩ := e
    rw [swapmapFields_cons, swapmapFields_cons]
    cases ruleStep rule element k with
    | none => exact Or.inl ⟨rfl, rfl⟩
    | some o =>
      simp only [Option.some_bind]
      cases o with
      | none => exact ih o1 o2 h
      | some v =>
        apply ih
        intro g
        simp only [assigned]
        rw [mapLookup_mapAssign, mapLookup_mapAssign, h g]

theorem ruleStep_perm (m1 m2 : List (String × Json)) (hp : m1.Perm m2)
    (hnd : (m1.map Prod.fst).Nodup) (element : Json) (k : String) :
    ruleStep m1 element k = ruleStep m2 element k := by
  simp [ruleStep, mapIndex, mapLookup_perm m1 m2 hp hnd k]

/-- One rule object and the same rule object in another order of its fields
leave the same values in the object under construction, or both abort. -/
theorem swapmapFields_sameRule (w1 w2 : Json) (h : sameRule w1 w2) (element : Json)
    (o1 o2 : List (String × Json)) (ho : ∀ k, mapLookup o1 k = mapLookup o2 k) :
    ((asMap w1).bind (fun rule => swapmapFields rule element rule o1) = none
      ∧ (asMap w2).bind (fun rule => swapmapFields rule element rule o2) = none)
    ∨ ∃ r1 r2, (asMap w1).bind (fun rule => swapmapFields rule element rule o1) = some r1
        ∧ (asMap w2).bind (fun rule => swapmapFields rule element rule o2) = some r2
        ∧ ∀ k, mapLookup r1 k = mapLookup r2 k := by
  rcases h with h | ⟨m1, m2, h1, h2, hp, hnd⟩
  · subst h
    cases w1 with
    | obj m => exact swapmapFields_congr m element m o1 o2 ho
    | null => exact Or.inl ⟨rfl, rfl⟩
    | bool b => exact Or.inl ⟨rfl, rfl⟩
    | num n => exact Or.inl ⟨rfl, rfl⟩
    | str s => exact Or.inl ⟨rfl, rfl⟩
    | arr xs => exact Or.inl ⟨rfl, rfl⟩
  · subst h1
    subst h2
    simp only [asMap, Option.some_bind]
    have hnd2 : (m2.map Prod.fst).Nodup := (List.Perm.nodup_iff (hp.map Prod.fst)).mp hnd
    have hkeys : ∀ k, k ∈ m1.map Prod.fst ↔ k ∈ m2.map Prod.fst :=
      fun k => (hp.map Prod.fst).mem_iff
    have hstep : ∀ k, ruleStep m1 element k = ruleStep m2 element k :=
      ruleStep_perm m1 m2 hp hnd element
    rcases swapmapFields_char m1 element m1 o1 hnd with ⟨⟨k, hk, hn⟩, hr⟩ | ⟨hall, r1, hr1, hl1⟩
    · left
      refine ⟨hr, ?_⟩
      rcases swapmapFields_char m2 element m2 o2 hnd2 with ⟨_, hr2⟩ | ⟨hall2, _⟩
      · exact hr2
      · exact absurd (by rw [← hstep k]; exact hn) (hall2 k ((hkeys k).mp hk))
    · rcases swapmapFields_char m2 element m2 o2 hnd2 with
        ⟨⟨k, hk, hn⟩, _⟩ | ⟨_, r2, hr2, hl2⟩
      · exact absurd (by rw [hstep k]; exact hn) (hall k ((hkeys k).mpr hk))
      · right
        refine ⟨r1, r2, hr1, hr2, ?_⟩
        intro g
        rw [hl1 g, hl2 g, hstep g, ho g]
        by_cases hg : g ∈ m1.map Prod.fst
        · simp [hg, (hkeys g).mp hg]
        · have hg2 : ¬ g ∈ m2.map Prod.fst := fun h' => hg ((hkeys g).mpr h')
          simp [hg, hg2]

theorem swapmapRules_sameRule (element : Json) (M1 M2 : List Json)
    (hM : List.Forall₂ sameRule M1 M2) (o1 o2 : List (String × Json))
    (ho : ∀ k, mapLookup o1 k = mapLookup o2 k) (n : Nat) :
    (swapmapRules element M1 o1 n = none ∧ swapmapRules element M2 o2 n = none)
    ∨ ∃ r1 r2 c, swapmapRules element M1 o1 n = some (r1, c)
        ∧ swapmapRules element M2 o2 n = some (r2, c)
        ∧ ∀ k, mapLookup r1 k = mapLookup r2 k := by
  induction hM generalizing o1 o2 n with
  | nil => exact Or.inr ⟨o1, o2, n, rfl, rfl, ho⟩
  | @cons w1 w2 l1 l2 hw _ ih =>
    have e1 : swapmapRules element (w1 :: l1) o1 n
        = ((asMap w1).bind fun rule => swapmapFields rule element rule o1).bind
            fun object1 => swapmapRules element l1 object1 (n + 1) := by
      rw [swapmapRules]
      cases asMap w1 <;> rfl
    have e2 : swapmapRules element (w2 :: l2) o2 n
        = ((asMap w2).bind fun rule => swapmapFields rule element rule o2).bind
            fun object1 => swapmapRules element l2 object1 (n + 1) := by
      rw [swapmapRules]
      cases asMap w2 <;> rfl
    rw [e1, e2]
    rcases swapmapFields_sameRule w1 w2 hw element o1 o2 ho with ⟨f1, f2⟩ | ⟨r1, r2, f1, f2, hr⟩
    · rw [f1, f2]
      exact Or.inl ⟨rfl, rfl⟩
    · rw [f1, f2]
      exact ih r1 r2 hr (n + 1)

theorem forall2_sameObject_append (xs ys xs' ys' : List Json)
    (h1 : List.Forall₂ sameObject xs ys) (h2 : List.Forall₂ sameObject xs' ys') :
    List.Forall₂ sameObject (xs ++ xs') (ys ++ ys') :=
  List.rel_append h1 h2

theorem forall2_sameObject_replicate (n : Nat) (r1 r2 : List (String × Json))
    (h : ∀ k, mapLookup r1 k = mapLookup r2 k) :
    List.Forall₂ sameObject (List.replicate n (Json.obj r1)) (List.replicate n (Json.obj r2)) := by
  induction n with
  | zero => exact List.Forall₂.nil
  | succ n ih => exact List.Forall₂.cons ⟨r1, r2, rfl, rfl, h⟩ ih

theorem swapmapElements_sameRule (a b : action) (hM : List.Forall₂ sameRule a.Map b.Map)
    (elements : List Json) (xs ys : List Json) (hxy : List.Forall₂ sameObject xs ys) :
    (swapmapElements a elements xs = none ∧ swapmapElements b elements ys = none)
    ∨ ∃ xs' ys', swapmapElements a elements xs = some xs'
        ∧ swapmapElements b elements ys = some ys' ∧ List.Forall₂ sameObject xs' ys' := by
  induction elements generalizing xs ys with
  | nil => exact Or.inr ⟨xs, ys, rfl, rfl, hxy⟩
  | cons element rest ih =>
    rw [swapmapElements, swapmapElements]
    rcases swapmapRules_sameRule element a.Map b.Map hM [] [] (fun _ => rfl) 0 with
      ⟨f1, f2⟩ | ⟨r1, r2, c, f1, f2, hr⟩
    · rw [f1, f2]
      exact Or.inl ⟨rfl, rfl⟩
    · rw [f1, f2]
      simp only [Option.some_bind]
      exact ih _ _ (forall2_sameObject_append _ _ _ _ hxy
        (forall2_sameObject_replicate c r1 r2 hr))

theorem swapmapValues_sameRule (a b : action) (hM : List.Forall₂ sameRule a.Map b.Map)
    (material : Json) (values : List Json) (xs ys : List Json)
    (hxy : List.Forall₂ sameObject xs ys) :
    (swapmapValues a material values xs = none ∧ swapmapValues b material values ys = none)
    ∨ ∃ xs' ys', swapmapValues a material values xs = some xs'
        ∧ swapmapValues b material values ys = some ys' ∧ List.Forall₂ sameObject xs' ys' := by
  induction values generalizing xs ys with
  | nil => exact Or.inr ⟨xs, ys, rfl, rfl, hxy⟩
  | cons v rest ih =>
    rw [swapmapValues, swapmapValues]
    cases asString v with
    | none => exact Or.inl ⟨rfl, rfl⟩
    | some path =>
      simp only [Option.some_bind]
      cases asSlice (Data (Path material path)) with
      | none => exact Or.inl ⟨rfl, rfl⟩
      | some materialValues =>
        simp only [Option.some_bind]
        rcases swapmapElements_sameRule a b hM materialValues xs ys hxy with
          ⟨f1, f2⟩ | ⟨xs', ys', f1, f2, hr⟩
        · rw [f1, f2]
          exact Or.inl ⟨rfl, rfl⟩
        · rw [f1, f2]
          exact ih xs' ys' hr

/-- The list a `swapmap` action writes does not depend on the order in which
the fields of the rule objects of its Map are iterated. -/
theorem swapmapAction_rule_order (a : action) (Map2 : List Json)
    (hM : List.Forall₂ sameRule a.Map Map2) (material result : Json) :
    (swapmapAction a material result = none
      ∧ swapmapAction { a with Map := Map2 } material result = none)
    ∨ ∃ xs ys, swapmapAction a material result = some (SetP result (Json.arr xs) a.Context)
        ∧ swapmapAction { a with Map := Map2 } material result
            = some (SetP result (Json.arr ys) a.Context)
        ∧ List.Forall₂ sameObject xs ys := by
  unfold swapmapAction
  rcases swapmapValues_sameRule a { a with Map := Map2 } hM material a.Values [] []
    List.Forall₂.nil with ⟨f1, f2⟩ | ⟨xs, ys, f1, f2, hr⟩
  · left
    rw [f1]
    simp only [f2]
    exact ⟨rfl, rfl⟩
  · right
    refine ⟨xs, ys, ?_, ?_, hr⟩
    · rw [f1]
      rfl
    · simp only [f2]
      rfl

/-! ## C1, the statement -/

theorem studyLoop_keeps (peter : Peterjsons) (es : List (String × Json))
    (acc acts : List action) (h : studyLoop peter es acc = some acts) :
    ∀ a ∈ acc, a ∈ acts := by
  induction es generalizing acc with
  | nil =>
    simp [studyLoop] at h
    subst h
    exact fun a ha => ha
  | cons e es ih =>
    obtain ⟨k, v⟩ := e
    intro a ha
    cases v with
    | str s =>
      simp only [studyLoop] at h
      exact ih _ h a (by simp [ha])
    | obj o =>
      simp only [studyLoop] at h
      cases hs : studyMapInterfaceRecipe k o peter.recipe with
      | none => simp [hs] at h
      | some studied =>
        simp only [hs, Option.bind] at h
        exact ih _ h a (by simp [ha])
    | null =>
      simp only [studyLoop] at h
      exact ih _ h a ha
    | bool b =>
      simp only [studyLoop] at h
      exact ih _ h a ha
    | num n =>
      simp only [studyLoop] at h
      exact ih _ h a ha
    | arr xs =>
      simp only [studyLoop] at h
      exact ih _ h a ha

/-- The action of a string-valued entry is among the studied actions. -/
theorem studyLoop_string_entry (peter : Peterjsons) (es : List (String × Json))
    (acc acts : List action) (K S : String) (hK : (K, Json.str S) ∈ es)
    (h : studyLoop peter es acc = some acts) :
    studyInterfaceRecipe K (Json.str S) peter.material ∈ acts := by
  induction es generalizing acc with
  | nil => simp at hK
  | cons e es ih =>
    obtain ⟨k, v⟩ := e
    rcases List.mem_cons.mp hK with hK' | hK'
    · cases hK'
      simp only [studyLoop] at h
      exact studyLoop_keeps peter es _ acts h _ (by simp)
    · cases v with
      | str s =>
        simp only [studyLoop] at h
        exact ih _ hK' h
      | obj o =>
        simp only [studyLoop] at h
        cases hs : studyMapInterfaceRecipe k o peter.recipe with
        | none => simp [hs] at h
        | some studied =>
          simp only [hs, Option.bind] at h
          exact ih _ hK' h
      | null =>
        simp only [studyLoop] at h
        exact ih _ hK' h
      | bool b =>
        simp only [studyLoop] at h
        exact ih _ hK' h
      | num n =>
        simp only [studyLoop] at h
        exact ih _ hK' h
      | arr xs =>
        simp only [studyLoop] at h
        exact ih _ hK' h

theorem writtenValue_string_entry (F : Fmt) (material : Json) (K S : String) :
    writes (studyInterfaceRecipe K (Json.str S) material) = true
    ∧ writtenValue F material (studyInterfaceRecipe K (Json.str S) material)
        = some (Data (Path material S)) := by
  constructor
  · simp [writes, studyInterfaceRecipe, action.zero, ActionSwap]
  · simp [writtenValue, applyOne, studyInterfaceRecipe, action.zero, ActionSwap, swapAction,
      swapSingleAction, asString, SetP_empty_read, Data]

/-- A run of `Cook` on a fresh instance that returns nil: the studied actions
and the document `apply` leaves. -/
theorem Cook_returns (F : Fmt) (material : Json) (kvs es : List (String × Json))
    (p : Peterjsons)
    (hrec : mapLookup kvs RecipeKey = some (Json.obj es))
    (h : Peterjsons.Cook F { material := material, recipe := Json.obj kvs, result := gabsNew }
      = some (p, none)) :
    ∃ acts, Peterjsons.study { material := material, recipe := Json.obj kvs, result := gabsNew }
        = some (acts, none)
      ∧ studyLoop { material := material, recipe := Json.obj kvs, result := gabsNew } es []
        = some acts
      ∧ applyLoop F material acts gabsNew = some p.result := by
  have hstudy : Peterjsons.study
      { material := material, recipe := Json.obj kvs, result := gabsNew }
      = (studyLoop { material := material, recipe := Json.obj kvs, result := gabsNew } es []).map
          fun actions => (actions, none) := by
    simp [Peterjsons.study, S, Search_obj_single, hrec, ChildrenMap, Data, asMap]
  rw [Peterjsons.Cook, hstudy] at h
  cases hl : studyLoop { material := material, recipe := Json.obj kvs, result := gabsNew } es []
    with
  | none => simp [hl] at h
  | some acts =>
    simp only [hl, Option.map, Peterjsons.apply] at h
    cases ha : applyLoop F material acts gabsNew with
    | none => simp [ha] at h
    | some r =>
      simp [ha] at h
      refine ⟨acts, by rw [hstudy, hl]; rfl, rfl, ?_⟩
      rw [← h]
      exact ha

/-- C1, amended.  For every material document and every recipe whose `recipe`
object maps a key `K` to a plain string `S`: whenever `Cook` on a fresh
instance returns nil, the writes of the studied actions are ordered (of any two
actions that write, the paths are independent, or the earlier path lies
strictly below the later one, or the later path lies strictly below the earlier
one and the earlier action wrote a string, a number or a boolean), and no
action writes at a proper prefix of the path `K`, the value of the result
document at path `K` equals the value of the material document at path `S`.
And `Cook` does return nil when the recipe object has no object-valued
entry. -/
theorem C1_string_entry_copies_material (F : Fmt) (material : Json)
    (kvs es : List (String × Json)) (K S : String)
    (hrec : mapLookup kvs RecipeKey = some (Json.obj es))
    (hK : (K, Json.str S) ∈ es) :
    ((∀ e ∈ es, ∀ o, e.2 ≠ Json.obj o) →
      ∃ p, Peterjsons.Cook F { material := material, recipe := Json.obj kvs, result := gabsNew }
        = some (p, none))
    ∧ ∀ p, Peterjsons.Cook F { material := material, recipe := Json.obj kvs, result := gabsNew }
          = some (p, none) →
        (∀ acts, Peterjsons.study
            { material := material, recipe := Json.obj kvs, result := gabsNew }
            = some (acts, none) →
          orderedWrites F material acts ∧ ∀ b ∈ acts, writes b = true →
            below (splitPath K) (splitPath b.Context) = false) →
        Data (Path p.result K) = Data (Path material S) := by
  constructor
  · intro hflat
    have hstudy : Peterjsons.study
        { material := material, recipe := Json.obj kvs, result := gabsNew }
        = some (flatActions material es, none) := by
      simp [Peterjsons.study, peterjsons.S, Search_obj_single, hrec, ChildrenMap, Data, asMap,
        studyLoop_flat _ es hflat]
    obtain ⟨r, hr⟩ := applyLoop_flat_total F material es gabsNew
    refine ⟨{ material := material, recipe := Json.obj kvs, result := r }, ?_⟩
    rw [Peterjsons.Cook, hstudy]
    simp [Peterjsons.apply, hr]
  · intro p hcook hind
    obtain ⟨acts, h1, h2, h3⟩ := Cook_returns F material kvs es p hrec hcook
    have hmem := studyLoop_string_entry _ es [] acts K S hK h2
    obtain ⟨hw, hv⟩ := writtenValue_string_entry F material K S
    obtain ⟨v, e1, e2⟩ := applyLoop_read F material acts p.result _ (hind acts h1).1 h3 hmem hw
      (hind acts h1).2
    rw [hv] at e1
    cases e1
    have hctx : (studyInterfaceRecipe K (Json.str S) material).Context = K := rfl
    rw [hctx] at e2
    rw [e2]
    rfl

/-- C1, witness.  Material `{"name":"Ana","city":"Lisbon"}` with the recipe
`{"recipe":{"fullName":"name","tag":{"operation":"concat","values":["city"]}}}`,
which holds an object-valued entry beside the string-valued one, gives the
result `{"fullName":"Ana","tag":"Lisbon"}`; with the recipe
`{"recipe":{"user.name":"name","user.city":"city"}}`, whose keys have dots, it
gives `{"user":{"name":"Ana","city":"Lisbon"}}`; and with the recipe
`{"recipe":{"name":"name","name.first":"city"}}`, where the second write is a
collision under the string written first, the entry `name` still holds the
material value. -/
theorem C1_string_entry_copies_material_witness :
    (Peterjsons.Cook Fmt.basic
        { material := Json.obj [("name", Json.str "Ana"), ("city", Json.str "Lisbon")],
          recipe := Json.obj [("recipe", Json.obj [("fullName", Json.str "name"),
            ("tag", Json.obj [("operation", Json.str "concat"),
              ("values", Json.arr [Json.str "city"])])])],
          result := gabsNew }
      = some ({ material := Json.obj [("name", Json.str "Ana"), ("city", Json.str "Lisbon")],
                recipe := Json.obj [("recipe", Json.obj [("fullName", Json.str "name"),
                  ("tag", Json.obj [("operation", Json.str "concat"),
                    ("values", Json.arr [Json.str "city"])])])],
                result := Json.obj [("fullName", Json.str "Ana"), ("tag", Json.str "Lisbon")] },
              none)
      ∧ Data (Path (Json.obj [("fullName", Json.str "Ana"), ("tag", Json.str "Lisbon")])
            "fullName")
          = Data (Path (Json.obj [("name", Json.str "Ana"), ("city", Json.str "Lisbon")])
              "name"))
    ∧ (Peterjsons.Cook Fmt.basic
        { material := Json.obj [("name", Json.str "Ana"), ("city", Json.str "Lisbon")],
          recipe := Json.obj [("recipe", Json.obj [("user.name", Json.str "name"),
            ("user.city", Json.str "city")])],
          result := gabsNew }
      = some ({ material := Json.obj [("name", Json.str "Ana"), ("city", Json.str "Lisbon")],
                recipe := Json.obj [("recipe", Json.obj [("user.name", Json.str "name"),
                  ("user.city", Json.str "city")])],
                result := Json.obj [("user", Json.obj [("name", Json.str "Ana"),
                  ("city", Json.str "Lisbon")])] },
              none)
      ∧ Data (Path (Json.obj [("user", Json.obj [("name", Json.str "Ana"),
            ("city", Json.str "Lisbon")])]) "user.city")
          = Data (Path (Json.obj [("name", Json.str "Ana"), ("city", Json.str "Lisbon")])
              "city"))
    ∧ (Peterjsons.Cook Fmt.basic
        { material := Json.obj [("name", Json.str "Ana"), ("city", Json.str "Lisbon")],
          recipe := Json.obj [("recipe", Json.obj [("name", Json.str "name"),
            ("name.first", Json.str "city")])],
          result := gabsNew }
      = some ({ material := Json.obj [("name", Json.str "Ana"), ("city", Json.str "Lisbon")],
                recipe := Json.obj [("recipe", Json.obj [("name", Json.str "name"),
                  ("name.first", Json.str "city")])],
                result := Json.obj [("name", Json.str "Ana")] },
              none)
      ∧ Data (Path (Json.obj [("name", Json.str "Ana")]) "name")
          = Data (Path (Json.obj [("name", Json.str "Ana"), ("city", Json.str "Lisbon")])
              "name")) :=
  ⟨⟨rfl, (C1_string_entry_copies_material Fmt.basic
      (Json.obj [("name", Json.str "Ana"), ("city", Json.str "Lisbon")])
      [("recipe", Json.obj [("fullName", Json.str "name"),
        ("tag", Json.obj [("operation", Json.str "concat"),
          ("values", Json.arr [Json.str "city"])])])]
      [("fullName", Json.str "name"),
        ("tag", Json.obj [("operation", Json.str "concat"),
          ("values", Json.arr [Json.str "city"])])]
      "fullName" "name" rfl (by simp)).2
      { material := Json.obj [("name", Json.str "Ana"), ("city", Json.str "Lisbon")],
        recipe := Json.obj [("recipe", Json.obj [("fullName", Json.str "name"),
          ("tag", Json.obj [("operation", Json.str "concat"),
            ("values", Json.arr [Json.str "city"])])])],
        result := Json.obj [("fullName", Json.str "Ana"), ("tag", Json.str "Lisbon")] }
      rfl
      (by
        intro acts h
        have e : acts =
            [{ Context := "fullName", Values := [], Operation := "swap", Format := "",
               Separator := "", Replaces := [Json.str "name"], Map := [] },
             { Context := "tag", Values := [Json.str "city"], Operation := "concat",
               Format := "", Separator := "", Replaces := [], Map := [] }] :=
          (Prod.mk.inj (Option.some.inj h)).1.symm
        rw [e]
        unfold orderedWrites
        exact ⟨by decide, by decide⟩)⟩,
   ⟨rfl, (C1_string_entry_copies_material Fmt.basic
      (Json.obj [("name", Json.str "Ana"), ("city", Json.str "Lisbon")])
      [("recipe", Json.obj [("user.name", Json.str "name"),
        ("user.city", Json.str "city")])]
      [("user.name", Json.str "name"), ("user.city", Json.str "city")]
      "user.city" "city" rfl (by simp)).2
      { material := Json.obj [("name", Json.str "Ana"), ("city", Json.str "Lisbon")],
        recipe := Json.obj [("recipe", Json.obj [("user.name", Json.str "name"),
          ("user.city", Json.str "city")])],
        result := Json.obj [("user", Json.obj [("name", Json.str "Ana"),
          ("city", Json.str "Lisbon")])] }
      rfl
      (by
        intro acts h
        have e : acts =
            [{ Context := "user.name", Values := [], Operation := "swap", Format := "",
               Separator := "", Replaces := [Json.str "name"], Map := [] },
             { Context := "user.city", Values := [], Operation := "swap", Format := "",
               Separator := "", Replaces := [Json.str "city"], Map := [] }] :=
          (Prod.mk.inj (Option.some.inj h)).1.symm
        rw [e]
        unfold orderedWrites
        exact ⟨by decide, by decide⟩)⟩,
   ⟨rfl, (C1_string_entry_copies_material Fmt.basic
      (Json.obj [("name", Json.str "Ana"), ("city", Json.str "Lisbon")])
      [("recipe", Json.obj [("name", Json.str "name"),
        ("name.first", Json.str "city")])]
      [("name", Json.str "name"), ("name.first", Json.str "city")]
      "name" "name" rfl (by simp)).2
      { material := Json.obj [("name", Json.str "Ana"), ("city", Json.str "Lisbon")],
        recipe := Json.obj [("recipe", Json.obj [("name", Json.str "name"),
          ("name.first", Json.str "city")])],
        result := Json.obj [("name", Json.str "Ana")] }
      rfl
      (by
        intro acts h
        have e : acts =
            [{ Context := "name", Values := [], Operation := "swap", Format := "",
               Separator := "", Replaces := [Json.str "name"], Map := [] },
             { Context := "name.first", Values := [], Operation := "swap", Format := "",
               Separator := "", Replaces := [Json.str "city"], Map := [] }] :=
          (Prod.mk.inj (Option.some.inj h)).1.symm
        rw [e]
        unfold orderedWrites
        exact ⟨by decide, by decide⟩)⟩⟩

/-! ## The study of a sub-block does not depend on the order of its fields -/

theorem eq_of_key_eq (m : List (String × Json)) (hnd : (m.map Prod.fst).Nodup)
    (x y : String × Json) (hx : x ∈ m) (hy : y ∈ m) (h : x.1 = y.1) : x = y := by
  obtain ⟨k, v⟩ := x
  obtain ⟨k', w⟩ := y
  simp only at h
  subst h
  have h1 := mapLookup_of_mem m k v hnd hx
  have h2 := mapLookup_of_mem m k w hnd hy
  rw [h1] at h2
  cases h2
  rfl

theorem collect_perm (names : List String) (m1 m2 : List (String × Json)) (hp : m1.Perm m2)
    (hone : ∀ x ∈ m1, ∀ y ∈ m1, x.1 ∈ names → y.1 ∈ names → x = y) :
    collect names m1 = collect names m2 := by
  induction hp with
  | nil => rfl
  | cons x _ ih =>
    obtain ⟨k, v⟩ := x
    simp only [collect]
    rw [ih (fun a ha b hb => hone a (by simp [ha]) b (by simp [hb]))]
  | swap x y l =>
    obtain ⟨kx, vx⟩ := x
    obtain ⟨ky, vy⟩ := y
    simp only [collect]
    by_cases hx : kx ∈ names
    · by_cases hy : ky ∈ names
      · have := hone (ky, vy) (by simp) (kx, vx) (by simp) hy hx
        cases this
        rfl
      · simp [hx, hy]
    · simp [hx]
  | trans h1 _ ih1 ih2 =>
    rw [ih1 hone, ih2 (fun a ha b hb => hone a (h1.mem_iff.mpr ha) b (h1.mem_iff.mpr hb))]

theorem collect_perm_one (m1 m2 : List (String × Json)) (hp : m1.Perm m2)
    (hnd : (m1.map Prod.fst).Nodup) (name : String) :
    collect [name] m1 = collect [name] m2 := by
  apply collect_perm _ _ _ hp
  intro x hx y hy h1 h2
  simp at h1 h2
  exact eq_of_key_eq m1 hnd x y hx hy (by rw [h1, h2])

theorem collect_perm_two (m1 m2 : List (String × Json)) (hp : m1.Perm m2)
    (hnd : (m1.map Prod.fst).Nodup) (hone : oneKeyPerList m1) (n1 n2 : String)
    (hf : feedsSameList n1 n2 = true) :
    collect [n1, n2] m1 = collect [n1, n2] m2 := by
  apply collect_perm _ _ _ hp
  intro x hx y hy h1 h2
  apply eq_of_key_eq m1 hnd x y hx hy
  by_contra hne
  have := hone x.1 (List.mem_map.mpr ⟨x, hx, rfl⟩) y.1 (List.mem_map.mpr ⟨y, hy, rfl⟩) hne
  simp at h1 h2
  have e : feedsSameList x.1 y.1 = true := by
    rcases h1 with h1 | h1 <;> rcases h2 with h2 | h2 <;> rw [h1, h2] <;> revert hf <;>
      simp [feedsSameList] <;> tauto
  rw [this] at e
  cases e

theorem setParameter_some_ok (a a1 : action) (name : String) (v : Json)
    (h : a.setParameter name v = some a1) : paramOk name v := by
  intro hn
  unfold action.setParameter at h
  cases v with
  | str s => exact ⟨s, rfl⟩
  | null => rcases hn with hn | hn | hn | hn <;> subst hn <;> simp [asString] at h
  | bool b => rcases hn with hn | hn | hn | hn <;> subst hn <;> simp [asString] at h
  | num n => rcases hn with hn | hn | hn | hn <;> subst hn <;> simp [asString] at h
  | arr xs => rcases hn with hn | hn | hn | hn <;> subst hn <;> simp [asString] at h
  | obj o => rcases hn with hn | hn | hn | hn <;> subst hn <;> simp [asString] at h

theorem setParameter_lastString (a a1 : action) (name : String) (v : Json)
    (h : a.setParameter name v = some a1) :
    a1.Operation = (if name = "operation" then lastString a.Operation [v] else a.Operation)
    ∧ a1.Format = (if name = "format" then lastString a.Format [v] else a.Format)
    ∧ a1.Separator = (if name = "separator" then lastString a.Separator [v] else a.Separator) := by
  obtain ⟨s1, s2, s3, s4, s5, s6⟩ := setParameter_strings a a1 name v h
  refine ⟨?_, ?_, ?_⟩
  · by_cases hn : name = "operation"
    · rw [if_pos hn, s1 hn]
      simp [lastString, asString]
    · rw [if_neg hn, s2 hn]
  · by_cases hn : name = "format"
    · rw [if_pos hn, s3 hn]
      simp [lastString, asString]
    · rw [if_neg hn, s4 hn]
  · by_cases hn : name = "separator"
    · rw [if_pos hn, s5 hn]
      simp [lastString, asString]
    · rw [if_neg hn, s6 hn]

theorem lastString_append (d : String) (xs ys : List Json) :
    lastString d (xs ++ ys) = lastString (lastString d xs) ys := by
  simp [lastString, List.foldl_append]

theorem studyListValues_strings (name : String) (xs : List Json) (a a1 : action)
    (h : studyListValues name xs a = some a1) :
    (∀ x ∈ xs, paramOk name x)
    ∧ a1.Operation = (if name = "operation" then lastString a.Operation xs else a.Operation)
    ∧ a1.Format = (if name = "format" then lastString a.Format xs else a.Format)
    ∧ a1.Separator = (if name = "separator" then lastString a.Separator xs else a.Separator) := by
  induction xs generalizing a with
  | nil =>
    simp [studyListValues] at h
    subst h
    simp [lastString]
  | cons x xs ih =>
    rw [studyListValues] at h
    cases hs : a.setParameter name x with
    | none => simp [hs] at h
    | some a2 =>
      simp only [hs, Option.bind] at h
      obtain ⟨f1, f2, f3⟩ := setParameter_lastString a a2 name x hs
      obtain ⟨g0, g1, g2, g3⟩ := ih a2 h
      refine ⟨?_, ?_, ?_, ?_⟩
      · intro y hy
        rcases List.mem_cons.mp hy with hy | hy
        · subst hy
          exact setParameter_some_ok a a2 name _ hs
        · exact g0 y hy
      · rw [g1, f1]
        by_cases hn : name = "operation"
        · simp only [if_pos hn]
          rw [show x :: xs = [x] ++ xs from rfl, lastString_append]
        · simp only [if_neg hn]
      · rw [g2, f2]
        by_cases hn : name = "format"
        · simp only [if_pos hn]
          rw [show x :: xs = [x] ++ xs from rfl, lastString_append]
        · simp only [if_neg hn]
      · rw [g3, f3]
        by_cases hn : name = "separator"
        · simp only [if_pos hn]
          rw [show x :: xs = [x] ++ xs from rfl, lastString_append]
        · simp only [if_neg hn]

theorem studyMapKeys_cons (key objectIndex : String) (mapType rest : List (String × Json))
    (mapKey : String) (v0 : Json) (a : action) :
    studyMapKeys key objectIndex mapType ((mapKey, v0) :: rest) a
      = ((studyListValues mapKey (entriesOf (mapIndex mapType mapKey)) a).bind fun a1 =>
          a1.setParameter "context" (Json.str (key ++ "." ++ objectIndex))).bind
          (studyMapKeys key objectIndex mapType rest) := by
  rw [studyMapKeys]
  cases mapIndex mapType mapKey <;> simp [entriesOf, studyListValues]

theorem studyMapKeys_strings (key objectIndex : String) (mapType todo : List (String × Json))
    (a a1 : action) (hnd : (mapType.map Prod.fst).Nodup) (hsub : ∀ x ∈ todo, x ∈ mapType)
    (h : studyMapKeys key objectIndex mapType todo a = some a1) :
    (∀ e ∈ todo, ∀ x ∈ entriesOf e.2, paramOk e.1 x)
    ∧ a1.Operation = lastString a.Operation (collect ["operation"] todo)
    ∧ a1.Format = lastString a.Format (collect ["format"] todo)
    ∧ a1.Separator = lastString a.Separator (collect ["separator"] todo) := by
  induction todo generalizing a with
  | nil =>
    simp [studyMapKeys] at h
    subst h
    simp [collect, lastString]
  | cons x rest ih =>
    obtain ⟨mapKey, v⟩ := x
    have hidx : mapIndex mapType mapKey = v := by
      simp [mapIndex, mapLookup_of_mem mapType mapKey v hnd (hsub _ (by simp))]
    rw [studyMapKeys_cons, hidx] at h
    cases hr : studyListValues mapKey (entriesOf v) a with
    | none => simp [hr] at h
    | some a2 =>
      simp only [hr, Option.bind] at h
      cases hc : a2.setParameter "context" (Json.str (key ++ "." ++ objectIndex)) with
      | none => simp [hc] at h
      | some a3 =>
        simp only [hc] at h
        obtain ⟨f0, f1, f2, f3⟩ := studyListValues_strings mapKey (entriesOf v) a a2 hr
        obtain ⟨c1, c2, c3⟩ := setParameter_lastString a2 a3 "context" _ hc
        obtain ⟨g0, g1, g2, g3⟩ := ih a3 (fun y hy => hsub y (by simp [hy])) h
        rw [if_neg (by decide)] at c1 c2 c3
        refine ⟨?_, ?_, ?_, ?_⟩
        · intro e he
          rcases List.mem_cons.mp he with he | he
          · subst he
            exact f0
          · exact g0 e he
        · rw [g1, c1, f1]
          by_cases hn : mapKey = "operation"
          · simp [collect, hn, lastString_append]
          · simp [collect, hn]
        · rw [g2, c2, f2]
          by_cases hn : mapKey = "format"
          · simp [collect, hn, lastString_append]
          · simp [collect, hn]
        · rw [g3, c3, f3]
          by_cases hn : mapKey = "separator"
          · simp [collect, hn, lastString_append]
          · simp [collect, hn]

theorem studyMapKeys_mapType (key objectIndex : String) (m1 m2 todo : List (String × Json))
    (a : action) (h : ∀ k, mapIndex m1 k = mapIndex m2 k) :
    studyMapKeys key objectIndex m1 todo a = studyMapKeys key objectIndex m2 todo a := by
  induction todo generalizing a with
  | nil => rfl
  | cons x rest ih =>
    obtain ⟨mapKey, v⟩ := x
    rw [studyMapKeys, studyMapKeys, h mapKey]
    congr 1
    funext a1
    exact ih a1

theorem studyMapKeys_nil_of_perm (key objectIndex : String) (m todo : List (String × Json))
    (a a1 : action) (h : studyMapKeys key objectIndex m todo a = some a1) :
    (todo = [] → a1.Context = a.Context)
    ∧ (todo ≠ [] → a1.Context = key ++ "." ++ objectIndex) := by
  constructor
  · intro e
    subst e
    simp [studyMapKeys] at h
    subst h
    rfl
  · intro hne
    exact studyMapKeys_context key objectIndex m todo a a1 hne h

/-- The study of a sub-block gives the same action in every order of its
fields, when the block holds no key twice and no two of its keys feed the same
list. -/
theorem studyMapKeys_perm (key objectIndex : String) (m1 m2 : List (String × Json))
    (hp : m1.Perm m2) (hnd : (m1.map Prod.fst).Nodup) (hone : oneKeyPerList m1) :
    studyMapKeys key objectIndex m1 m1 action.zero
      = studyMapKeys key objectIndex m2 m2 action.zero := by
  have hnd2 : (m2.map Prod.fst).Nodup := (List.Perm.nodup_iff (hp.map Prod.fst)).mp hnd
  have hidx : ∀ k, mapIndex m1 k = mapIndex m2 k := by
    intro k
    simp [mapIndex, mapLookup_perm m1 m2 hp hnd k]
  have hfields : ∀ a1 a2, studyMapKeys key objectIndex m1 m1 action.zero = some a1 →
      studyMapKeys key objectIndex m2 m2 action.zero = some a2 → a1 = a2 := by
    intro a1 a2 h1 h2
    obtain ⟨_, s1, s2, s3⟩ := studyMapKeys_strings key objectIndex m1 m1 _ a1 hnd (fun _ h => h) h1
    obtain ⟨_, t1, t2, t3⟩ := studyMapKeys_strings key objectIndex m2 m2 _ a2 hnd2 (fun _ h => h) h2
    obtain ⟨l1, l2, l3⟩ := studyMapKeys_fields key objectIndex m1 m1 _ a1 hnd (fun _ h => h) h1
    obtain ⟨k1, k2, k3⟩ := studyMapKeys_fields key objectIndex m2 m2 _ a2 hnd2 (fun _ h => h) h2
    have c1 := studyMapKeys_nil_of_perm key objectIndex m1 m1 _ a1 h1
    have c2 := studyMapKeys_nil_of_perm key objectIndex m2 m2 _ a2 h2
    have hnil : m1 = [] ↔ m2 = [] := by
      constructor
      · intro e
        subst e
        exact List.Perm.nil_eq hp |>.symm
      · intro e
        subst e
        exact List.Perm.eq_nil hp
    have e1 : a1.Context = a2.Context := by
      by_cases hm : m1 = []
      · rw [c1.1 hm, c2.1 (hnil.mp hm)]
      · rw [c1.2 hm, c2.2 (fun e => hm (hnil.mpr e))]
    have e2 : a1.Values = a2.Values := by
      rw [l1, k1, collect_perm_two m1 m2 hp hnd hone "values" "value" (by decide)]
    have e3 : a1.Operation = a2.Operation := by
      rw [s1, t1, collect_perm_one m1 m2 hp hnd "operation"]
    have e4 : a1.Format = a2.Format := by
      rw [s2, t2, collect_perm_one m1 m2 hp hnd "format"]
    have e5 : a1.Separator = a2.Separator := by
      rw [s3, t3, collect_perm_one m1 m2 hp hnd "separator"]
    have e6 : a1.Replaces = a2.Replaces := by
      rw [l2, k2, collect_perm_two m1 m2 hp hnd hone "replaces" "replace" (by decide)]
    have e7 : a1.Map = a2.Map := by
      rw [l3, k3, collect_perm_two m1 m2 hp hnd hone "*" "all" (by decide)]
    cases a1
    cases a2
    simp only at e1 e2 e3 e4 e5 e6 e7
    subst e1 e2 e3 e4 e5 e6 e7
    rfl
  have hok : ∀ (ma mb : List (String × Json)), ma.Perm mb → (ma.map Prod.fst).Nodup →
      ∀ a1, studyMapKeys key objectIndex ma ma action.zero = some a1 →
      ∃ a2, studyMapKeys key objectIndex mb mb action.zero = some a2 := by
    intro ma mb hpab hnda a1 h1
    have hndb : (mb.map Prod.fst).Nodup := (List.Perm.nodup_iff (hpab.map Prod.fst)).mp hnda
    obtain ⟨ok, _⟩ := studyMapKeys_strings key objectIndex ma ma _ a1 hnda (fun _ h => h) h1
    apply studyMapKeys_ok
    intro mapKey hk x hx
    obtain ⟨e, he, hek⟩ := List.mem_map.mp hk
    have hidxb : mapIndex mb mapKey = e.2 := by
      rw [← hek]
      simp [mapIndex, mapLookup_of_mem mb e.1 e.2 hndb he]
    rw [hidxb] at hx
    rw [← hek]
    exact ok e (hpab.mem_iff.mpr he) x hx
  cases h1 : studyMapKeys key objectIndex m1 m1 action.zero with
  | none =>
    cases h2 : studyMapKeys key objectIndex m2 m2 action.zero with
    | none => rfl
    | some a2 =>
      obtain ⟨a1, ha1⟩ := hok m2 m1 hp.symm hnd2 a2 h2
      rw [h1] at ha1
      cases ha1
  | some a1 =>
    obtain ⟨a2, ha2⟩ := hok m1 m2 hp hnd a1 h1
    rw [ha2, hfields a1 a2 h1 ha2]

/-! ## The study of an entry does not depend on the order of its keys -/

theorem setParameter_nf (a : action) (n : String) (v : Json) :
    a.setParameter n v
      = if needsString n = true ∧ asString v = none then none else some (a.routedTo n v) := by
  unfold action.setParameter
  by_cases h1 : n = "operation"
  · subst h1
    cases hs : asString v <;> simp [needsString, action.routedTo, hs]
  by_cases h2 : n = "format"
  · subst h2
    cases hs : asString v <;> simp [needsString, action.routedTo, hs]
  by_cases h3 : n = "separator"
  · subst h3
    cases hs : asString v <;> simp [needsString, action.routedTo, hs]
  by_cases h4 : n = "context"
  · subst h4
    cases hs : asString v <;> simp [needsString, action.routedTo, hs]
  have hns : needsString n = false := by simp [needsString, h1, h2, h3, h4]
  simp only [if_neg h1, if_neg h2, if_neg h3, if_neg h4, hns, Bool.false_eq_true, false_and,
    if_false]
  by_cases h5 : n = "values" ∨ n = "value"
  · rw [if_pos h5]
    rcases h5 with h5 | h5 <;> subst h5 <;> simp [action.routedTo]
  by_cases h6 : n = "replaces" ∨ n = "replace"
  · rw [if_neg h5, if_pos h6]
    rcases h6 with h6 | h6 <;> subst h6 <;> simp [action.routedTo]
  by_cases h7 : n = "*" ∨ n = "all"
  · rw [if_neg h5, if_neg h6, if_pos h7]
    rcases h7 with h7 | h7 <;> subst h7 <;> simp [action.routedTo]
  rw [if_neg h5, if_neg h6, if_neg h7]
  simp [action.routedTo, h1, h2, h3, h4, h5, h6, h7]

theorem routedTo_comm (a : action) (n1 n2 : String) (v1 v2 : Json) (hne : n1 ≠ n2)
    (hf : feedsSameList n1 n2 = false) :
    (a.routedTo n1 v1).routedTo n2 v2 = (a.routedTo n2 v2).routedTo n1 v1 := by
  simp only [feedsSameList, Bool.or_eq_false_iff, Bool.and_eq_false_iff, decide_eq_false_iff_not,
    Bool.or_eq_true, decide_eq_true_eq, not_or] at hf
  obtain ⟨⟨hv, hr⟩, hm⟩ := hf
  simp only [action.routedTo, action.mk.injEq]
  refine ⟨?_, ?_, ?_, ?_, ?_, ?_, ?_⟩
  · by_cases e1 : n1 = "context" <;> by_cases e2 : n2 = "context" <;> simp [e1, e2]
    exact absurd (e1.trans e2.symm) hne
  · by_cases e1 : n1 = "values" ∨ n1 = "value" <;> by_cases e2 : n2 = "values" ∨ n2 = "value" <;>
      simp only [if_pos, if_neg, e1, e2, List.append_nil, not_false_eq_true]
    rcases hv with h | h
    · exact absurd e1 (by simpa [not_or] using h)
    · exact absurd e2 (by simpa [not_or] using h)
  · by_cases e1 : n1 = "operation" <;> by_cases e2 : n2 = "operation" <;> simp [e1, e2]
    exact absurd (e1.trans e2.symm) hne
  · by_cases e1 : n1 = "format" <;> by_cases e2 : n2 = "format" <;> simp [e1, e2]
    exact absurd (e1.trans e2.symm) hne
  · by_cases e1 : n1 = "separator" <;> by_cases e2 : n2 = "separator" <;> simp [e1, e2]
    exact absurd (e1.trans e2.symm) hne
  · by_cases e1 : n1 = "replaces" ∨ n1 = "replace" <;>
      by_cases e2 : n2 = "replaces" ∨ n2 = "replace" <;>
      simp only [if_pos, if_neg, e1, e2, List.append_nil, not_false_eq_true]
    rcases hr with h | h
    · exact absurd e1 (by simpa [not_or] using h)
    · exact absurd e2 (by simpa [not_or] using h)
  · by_cases e1 : n1 = "*" ∨ n1 = "all" <;> by_cases e2 : n2 = "*" ∨ n2 = "all" <;>
      simp only [if_pos, if_neg, e1, e2, List.append_nil, not_false_eq_true]
    rcases hm with h | h
    · exact absurd e1 (by simpa [not_or] using h)
    · exact absurd e2 (by simpa [not_or] using h)

theorem setParameter_comm (t : action) (n1 n2 : String) (v1 v2 : Json) (hne : n1 ≠ n2)
    (hf : feedsSameList n1 n2 = false) :
    (t.setParameter n1 v1).bind (fun a => a.setParameter n2 v2)
      = (t.setParameter n2 v2).bind (fun a => a.setParameter n1 v1) := by
  simp only [setParameter_nf]
  by_cases g1 : needsString n1 = true ∧ asString v1 = none
  · by_cases g2 : needsString n2 = true ∧ asString v2 = none
    · simp [g1, g2]
    · simp [g1, g2]
  · by_cases g2 : needsString n2 = true ∧ asString v2 = none
    · simp [g1, g2]
    · simp only [if_neg g1, if_neg g2, Option.some_bind, routedTo_comm t n1 n2 v1 v2 hne hf]

theorem setParameter_with_context (a : action) (c n : String) (v : Json) (hn : n ≠ "context") :
    ({ a with Context := c } : action).setParameter n v
      = (a.setParameter n v).map fun b => { b with Context := c } := by
  simp only [setParameter_nf]
  by_cases g : needsString n = true ∧ asString v = none
  · simp [g]
  · simp only [if_neg g, Option.map_some']
    simp [action.routedTo, hn]

theorem isControlKey_ne_context (idx : String) (h : isControlKey idx = true) :
    idx ≠ "context" := by
  intro e
  subst e
  simp [isControlKey] at h

theorem structuralControlKey_eq (key idx : String) (aux : List (String × action)) (om : Json) :
    structuralControlKey key idx aux om
      = (ctlValue om idx).bind fun v =>
          (((mapLookup aux key).getD action.zero).setParameter idx v).bind fun a1 =>
            some (mapAssign aux key { a1 with Context := key }) := by
  have hctx : ∀ a1 : action, a1.setParameter "context" (Json.str key)
      = some { a1 with Context := key } := by
    intro a1
    simp [action.setParameter, asString]
  unfold structuralControlKey ctlValue
  cases hl : mapLookup aux key with
  | none =>
    simp only [mapLookup_mapAssign_self, Option.getD_some, Option.getD_none, hctx,
      mapAssign_mapAssign]
    by_cases hv : idx = "values"
    · subst hv
      simp only [if_true]
      cases asMap om with
      | none => rfl
      | some o =>
        simp only [Option.some_bind]
        cases asSlice (mapIndex o "values") with
        | none => rfl
        | some xs =>
          simp only [Option.some_bind]
    · simp only [if_neg hv]
      cases asMap om with
      | none => rfl
      | some o =>
        simp only [Option.some_bind, Option.map_some']
  | some t =>
    simp only [hl, Option.getD_some, hctx]
    by_cases hv : idx = "values"
    · subst hv
      simp only [if_true]
      cases asMap om with
      | none => rfl
      | some o =>
        simp only [Option.some_bind]
        cases asSlice (mapIndex o "values") with
        | none => rfl
        | some xs =>
          simp only [Option.some_bind]
    · simp only [if_neg hv]
      cases asMap om with
      | none => rfl
      | some o =>
        simp only [Option.some_bind, Option.map_some']

theorem control_comm (key idx1 idx2 : String) (aux : List (String × action)) (om : Json)
    (hne : idx1 ≠ idx2) (hc1 : isControlKey idx1 = true) (hc2 : isControlKey idx2 = true)
    (hf : feedsSameList idx1 idx2 = false) :
    (structuralControlKey key idx1 aux om).bind (fun a1 => structuralControlKey key idx2 a1 om)
      = (structuralControlKey key idx2 aux om).bind
          (fun a1 => structuralControlKey key idx1 a1 om) := by
  have hstep : ∀ (i j : String) (vi vj : Json), isControlKey j = true →
      ctlValue om i = some vi → ctlValue om j = some vj →
      (structuralControlKey key i aux om).bind (fun a1 => structuralControlKey key j a1 om)
        = ((((mapLookup aux key).getD action.zero).setParameter i vi).bind
            (fun a => a.setParameter j vj)).map
            fun a2 => mapAssign aux key { a2 with Context := key } := by
    intro i j vi vj hcj hi hj
    rw [structuralControlKey_eq, hi]
    simp only [Option.some_bind]
    cases ((mapLookup aux key).getD action.zero).setParameter i vi with
    | none => rfl
    | some a1 =>
      simp only [Option.some_bind]
      rw [structuralControlKey_eq, hj]
      simp only [Option.some_bind, mapLookup_mapAssign_self, Option.getD_some]
      rw [setParameter_with_context a1 key j vj (isControlKey_ne_context j hcj)]
      cases a1.setParameter j vj with
      | none => rfl
      | some a2 => simp [mapAssign_mapAssign]
  have hnone : ∀ (i j : String), ctlValue om i = none →
      (structuralControlKey key i aux om).bind (fun a1 => structuralControlKey key j a1 om)
        = none
      ∧ (structuralControlKey key j aux om).bind (fun a1 => structuralControlKey key i a1 om)
        = none := by
    intro i j hi
    constructor
    · rw [structuralControlKey_eq, hi]
      rfl
    · cases hs : structuralControlKey key j aux om with
      | none => rfl
      | some a1 =>
        simp only [Option.some_bind]
        rw [structuralControlKey_eq, hi]
        rfl
  cases h1 : ctlValue om idx1 with
  | none =>
    obtain ⟨e1, e2⟩ := hnone idx1 idx2 h1
    rw [e1, e2]
  | some v1 =>
    cases h2 : ctlValue om idx2 with
    | none =>
      obtain ⟨e1, e2⟩ := hnone idx2 idx1 h2
      rw [e1, e2]
    | some v2 =>
      rw [hstep idx1 idx2 v1 v2 hc2 h1 h2, hstep idx2 idx1 v2 v1 hc1 h2 h1,
        setParameter_comm _ idx1 idx2 v1 v2 hne hf]

/-! ## The loop over the keys of an entry -/

theorem studyMapInterfaceActions_acc (key objectIndex : String) (actions : List action)
    (recipe : Json) :
    studyMapInterfaceActions key objectIndex actions recipe
      = (studyMapInterfaceActions key objectIndex [] recipe).map fun n => actions ++ n := by
  rw [studyMapInterfaceActions_structural, studyMapInterfaceActions_structural]
  generalize Data (Path recipe (RecipeKey ++ "." ++ key ++ "." ++ objectIndex)) = w
  cases w <;> simp [structuralNestedKey, Option.map_map, Function.comp_def]

theorem studyMapInterfaceRecipeLoop_cons_control (key : String) (recipe : Json)
    (idx : String) (v : Json) (rest : List (String × Json)) (actions : List action)
    (aux : List (String × action)) (hc : isControlKey idx = true) :
    studyMapInterfaceRecipeLoop key recipe ((idx, v) :: rest) actions aux
      = (structuralControlKey key idx aux (Data (Path recipe (RecipeKey ++ "." ++ key)))).bind
          fun aux1 => studyMapInterfaceRecipeLoop key recipe rest actions aux1 := by
  rw [studyMapInterfaceRecipeLoop, if_pos hc, studyMapInterfaceAction_structural]

theorem studyMapInterfaceRecipeLoop_cons_nested (key : String) (recipe : Json)
    (idx : String) (v : Json) (rest : List (String × Json)) (actions : List action)
    (aux : List (String × action)) (hc : isControlKey idx = false) :
    studyMapInterfaceRecipeLoop key recipe ((idx, v) :: rest) actions aux
      = (studyMapInterfaceActions key idx [] recipe).bind
          fun n => studyMapInterfaceRecipeLoop key recipe rest (actions ++ n) aux := by
  rw [studyMapInterfaceRecipeLoop, if_neg (by simp [hc]), studyMapInterfaceActions_acc]
  cases studyMapInterfaceActions key idx [] recipe <;> rfl

theorem studyMapInterfaceRecipeLoop_acc (key : String) (recipe : Json)
    (todo : List (String × Json)) (actions : List action) (aux : List (String × action)) :
    studyMapInterfaceRecipeLoop key recipe todo actions aux
      = (studyMapInterfaceRecipeLoop key recipe todo [] aux).map
          fun x => (actions ++ x.1, x.2) := by
  induction todo generalizing actions aux with
  | nil => simp [studyMapInterfaceRecipeLoop]
  | cons e rest ih =>
    obtain ⟨idx, v⟩ := e
    by_cases hc : isControlKey idx = true
    · rw [studyMapInterfaceRecipeLoop_cons_control _ _ _ _ _ _ _ hc,
        studyMapInterfaceRecipeLoop_cons_control _ _ _ _ _ _ _ hc]
      cases structuralControlKey key idx aux (Data (Path recipe (RecipeKey ++ "." ++ key))) with
      | none => rfl
      | some aux1 =>
        simp only [Option.some_bind]
        exact ih actions aux1
    · have hc' : isControlKey idx = false := (Bool.not_eq_true _).mp hc
      rw [studyMapInterfaceRecipeLoop_cons_nested _ _ _ _ _ _ _ hc',
        studyMapInterfaceRecipeLoop_cons_nested _ _ _ _ _ _ _ hc']
      cases studyMapInterfaceActions key idx [] recipe with
      | none => rfl
      | some n =>
        simp only [Option.some_bind]
        rw [ih (actions ++ n) aux, ih ([] ++ n) aux]
        cases studyMapInterfaceRecipeLoop key recipe rest [] aux with
        | none => rfl
        | some x => simp [List.append_assoc]

theorem studyMapInterfaceRecipeLoop_keys (key : String) (recipe : Json)
    (todo : List (String × Json)) (actions : List action) (aux : List (String × action)) :
    studyMapInterfaceRecipeLoop key recipe todo actions aux
      = studyMapInterfaceRecipeLoop key recipe (todo.map fun e => (e.1, Json.null))
          actions aux := by
  induction todo generalizing actions aux with
  | nil => rfl
  | cons e rest ih =>
    obtain ⟨idx, v⟩ := e
    rw [List.map_cons]
    by_cases hc : isControlKey idx = true
    · rw [studyMapInterfaceRecipeLoop_cons_control _ _ _ _ _ _ _ hc,
        studyMapInterfaceRecipeLoop_cons_control _ _ _ _ _ _ _ hc]
      cases structuralControlKey key idx aux (Data (Path recipe (RecipeKey ++ "." ++ key))) with
      | none => rfl
      | some aux1 =>
        simp only [Option.some_bind]
        exact ih actions aux1
    · have hc' : isControlKey idx = false := (Bool.not_eq_true _).mp hc
      rw [studyMapInterfaceRecipeLoop_cons_nested _ _ _ _ _ _ _ hc',
        studyMapInterfaceRecipeLoop_cons_nested _ _ _ _ _ _ _ hc']
      cases studyMapInterfaceActions key idx [] recipe with
      | none => rfl
      | some n =>
        simp only [Option.some_bind]
        exact ih _ aux

theorem sameLoop_refl (x : Option (List action × List (String × action))) : sameLoop x x := by
  cases x with
  | none => exact Or.inl ⟨rfl, rfl⟩
  | some p => exact Or.inr ⟨p.1, p.1, p.2, rfl, rfl, List.Perm.refl _⟩

theorem sameLoop_trans (x y z : Option (List action × List (String × action)))
    (h1 : sameLoop x y) (h2 : sameLoop y z) : sameLoop x z := by
  rcases h1 with ⟨e1, e2⟩ | ⟨a, b, aux, e1, e2, e3⟩
  · rcases h2 with ⟨f1, f2⟩ | ⟨a', b', aux', f1, f2, f3⟩
    · exact Or.inl ⟨e1, f2⟩
    · rw [e2] at f1
      cases f1
  · rcases h2 with ⟨f1, f2⟩ | ⟨a', b', aux', f1, f2, f3⟩
    · rw [e2] at f1
      cases f1
    · rw [e2] at f1
      cases f1
      exact Or.inr ⟨a, b', aux, e1, f2, e3.trans f3⟩

theorem sameLoop_acc (x y : Option (List action × List (String × action)))
    (pre1 pre2 : List action) (hp : pre1.Perm pre2) (h : sameLoop x y) :
    sameLoop (x.map fun t => (pre1 ++ t.1, t.2)) (y.map fun t => (pre2 ++ t.1, t.2)) := by
  rcases h with ⟨e1, e2⟩ | ⟨a, b, aux, e1, e2, e3⟩
  · rw [e1, e2]
    exact Or.inl ⟨rfl, rfl⟩
  · rw [e1, e2]
    exact Or.inr ⟨pre1 ++ a, pre2 ++ b, aux, rfl, rfl, List.Perm.append hp e3⟩

/-- The loop over the keys of an entry gives the same control-key action and
the same nested actions up to order in every order of the keys, when no key
occurs twice and no two control keys feed the same list. -/
theorem studyMapInterfaceRecipeLoop_perm (key : String) (recipe : Json)
    (l1 l2 : List (String × Json)) (hp : l1.Perm l2)
    (hnd : (l1.map Prod.fst).Nodup) (hone : controlKeysFedOnce l1)
    (aux : List (String × action)) :
    sameLoop (studyMapInterfaceRecipeLoop key recipe l1 [] aux)
      (studyMapInterfaceRecipeLoop key recipe l2 [] aux) := by
  induction hp generalizing aux with
  | nil => exact sameLoop_refl _
  | cons x hp' ih =>
    obtain ⟨idx, v⟩ := x
    rw [List.map_cons, List.nodup_cons] at hnd
    have hnd' := hnd.2
    have hone' : controlKeysFedOnce _ := fun k1 h1 k2 h2 =>
      hone k1 (by simp at h1 ⊢; exact Or.inr h1) k2 (by simp at h2 ⊢; exact Or.inr h2)
    by_cases hc : isControlKey idx = true
    · rw [studyMapInterfaceRecipeLoop_cons_control _ _ _ _ _ _ _ hc,
        studyMapInterfaceRecipeLoop_cons_control _ _ _ _ _ _ _ hc]
      cases structuralControlKey key idx aux (Data (Path recipe (RecipeKey ++ "." ++ key))) with
      | none => exact Or.inl ⟨rfl, rfl⟩
      | some aux1 =>
        simp only [Option.some_bind]
        exact ih hnd' hone' aux1
    · have hc' : isControlKey idx = false := (Bool.not_eq_true _).mp hc
      rw [studyMapInterfaceRecipeLoop_cons_nested _ _ _ _ _ _ _ hc',
        studyMapInterfaceRecipeLoop_cons_nested _ _ _ _ _ _ _ hc']
      cases studyMapInterfaceActions key idx [] recipe with
      | none => exact Or.inl ⟨rfl, rfl⟩
      | some n =>
        simp only [Option.some_bind]
        rw [studyMapInterfaceRecipeLoop_acc key recipe _ ([] ++ n) aux,
          studyMapInterfaceRecipeLoop_acc key recipe _ ([] ++ n) aux]
        exact sameLoop_acc _ _ _ _ (List.Perm.refl _) (ih hnd' hone' aux)
  | swap x y l =>
    obtain ⟨ix, vx⟩ := x
    obtain ⟨iy, vy⟩ := y
    have hne : iy ≠ ix := by
      intro e
      simp [e] at hnd
    by_cases hx : isControlKey ix = true
    · by_cases hy : isControlKey iy = true
      · have hf : feedsSameList iy ix = false :=
          hone iy (by simp) ix (by simp) hy hx hne
        have e : studyMapInterfaceRecipeLoop key recipe ((iy, vy) :: (ix, vx) :: l) [] aux
            = studyMapInterfaceRecipeLoop key recipe ((ix, vx) :: (iy, vy) :: l) [] aux := by
          simp only [studyMapInterfaceRecipeLoop_cons_control _ _ _ _ _ _ _ hx,
            studyMapInterfaceRecipeLoop_cons_control _ _ _ _ _ _ _ hy]
          rw [← Option.bind_assoc, ← Option.bind_assoc,
            control_comm key iy ix aux _ hne hy hx hf]
        rw [e]
        exact sameLoop_refl _
      · have hy' : isControlKey iy = false := (Bool.not_eq_true _).mp hy
        have e : studyMapInterfaceRecipeLoop key recipe ((iy, vy) :: (ix, vx) :: l) [] aux
            = studyMapInterfaceRecipeLoop key recipe ((ix, vx) :: (iy, vy) :: l) [] aux := by
          simp only [studyMapInterfaceRecipeLoop_cons_control _ _ _ _ _ _ _ hx,
            studyMapInterfaceRecipeLoop_cons_nested _ _ _ _ _ _ _ hy']
          cases studyMapInterfaceActions key iy [] recipe with
          | none =>
            cases structuralControlKey key ix aux
              (Data (Path recipe (RecipeKey ++ "." ++ key))) <;> rfl
          | some n =>
            cases structuralControlKey key ix aux
              (Data (Path recipe (RecipeKey ++ "." ++ key))) <;> rfl
        rw [e]
        exact sameLoop_refl _
    · have hx' : isControlKey ix = false := (Bool.not_eq_true _).mp hx
      by_cases hy : isControlKey iy = true
      · have e : studyMapInterfaceRecipeLoop key recipe ((iy, vy) :: (ix, vx) :: l) [] aux
            = studyMapInterfaceRecipeLoop key recipe ((ix, vx) :: (iy, vy) :: l) [] aux := by
          simp only [studyMapInterfaceRecipeLoop_cons_control _ _ _ _ _ _ _ hy,
            studyMapInterfaceRecipeLoop_cons_nested _ _ _ _ _ _ _ hx']
          cases studyMapInterfaceActions key ix [] recipe with
          | none =>
            cases structuralControlKey key iy aux
              (Data (Path recipe (RecipeKey ++ "." ++ key))) <;> rfl
          | some n =>
            cases structuralControlKey key iy aux
              (Data (Path recipe (RecipeKey ++ "." ++ key))) <;> rfl
        rw [e]
        exact sameLoop_refl _
      · have hy' : isControlKey iy = false := (Bool.not_eq_true _).mp hy
        simp only [studyMapInterfaceRecipeLoop_cons_nested _ _ _ _ _ _ _ hx',
          studyMapInterfaceRecipeLoop_cons_nested _ _ _ _ _ _ _ hy']
        cases studyMapInterfaceActions key iy [] recipe with
        | none =>
          cases studyMapInterfaceActions key ix [] recipe with
          | none => exact Or.inl ⟨rfl, rfl⟩
          | some nx => exact Or.inl ⟨rfl, rfl⟩
        | some ny =>
          cases studyMapInterfaceActions key ix [] recipe with
          | none => exact Or.inl ⟨rfl, rfl⟩
          | some nx =>
            simp only [Option.some_bind]
            rw [studyMapInterfaceRecipeLoop_acc key recipe l ([] ++ ny ++ nx) aux,
              studyMapInterfaceRecipeLoop_acc key recipe l ([] ++ nx ++ ny) aux]
            apply sameLoop_acc _ _ _ _ _ (sameLoop_refl _)
            simpa using List.perm_append_comm
  | trans h1 _ ih1 ih2 =>
    have hnd2 := (List.Perm.nodup_iff (h1.map Prod.fst)).mp hnd
    have hone2 : controlKeysFedOnce _ := fun k1 m1 k2 m2 =>
      hone k1 ((h1.map Prod.fst).mem_iff.mpr m1) k2 ((h1.map Prod.fst).mem_iff.mpr m2)
    exact sameLoop_trans _ _ _ (ih1 hnd hone aux) (ih2 hnd2 hone2 aux)

/-- The loop over the keys of an entry is the same in two recipe documents
whose nodes at the paths of the entry and of its nested keys agree. -/
theorem studyMapInterfaceRecipeLoop_agree (key : String) (r1 r2 : Json)
    (todo : List (String × Json)) (actions : List action) (aux : List (String × action))
    (hctl : controlAgree (Data (Path r1 (RecipeKey ++ "." ++ key)))
      (Data (Path r2 (RecipeKey ++ "." ++ key))))
    (hnest : ∀ I, isControlKey I = false →
      nestedAgree (Data (Path r1 (RecipeKey ++ "." ++ key ++ "." ++ I)))
        (Data (Path r2 (RecipeKey ++ "." ++ key ++ "." ++ I)))) :
    studyMapInterfaceRecipeLoop key r1 todo actions aux
      = studyMapInterfaceRecipeLoop key r2 todo actions aux := by
  induction todo generalizing actions aux with
  | nil => rfl
  | cons e rest ih =>
    obtain ⟨idx, v⟩ := e
    by_cases hc : isControlKey idx = true
    · rw [studyMapInterfaceRecipeLoop_cons_control _ _ _ _ _ _ _ hc,
        studyMapInterfaceRecipeLoop_cons_control _ _ _ _ _ _ _ hc,
        structuralControlKey_eq, structuralControlKey_eq, hctl idx hc]
      congr 1
      funext aux1
      exact ih actions aux1
    · have hc' : isControlKey idx = false := (Bool.not_eq_true _).mp hc
      rw [studyMapInterfaceRecipeLoop_cons_nested _ _ _ _ _ _ _ hc',
        studyMapInterfaceRecipeLoop_cons_nested _ _ _ _ _ _ _ hc']
      have hn : studyMapInterfaceActions key idx [] r1
          = studyMapInterfaceActions key idx [] r2 := by
        rw [studyMapInterfaceActions_structural, studyMapInterfaceActions_structural]
        rcases hnest idx hc' with h | ⟨m1, m2, h1, h2, hp, hnd, hone⟩
        · rw [h]
        · rw [h1, h2]
          simp only [structuralNestedKey]
          rw [studyMapKeys_perm key idx m1 m2 hp hnd hone]
      rw [hn]
      congr 1
      funext n
      exact ih _ aux

/-- The study of an object-valued entry gives the same actions up to order, or
aborts, in every order of the keys of the entry and in every two recipe
documents whose nodes at the paths of the entry agree. -/
theorem studyMapInterfaceRecipe_order (key : String) (r1 r2 : Json)
    (o1 o2 : List (String × Json))
    (hkeys : (o1.map Prod.fst).Perm (o2.map Prod.fst))
    (hnd : (o1.map Prod.fst).Nodup) (hone : controlKeysFedOnce o1)
    (hctl : controlAgree (Data (Path r1 (RecipeKey ++ "." ++ key)))
      (Data (Path r2 (RecipeKey ++ "." ++ key))))
    (hnest : ∀ I, isControlKey I = false →
      nestedAgree (Data (Path r1 (RecipeKey ++ "." ++ key ++ "." ++ I)))
        (Data (Path r2 (RecipeKey ++ "." ++ key ++ "." ++ I)))) :
    sameActions (studyMapInterfaceRecipe key o1 r1) (studyMapInterfaceRecipe key o2 r2) := by
  unfold studyMapInterfaceRecipe
  rw [studyMapInterfaceRecipeLoop_keys key r1 o1, studyMapInterfaceRecipeLoop_keys key r2 o2,
    ← studyMapInterfaceRecipeLoop_agree key r1 r2 _ [] [] hctl hnest]
  have hk : ∀ o : List (String × Json),
      (o.map fun e => (e.1, Json.null)) = (o.map Prod.fst).map fun k => (k, Json.null) := by
    intro o
    simp [List.map_map, Function.comp]
  have hk2 : ∀ o : List (String × Json),
      (o.map fun e => (e.1, Json.null)).map Prod.fst = o.map Prod.fst := by
    intro o
    simp [List.map_map, Function.comp]
  have hperm : (o1.map fun e => (e.1, Json.null)).Perm (o2.map fun e => (e.1, Json.null)) := by
    rw [hk o1, hk o2]
    exact hkeys.map _
  have hone' : controlKeysFedOnce (o1.map fun e => (e.1, Json.null)) := by
    intro k1 h1 k2 h2
    rw [hk2] at h1 h2
    exact hone k1 h1 k2 h2
  rcases studyMapInterfaceRecipeLoop_perm key r1 _ _ hperm (by rw [hk2]; exact hnd) hone' []
    with ⟨e1, e2⟩ | ⟨a, b, aux, e1, e2, e3⟩
  · rw [e1, e2]
    exact Or.inl ⟨rfl, rfl⟩
  · rw [e1, e2]
    exact Or.inr ⟨_, _, rfl, rfl, List.Perm.append e3 (List.Perm.refl _)⟩

/-! ## Paths into two arrangements of a recipe -/

theorem forall2_keys (R : String → Json → Json → Prop) (o1 o : List (String × Json))
    (h : List.Forall₂ (fun a b => a.1 = b.1 ∧ R a.1 a.2 b.2) o1 o) :
    o1.map Prod.fst = o.map Prod.fst := by
  induction h with
  | nil => rfl
  | cons hab _ ih => simp [hab.1, ih]

theorem mapLookup_forall2 (R : String → Json → Json → Prop) (o1 o : List (String × Json))
    (h : List.Forall₂ (fun a b => a.1 = b.1 ∧ R a.1 a.2 b.2) o1 o) (k : String) :
    (mapLookup o1 k = none ∧ mapLookup o k = none)
    ∨ ∃ v1 v2, mapLookup o1 k = some v1 ∧ mapLookup o k = some v2 ∧ R k v1 v2 := by
  induction h with
  | nil => exact Or.inl ⟨rfl, rfl⟩
  | @cons a b l1 l2 hab _ ih =>
    obtain ⟨ka, va⟩ := a
    obtain ⟨kb, vb⟩ := b
    obtain ⟨hk, hr⟩ := hab
    simp only at hk hr
    subst hk
    by_cases e : ka = k
    · subst e
      exact Or.inr ⟨va, vb, by simp [mapLookup], by simp [mapLookup], hr⟩
    · simpa [mapLookup, e] using ih

theorem mapLookup_sameFields (R : String → Json → Json → Prop) (o1 o2 : List (String × Json))
    (h : sameFields R o1 o2) (hnd : (o1.map Prod.fst).Nodup) (k : String) :
    (mapLookup o1 k = none ∧ mapLookup o2 k = none)
    ∨ ∃ v1 v2, mapLookup o1 k = some v1 ∧ mapLookup o2 k = some v2 ∧ R k v1 v2 := by
  obtain ⟨o, hf, hp⟩ := h
  have hndo : (o.map Prod.fst).Nodup := by
    rw [← forall2_keys R o1 o hf]
    exact hnd
  rw [← mapLookup_perm o o2 hp hndo k]
  exact mapLookup_forall2 R o1 o hf k

theorem sameFields_keys (R : String → Json → Json → Prop) (o1 o2 : List (String × Json))
    (h : sameFields R o1 o2) : (o1.map Prod.fst).Perm (o2.map Prod.fst) := by
  obtain ⟨o, hf, hp⟩ := h
  rw [forall2_keys R o1 o hf]
  exact hp.map _

theorem mapLookup_mem {α : Type} (m : List (String × α)) (k : String) (v : α)
    (h : mapLookup m k = some v) : (k, v) ∈ m := by
  induction m with
  | nil => simp [mapLookup] at h
  | cons e m ih =>
    obtain ⟨k0, w⟩ := e
    by_cases e : k0 = k
    · subst e
      simp [mapLookup] at h
      subst h
      simp
    · simp [mapLookup, e] at h
      simp [ih h]

/-- Below a sub-block and the same sub-block in another order lie the same
nodes. -/
theorem Search_sameBlock (w1 w2 : Json) (h : sameBlock w1 w2)
    (hnd : ∀ m, w1 = Json.obj m → (m.map Prod.fst).Nodup) (j : String) (rest : List String) :
    Search w1 (j :: rest) = Search w2 (j :: rest) := by
  rcases h with h | ⟨m1, m2, h1, h2, hp⟩
  · rw [h]
  · subst h1
    subst h2
    rw [Search_obj_cons, Search_obj_cons, mapLookup_perm m1 m2 hp (hnd m1 rfl) j]

/-- The nodes two arrangements of an entry hold at a path: the same node, or,
at a nested key itself, the same sub-block in two orders. -/
theorem Search_sameEntry (v1 v2 : Json) (h : sameEntry v1 v2)
    (hnd : ∀ o, v1 = Json.obj o → (o.map Prod.fst).Nodup
      ∧ ∀ I m, (I, Json.obj m) ∈ o → isControlKey I = false → (m.map Prod.fst).Nodup)
    (i : String) (rest : List String) :
    Search v1 (i :: rest) = Search v2 (i :: rest)
    ∨ (rest = [] ∧ isControlKey i = false ∧ ∃ o1 m1 m2, v1 = Json.obj o1
        ∧ (i, Json.obj m1) ∈ o1
        ∧ Search v1 (i :: rest) = some (Json.obj m1)
        ∧ Search v2 (i :: rest) = some (Json.obj m2) ∧ m1.Perm m2) := by
  rcases h with h | ⟨o1, o2, h1, h2, hf⟩
  · left
    rw [h]
  · subst h1
    subst h2
    obtain ⟨hndo, hndm⟩ := hnd o1 rfl
    rw [Search_obj_cons, Search_obj_cons]
    rcases mapLookup_sameFields _ o1 o2 hf hndo i with ⟨e1, e2⟩ | ⟨w1, w2, e1, e2, hc, hn⟩
    · left
      rw [e1, e2]
    · rw [e1, e2]
      simp only [Option.some_bind]
      by_cases hctl : isControlKey i = true
      · left
        rw [hc hctl]
      · have hctl' : isControlKey i = false := (Bool.not_eq_true _).mp hctl
        have hb := hn hctl'
        have hmem := mapLookup_mem o1 i w1 e1
        have hndw : ∀ m, w1 = Json.obj m → (m.map Prod.fst).Nodup := by
          intro m hm
          subst hm
          exact hndm i m hmem hctl'
        cases rest with
        | cons j rest' =>
          left
          exact Search_sameBlock w1 w2 hb hndw j rest'
        | nil =>
          rcases hb with hb | ⟨m1, m2, g1, g2, hp⟩
          · left
            rw [hb]
          · right
            subst g1
            subst g2
            exact ⟨rfl, hctl', o1, m1, m2, rfl, hmem, by rw [Search_nil], by rw [Search_nil], hp⟩

theorem controlAgree_refl (om : Json) : controlAgree om om := fun _ _ => rfl

theorem controlAgree_of_lookup (o1 o2 : List (String × Json))
    (h : ∀ idx, isControlKey idx = true → mapLookup o1 idx = mapLookup o2 idx) :
    controlAgree (Json.obj o1) (Json.obj o2) := by
  intro idx hc
  have hv : mapIndex o1 "values" = mapIndex o2 "values" := by
    simp [mapIndex, h "values" (by decide)]
  have hi : mapIndex o1 idx = mapIndex o2 idx := by
    simp [mapIndex, h idx hc]
  simp [ctlValue, asMap, hv, hi]

/-- The nodes the two arrangements of a recipe hold at any path agree on the
value of every control key. -/
theorem controlAgree_paths (es1 es2 : List (String × Json)) (hsame : sameRecipe es1 es2)
    (huniq : keysUnique es1) (segs : List String) (hne : segs ≠ []) :
    controlAgree (Data (Search (Json.obj es1) segs)) (Data (Search (Json.obj es2) segs)) := by
  cases segs with
  | nil => exact absurd rfl hne
  | cons k rest =>
    rw [Search_obj_cons, Search_obj_cons]
    rcases mapLookup_sameFields _ es1 es2 hsame huniq.1 k with
      ⟨e1, e2⟩ | ⟨v1, v2, e1, e2, hv⟩
    · rw [e1, e2]
      exact controlAgree_refl _
    · rw [e1, e2]
      simp only [Option.some_bind]
      have hmem := mapLookup_mem es1 k v1 e1
      have hnd : ∀ o, v1 = Json.obj o → (o.map Prod.fst).Nodup
          ∧ ∀ I m, (I, Json.obj m) ∈ o → isControlKey I = false → (m.map Prod.fst).Nodup := by
        intro o ho
        subst ho
        exact huniq.2 k o hmem
      cases rest with
      | nil =>
        rw [Search_nil, Search_nil]
        rcases hv with hv | ⟨o1, o2, h1, h2, hf⟩
        · rw [hv]
          exact controlAgree_refl _
        · subst h1
          subst h2
          apply controlAgree_of_lookup
          intro idx hc
          rcases mapLookup_sameFields _ o1 o2 hf (hnd o1 rfl).1 idx with
            ⟨f1, f2⟩ | ⟨w1, w2, f1, f2, hw, _⟩
          · rw [f1, f2]
          · rw [f1, f2, hw hc]
      | cons i rest' =>
        rcases Search_sameEntry v1 v2 hv hnd i rest' with h | ⟨_, hctl, o1, m1, m2, g1, g2, g3, g4, hp⟩
        · rw [h]
          exact controlAgree_refl _
        · rw [g3, g4]
          apply controlAgree_of_lookup
          intro idx _
          subst g1
          exact mapLookup_perm m1 m2 hp ((hnd o1 rfl).2 i m1 g2 hctl) idx

/-- The nodes the two arrangements of a recipe hold at a path of two segments
or more are the same, or the same sub-block in two orders. -/
theorem nestedAgree_paths (es1 es2 : List (String × Json)) (hsame : sameRecipe es1 es2)
    (huniq : keysUnique es1) (hfed : listsFedOnce es1) (k i : String) (rest : List String) :
    nestedAgree (Data (Search (Json.obj es1) (k :: i :: rest)))
      (Data (Search (Json.obj es2) (k :: i :: rest))) := by
  rw [Search_obj_cons, Search_obj_cons]
  rcases mapLookup_sameFields _ es1 es2 hsame huniq.1 k with
    ⟨e1, e2⟩ | ⟨v1, v2, e1, e2, hv⟩
  · rw [e1, e2]
    exact Or.inl rfl
  · rw [e1, e2]
    simp only [Option.some_bind]
    have hmem := mapLookup_mem es1 k v1 e1
    have hnd : ∀ o, v1 = Json.obj o → (o.map Prod.fst).Nodup
        ∧ ∀ I m, (I, Json.obj m) ∈ o → isControlKey I = false → (m.map Prod.fst).Nodup := by
      intro o ho
      subst ho
      exact huniq.2 k o hmem
    rcases Search_sameEntry v1 v2 hv hnd i rest with h | ⟨_, hctl, o1, m1, m2, g1, g2, g3, g4, hp⟩
    · rw [h]
      exact Or.inl rfl
    · rw [g3, g4]
      subst g1
      exact Or.inr ⟨m1, m2, rfl, rfl, hp, (hnd o1 rfl).2 i m1 g2 hctl,
        (hfed k o1 hmem).2 i m1 g2 hctl⟩

theorem splitPath_length_two (K I : String) :
    ∃ k i rest, splitPath K ++ splitPath I = k :: i :: rest := by
  cases h1 : splitPath K with
  | nil => exact absurd h1 (splitPath_ne_nil K)
  | cons k r1 =>
    cases h2 : splitPath I with
    | nil => exact absurd h2 (splitPath_ne_nil I)
    | cons i r2 =>
      cases r1 with
      | nil => exact ⟨k, i, r2, rfl⟩
      | cons x xs => exact ⟨k, x, xs ++ i :: r2, rfl⟩

/-- The agreement of the two recipe documents at the paths `study` reads. -/
theorem recipes_agree (kvs1 kvs2 es1 es2 : List (String × Json))
    (hrec1 : mapLookup kvs1 RecipeKey = some (Json.obj es1))
    (hrec2 : mapLookup kvs2 RecipeKey = some (Json.obj es2))
    (hsame : sameRecipe es1 es2) (huniq : keysUnique es1) (hfed : listsFedOnce es1)
    (key : String) :
    controlAgree (Data (Path (Json.obj kvs1) (RecipeKey ++ "." ++ key)))
      (Data (Path (Json.obj kvs2) (RecipeKey ++ "." ++ key)))
    ∧ ∀ I, nestedAgree (Data (Path (Json.obj kvs1) (RecipeKey ++ "." ++ key ++ "." ++ I)))
        (Data (Path (Json.obj kvs2) (RecipeKey ++ "." ++ key ++ "." ++ I))) := by
  constructor
  · rw [Path_recipe kvs1 es1 key hrec1, Path_recipe kvs2 es2 key hrec2]
    exact controlAgree_paths es1 es2 hsame huniq _ (splitPath_ne_nil key)
  · intro I
    have hassoc : RecipeKey ++ "." ++ key ++ "." ++ I = RecipeKey ++ "." ++ (key ++ "." ++ I) := by
      simp [String.append_assoc]
    rw [hassoc, Path_recipe kvs1 es1 _ hrec1, Path_recipe kvs2 es2 _ hrec2,
      splitPath_append_dot]
    obtain ⟨k, i, rest, h⟩ := splitPath_length_two key I
    rw [h]
    exact nestedAgree_paths es1 es2 hsame huniq hfed k i rest

/-! ## The study of a recipe does not depend on the order of its entries -/

theorem studyLoop_cons (peter : Peterjsons) (e : String × Json) (rest : List (String × Json))
    (acc : List action) :
    studyLoop peter (e :: rest) acc
      = (entryActions peter e).bind fun s => studyLoop peter rest (acc ++ s) := by
  obtain ⟨k, v⟩ := e
  cases v <;> simp [studyLoop, entryActions]

theorem sameActions_refl (x : Option (List action)) : sameActions x x := by
  cases x with
  | none => exact Or.inl ⟨rfl, rfl⟩
  | some a => exact Or.inr ⟨a, a, rfl, rfl, List.Perm.refl _⟩

theorem sameActions_trans (x y z : Option (List action))
    (h1 : sameActions x y) (h2 : sameActions y z) : sameActions x z := by
  rcases h1 with ⟨e1, e2⟩ | ⟨a, b, e1, e2, e3⟩
  · rcases h2 with ⟨f1, f2⟩ | ⟨a', b', f1, f2, f3⟩
    · exact Or.inl ⟨e1, f2⟩
    · rw [e2] at f1
      cases f1
  · rcases h2 with ⟨f1, f2⟩ | ⟨a', b', f1, f2, f3⟩
    · rw [e2] at f1
      cases f1
    · rw [e2] at f1
      cases f1
      exact Or.inr ⟨a, b', e1, f2, e3.trans f3⟩

theorem studyLoop_acc (peter : Peterjsons) (l : List (String × Json)) (acc1 acc2 : List action)
    (h : acc1.Perm acc2) : sameActions (studyLoop peter l acc1) (studyLoop peter l acc2) := by
  induction l generalizing acc1 acc2 with
  | nil => exact Or.inr ⟨acc1, acc2, rfl, rfl, h⟩
  | cons e rest ih =>
    rw [studyLoop_cons, studyLoop_cons]
    cases entryActions peter e with
    | none => exact Or.inl ⟨rfl, rfl⟩
    | some s => exact ih _ _ (List.Perm.append_right s h)

theorem studyLoop_perm (peter : Peterjsons) (l1 l2 : List (String × Json)) (hp : l1.Perm l2)
    (acc1 acc2 : List action) (h : acc1.Perm acc2) :
    sameActions (studyLoop peter l1 acc1) (studyLoop peter l2 acc2) := by
  induction hp generalizing acc1 acc2 with
  | nil => exact Or.inr ⟨acc1, acc2, rfl, rfl, h⟩
  | cons x _ ih =>
    rw [studyLoop_cons, studyLoop_cons]
    cases entryActions peter x with
    | none => exact Or.inl ⟨rfl, rfl⟩
    | some s => exact ih _ _ (List.Perm.append_right s h)
  | swap x y l =>
    simp only [studyLoop_cons]
    cases entryActions peter y with
    | none =>
      cases entryActions peter x with
      | none => exact Or.inl ⟨rfl, rfl⟩
      | some sx => exact Or.inl ⟨rfl, rfl⟩
    | some sy =>
      cases entryActions peter x with
      | none => exact Or.inl ⟨rfl, rfl⟩
      | some sx =>
        simp only [Option.some_bind]
        apply studyLoop_acc
        rw [List.append_assoc, List.append_assoc]
        exact List.Perm.append h List.perm_append_comm
  | trans _ _ ih1 ih2 =>
    exact sameActions_trans _ _ _ (ih1 acc1 acc2 h) (ih2 acc2 acc2 (List.Perm.refl _))

theorem studyLoop_related (p1 p2 : Peterjsons) (l1 l : List (String × Json))
    (hf : List.Forall₂ (fun a b => sameActions (entryActions p1 a) (entryActions p2 b)) l1 l)
    (acc1 acc2 : List action) (h : acc1.Perm acc2) :
    sameActions (studyLoop p1 l1 acc1) (studyLoop p2 l acc2) := by
  induction hf generalizing acc1 acc2 with
  | nil => exact Or.inr ⟨acc1, acc2, rfl, rfl, h⟩
  | cons hab _ ih =>
    rw [studyLoop_cons, studyLoop_cons]
    rcases hab with ⟨e1, e2⟩ | ⟨s1, s2, e1, e2, e3⟩
    · rw [e1, e2]
      exact Or.inl ⟨rfl, rfl⟩
    · rw [e1, e2]
      exact ih _ _ (List.Perm.append h e3)

theorem forall2_entryActions (p1 p2 : Peterjsons) (l1 l : List (String × Json))
    (hf : List.Forall₂ (fun a b => a.1 = b.1 ∧ sameEntry a.2 b.2) l1 l)
    (H : ∀ a ∈ l1, ∀ b, a.1 = b.1 → sameEntry a.2 b.2 →
      sameActions (entryActions p1 a) (entryActions p2 b)) :
    List.Forall₂ (fun a b => sameActions (entryActions p1 a) (entryActions p2 b)) l1 l := by
  induction hf with
  | nil => exact List.Forall₂.nil
  | @cons a b l1' l' hab _ ih =>
    exact List.Forall₂.cons (H a (by simp) b hab.1 hab.2)
      (ih (fun a' ha' => H a' (by simp [ha'])))

/-- One entry of the recipe object is studied into the same actions up to
order, or aborts, in both arrangements of the recipe. -/
theorem entryActions_related (m1 r1 r2 : Json) (kvs1 kvs2 es1 es2 : List (String × Json))
    (hrec1 : mapLookup kvs1 RecipeKey = some (Json.obj es1))
    (hrec2 : mapLookup kvs2 RecipeKey = some (Json.obj es2))
    (hsame : sameRecipe es1 es2) (huniq : keysUnique es1) (hfed : listsFedOnce es1)
    (a b : String × Json) (ha : a ∈ es1) (hk : a.1 = b.1) (hv : sameEntry a.2 b.2) :
    sameActions
      (entryActions { material := m1, recipe := Json.obj kvs1, result := r1 } a)
      (entryActions { material := m1, recipe := Json.obj kvs2, result := r2 } b) := by
  obtain ⟨K, v1⟩ := a
  obtain ⟨K', v2⟩ := b
  simp only at hk hv
  subst hk
  have hobj : ∀ o1 o2, v1 = Json.obj o1 → v2 = Json.obj o2 →
      (o1.map Prod.fst).Perm (o2.map Prod.fst) →
      sameActions
        (entryActions { material := m1, recipe := Json.obj kvs1, result := r1 } (K, v1))
        (entryActions { material := m1, recipe := Json.obj kvs2, result := r2 } (K, v2)) := by
    intro o1 o2 h1 h2 hkeys
    subst h1
    subst h2
    obtain ⟨hc, hn⟩ := recipes_agree kvs1 kvs2 es1 es2 hrec1 hrec2 hsame huniq hfed K
    exact studyMapInterfaceRecipe_order K (Json.obj kvs1) (Json.obj kvs2) o1 o2 hkeys
      (huniq.2 K o1 ha).1 (hfed K o1 ha).1 hc (fun I _ => hn I)
  rcases hv with hv | ⟨o1, o2, h1, h2, hf⟩
  · subst hv
    cases v1 with
    | obj o => exact hobj o o rfl rfl (List.Perm.refl _)
    | str s => exact sameActions_refl _
    | null => exact sameActions_refl _
    | bool b => exact sameActions_refl _
    | num n => exact sameActions_refl _
    | arr xs => exact sameActions_refl _
  · exact hobj o1 o2 h1 h2 (sameFields_keys _ o1 o2 hf)

/-- The studied actions of two arrangements of a recipe are the same up to
order, or both studies abort. -/
theorem studyLoop_sameRecipe (m1 r1 r2 : Json) (kvs1 kvs2 es1 es2 : List (String × Json))
    (hrec1 : mapLookup kvs1 RecipeKey = some (Json.obj es1))
    (hrec2 : mapLookup kvs2 RecipeKey = some (Json.obj es2))
    (hsame : sameRecipe es1 es2) (huniq : keysUnique es1) (hfed : listsFedOnce es1) :
    sameActions
      (studyLoop { material := m1, recipe := Json.obj kvs1, result := r1 } es1 [])
      (studyLoop { material := m1, recipe := Json.obj kvs2, result := r2 } es2 []) := by
  obtain ⟨o, hf, hp⟩ := hsame
  have hsame' : sameRecipe es1 es2 := ⟨o, hf, hp⟩
  have h1 := studyLoop_related
    { material := m1, recipe := Json.obj kvs1, result := r1 }
    { material := m1, recipe := Json.obj kvs2, result := r2 } es1 o
    (forall2_entryActions _ _ es1 o hf (fun a ha b hk hv =>
      entryActions_related m1 r1 r2 kvs1 kvs2 es1 es2 hrec1 hrec2 hsame' huniq hfed
        a b ha hk hv)) [] [] (List.Perm.refl _)
  have h2 := studyLoop_perm { material := m1, recipe := Json.obj kvs2, result := r2 } o es2 hp
    [] [] (List.Perm.refl _)
  exact sameActions_trans _ _ _ h1 h2

theorem Cook_eq (F : Fmt) (material : Json) (kvs es : List (String × Json))
    (hrec : mapLookup kvs RecipeKey = some (Json.obj es)) :
    Peterjsons.study { material := material, recipe := Json.obj kvs, result := gabsNew }
      = (studyLoop { material := material, recipe := Json.obj kvs, result := gabsNew } es []).map
          (fun actions => (actions, none))
    ∧ Peterjsons.Cook F { material := material, recipe := Json.obj kvs, result := gabsNew }
      = (studyLoop { material := material, recipe := Json.obj kvs, result := gabsNew } es []).bind
          fun acts => (applyLoop F material acts gabsNew).map fun r =>
            ({ material := material, recipe := Json.obj kvs, result := r }, none) := by
  have hstudy : Peterjsons.study
      { material := material, recipe := Json.obj kvs, result := gabsNew }
      = (studyLoop { material := material, recipe := Json.obj kvs, result := gabsNew } es []).map
          fun actions => (actions, none) := by
    simp [Peterjsons.study, S, Search_obj_single, hrec, ChildrenMap, Data, asMap]
  refine ⟨hstudy, ?_⟩
  rw [Peterjsons.Cook, hstudy]
  cases studyLoop { material := material, recipe := Json.obj kvs, result := gabsNew } es [] with
  | none => rfl
  | some acts => rfl

/-! ## C10, the statement -/

/-- C10, amended.  For every material, the result document produced by `Cook`
on a fresh instance does not depend on the order in which the entries of the
recipe object, the keys of its object-valued entries and the fields of their
nested sub-blocks are iterated, for every recipe in which no two control keys
of an entry and no two fields of a sub-block feed the same list (`value` and
`values`, `replace` and `replaces`, `*` and `all`): any two iteration orders of
the recipe in which the writes are ordered (of any two actions that write, the
paths are independent, or the earlier path lies strictly below the later one,
or the later path lies strictly below the earlier one and the earlier action
wrote a string, a number or a boolean) either both abort or both return nil
with result documents that hold the same node at every path.  And the list a
`swapmap` action writes does not depend on the order in which the fields of
its rule objects are iterated: in two orders the action aborts both times, or
writes two lists of objects that hold the same value under every key. -/
theorem C10_order_independent (F : Fmt) (material : Json)
    (kvs1 kvs2 es1 es2 : List (String × Json))
    (hrec1 : mapLookup kvs1 RecipeKey = some (Json.obj es1))
    (hrec2 : mapLookup kvs2 RecipeKey = some (Json.obj es2))
    (hsame : sameRecipe es1 es2) (huniq : keysUnique es1) (hfed : listsFedOnce es1)
    (hord1 : ∀ acts, Peterjsons.study
        { material := material, recipe := Json.obj kvs1, result := gabsNew }
        = some (acts, none) → orderedWrites F material acts)
    (hord2 : ∀ acts, Peterjsons.study
        { material := material, recipe := Json.obj kvs2, result := gabsNew }
        = some (acts, none) → orderedWrites F material acts) :
    ((Peterjsons.Cook F { material := material, recipe := Json.obj kvs1, result := gabsNew } = none
      ∧ Peterjsons.Cook F { material := material, recipe := Json.obj kvs2, result := gabsNew }
          = none)
    ∨ ∃ r1 r2,
        Peterjsons.Cook F { material := material, recipe := Json.obj kvs1, result := gabsNew }
          = some ({ material := material, recipe := Json.obj kvs1, result := r1 }, none)
        ∧ Peterjsons.Cook F { material := material, recipe := Json.obj kvs2, result := gabsNew }
          = some ({ material := material, recipe := Json.obj kvs2, result := r2 }, none)
        ∧ sameDocument r1 r2)
    ∧ ∀ (a : action) (Map2 : List Json) (source result : Json),
        List.Forall₂ sameRule a.Map Map2 →
        (swapmapAction a source result = none
          ∧ swapmapAction { a with Map := Map2 } source result = none)
        ∨ ∃ xs ys,
            swapmapAction a source result = some (SetP result (Json.arr xs) a.Context)
            ∧ swapmapAction { a with Map := Map2 } source result
                = some (SetP result (Json.arr ys) a.Context)
            ∧ List.Forall₂ sameObject xs ys := by
  refine ⟨?_, fun a Map2 source result hM =>
    swapmapAction_rule_order a Map2 hM source result⟩
  obtain ⟨s1, c1⟩ := Cook_eq F material kvs1 es1 hrec1
  obtain ⟨s2, c2⟩ := Cook_eq F material kvs2 es2 hrec2
  rw [c1, c2]
  rcases studyLoop_sameRecipe material gabsNew gabsNew kvs1 kvs2 es1 es2 hrec1 hrec2 hsame
    huniq hfed with ⟨e1, e2⟩ | ⟨a1, a2, e1, e2, hp⟩
  · left
    rw [e1, e2]
    exact ⟨rfl, rfl⟩
  · rw [e1, e2]
    simp only [Option.some_bind]
    have hi1 : orderedWrites F material a1 := by
      apply hord1
      rw [s1, e1]
      rfl
    have hi2 : orderedWrites F material a2 := by
      apply hord2
      rw [s2, e2]
      rfl
    rcases applyLoop_perm F material a1 a2 hp hi1 hi2 with ⟨f1, f2⟩ | ⟨r1, r2, f1, f2, hd⟩
    · left
      rw [f1, f2]
      exact ⟨rfl, rfl⟩
    · right
      rw [f1, f2]
      exact ⟨r1, r2, rfl, rfl, hd⟩

/-- C10, witness.  Over the material `{"name":"Ana","city":"Lisbon","a":"1"}`,
the recipe object
`{"user.name":"name","user.city":"city","tag":{"operation":"concat","values":["city"],"separator":"-"},"k":{"inner":{"operation":"swap","replace":"a"}}}`
and the same recipe object with its entries, the keys of `tag` and the fields
of `inner` in the reverse order both return nil, with the results
`{"user":{"name":"Ana","city":"Lisbon"},"tag":"Lisbon","k":{"inner":"1"}}` and
`{"k":{"inner":"1"},"tag":"Lisbon","user":{"city":"Lisbon","name":"Ana"}}`,
which hold the same node at every path.  And the `swapmap` action with Values
`["items"]` and the rule `{"id":{"value":"id"},"tag":{"replace":"t"}}` writes,
over `{"items":[{"id":"1"}]}`, the list `[{"id":"1","tag":"t"}]`, and with the
fields of the rule in the other order the list `[{"tag":"t","id":"1"}]`. -/
theorem C10_order_independent_witness :
    Peterjsons.Cook Fmt.basic
        { material := Json.obj [("name", Json.str "Ana"), ("city", Json.str "Lisbon"),
            ("a", Json.str "1")],
          recipe := Json.obj [("recipe", Json.obj [("user.name", Json.str "name"),
            ("user.city", Json.str "city"),
            ("tag", Json.obj [("operation", Json.str "concat"),
              ("values", Json.arr [Json.str "city"]), ("separator", Json.str "-")]),
            ("k", Json.obj [("inner", Json.obj [("operation", Json.str "swap"),
              ("replace", Json.str "a")])])])],
          result := gabsNew }
      = some ({ material := Json.obj [("name", Json.str "Ana"), ("city", Json.str "Lisbon"),
                  ("a", Json.str "1")],
                recipe := Json.obj [("recipe", Json.obj [("user.name", Json.str "name"),
                  ("user.city", Json.str "city"),
                  ("tag", Json.obj [("operation", Json.str "concat"),
                    ("values", Json.arr [Json.str "city"]), ("separator", Json.str "-")]),
                  ("k", Json.obj [("inner", Json.obj [("operation", Json.str "swap"),
                    ("replace", Json.str "a")])])])],
                result := Json.obj [("user", Json.obj [("name", Json.str "Ana"),
                    ("city", Json.str "Lisbon")]), ("tag", Json.str "Lisbon"),
                  ("k", Json.obj [("inner", Json.str "1")])] }, none)
    ∧ Peterjsons.Cook Fmt.basic
        { material := Json.obj [("name", Json.str "Ana"), ("city", Json.str "Lisbon"),
            ("a", Json.str "1")],
          recipe := Json.obj [("recipe", Json.obj [
            ("k", Json.obj [("inner", Json.obj [("replace", Json.str "a"),
              ("operation", Json.str "swap")])]),
            ("tag", Json.obj [("separator", Json.str "-"),
              ("values", Json.arr [Json.str "city"]), ("operation", Json.str "concat")]),
            ("user.city", Json.str "city"),
            ("user.name", Json.str "name")])],
          result := gabsNew }
      = some ({ material := Json.obj [("name", Json.str "Ana"), ("city", Json.str "Lisbon"),
                  ("a", Json.str "1")],
                recipe := Json.obj [("recipe", Json.obj [
                  ("k", Json.obj [("inner", Json.obj [("replace", Json.str "a"),
                    ("operation", Json.str "swap")])]),
                  ("tag", Json.obj [("separator", Json.str "-"),
                    ("values", Json.arr [Json.str "city"]), ("operation", Json.str "concat")]),
                  ("user.city", Json.str "city"),
                  ("user.name", Json.str "name")])],
                result := Json.obj [("k", Json.obj [("inner", Json.str "1")]),
                  ("tag", Json.str "Lisbon"),
                  ("user", Json.obj [("city", Json.str "Lisbon"),
                    ("name", Json.str "Ana")])] }, none)
    ∧ sameDocument
        (Json.obj [("user", Json.obj [("name", Json.str "Ana"), ("city", Json.str "Lisbon")]),
          ("tag", Json.str "Lisbon"), ("k", Json.obj [("inner", Json.str "1")])])
        (Json.obj [("k", Json.obj [("inner", Json.str "1")]), ("tag", Json.str "Lisbon"),
          ("user", Json.obj [("city", Json.str "Lisbon"), ("name", Json.str "Ana")])])
    ∧ swapmapAction
          { Context := "out", Values := [Json.str "items"], Operation := "swapmap",
              Format := "", Separator := "", Replaces := [],
              Map := [Json.obj [("id", Json.obj [("value", Json.str "id")]),
                ("tag", Json.obj [("replace", Json.str "t")])]] }
          (Json.obj [("items", Json.arr [Json.obj [("id", Json.str "1")]])]) gabsNew
        = some (Json.obj [("out", Json.arr [Json.obj [("id", Json.str "1"),
            ("tag", Json.str "t")]])])
    ∧ swapmapAction
          { Context := "out", Values := [Json.str "items"], Operation := "swapmap",
              Format := "", Separator := "", Replaces := [],
              Map := [Json.obj [("tag", Json.obj [("replace", Json.str "t")]),
                ("id", Json.obj [("value", Json.str "id")])]] }
          (Json.obj [("items", Json.arr [Json.obj [("id", Json.str "1")]])]) gabsNew
        = some (Json.obj [("out", Json.arr [Json.obj [("tag", Json.str "t"),
            ("id", Json.str "1")]])])
    ∧ List.Forall₂ sameObject
        [Json.obj [("id", Json.str "1"), ("tag", Json.str "t")]]
        [Json.obj [("tag", Json.str "t"), ("id", Json.str "1")]] := by
  have both : ∀ {a b c : Prop}, a → b → (a → b → c) → a ∧ b ∧ c :=
    fun ha hb hc => ⟨ha, hb, hc ha hb⟩
  refine both ?_ ?_ ?_
  · rfl
  · rfl
  intro hc1 hc2
  have h := C10_order_independent Fmt.basic
    (Json.obj [("name", Json.str "Ana"), ("city", Json.str "Lisbon"), ("a", Json.str "1")])
    [("recipe", Json.obj [("user.name", Json.str "name"),
      ("user.city", Json.str "city"),
      ("tag", Json.obj [("operation", Json.str "concat"),
        ("values", Json.arr [Json.str "city"]), ("separator", Json.str "-")]),
      ("k", Json.obj [("inner", Json.obj [("operation", Json.str "swap"),
        ("replace", Json.str "a")])])])]
    [("recipe", Json.obj [
      ("k", Json.obj [("inner", Json.obj [("replace", Json.str "a"),
        ("operation", Json.str "swap")])]),
      ("tag", Json.obj [("separator", Json.str "-"),
        ("values", Json.arr [Json.str "city"]), ("operation", Json.str "concat")]),
      ("user.city", Json.str "city"),
      ("user.name", Json.str "name")])]
    [("user.name", Json.str "name"),
      ("user.city", Json.str "city"),
      ("tag", Json.obj [("operation", Json.str "concat"),
        ("values", Json.arr [Json.str "city"]), ("separator", Json.str "-")]),
      ("k", Json.obj [("inner", Json.obj [("operation", Json.str "swap"),
        ("replace", Json.str "a")])])]
    [("k", Json.obj [("inner", Json.obj [("replace", Json.str "a"),
        ("operation", Json.str "swap")])]),
      ("tag", Json.obj [("separator", Json.str "-"),
        ("values", Json.arr [Json.str "city"]), ("operation", Json.str "concat")]),
      ("user.city", Json.str "city"),
      ("user.name", Json.str "name")]
    rfl rfl
    ⟨[("user.name", Json.str "name"),
        ("user.city", Json.str "city"),
        ("tag", Json.obj [("separator", Json.str "-"),
          ("values", Json.arr [Json.str "city"]), ("operation", Json.str "concat")]),
        ("k", Json.obj [("inner", Json.obj [("replace", Json.str "a"),
          ("operation", Json.str "swap")])])],
      List.Forall₂.cons ⟨rfl, Or.inl rfl⟩
        (List.Forall₂.cons ⟨rfl, Or.inl rfl⟩
          (List.Forall₂.cons
            ⟨rfl, Or.inr ⟨_, _, rfl, rfl,
              [("operation", Json.str "concat"), ("values", Json.arr [Json.str "city"]),
                ("separator", Json.str "-")],
              List.Forall₂.cons ⟨rfl, fun _ => rfl, fun _ => Or.inl rfl⟩
                (List.Forall₂.cons ⟨rfl, fun _ => rfl, fun _ => Or.inl rfl⟩
                  (List.Forall₂.cons ⟨rfl, fun _ => rfl, fun _ => Or.inl rfl⟩
                    List.Forall₂.nil)),
              (List.reverse_perm _).symm⟩⟩
            (List.Forall₂.cons
              ⟨rfl, Or.inr ⟨_, _, rfl, rfl,
                [("inner", Json.obj [("replace", Json.str "a"),
                  ("operation", Json.str "swap")])],
                List.Forall₂.cons
                  ⟨rfl, fun h => absurd h (by decide),
                    fun _ => Or.inr ⟨_, _, rfl, rfl, List.Perm.swap _ _ _⟩⟩
                  List.Forall₂.nil,
                List.Perm.refl _⟩⟩
              List.Forall₂.nil))),
      (List.reverse_perm _).symm⟩
    (by
      refine ⟨by decide, ?_⟩
      intro K o hK
      simp at hK
      rcases hK with ⟨_, ho⟩ | ⟨_, ho⟩
      · subst ho
        refine ⟨by decide, ?_⟩
        intro I m hm
        simp at hm
      · subst ho
        refine ⟨by decide, ?_⟩
        intro I m hm _
        simp at hm
        rw [hm.2]
        decide)
    (by
      intro K o hK
      simp at hK
      rcases hK with ⟨_, ho⟩ | ⟨_, ho⟩
      · subst ho
        refine ⟨by unfold controlKeysFedOnce; decide, ?_⟩
        intro I m hm
        simp at hm
      · subst ho
        refine ⟨by unfold controlKeysFedOnce; decide, ?_⟩
        intro I m hm _
        simp at hm
        rw [hm.2]
        unfold oneKeyPerList
        decide)
    (by
      intro acts h
      have e : acts =
          [{ Context := "user.name", Values := [], Operation := "swap", Format := "",
             Separator := "", Replaces := [Json.str "name"], Map := [] },
           { Context := "user.city", Values := [], Operation := "swap", Format := "",
             Separator := "", Replaces := [Json.str "city"], Map := [] },
           { Context := "tag", Values := [Json.str "city"], Operation := "concat",
             Format := "", Separator := "-", Replaces := [], Map := [] },
           { Context := "k.inner", Values := [], Operation := "swap", Format := "",
             Separator := "", Replaces := [Json.str "a"], Map := [] }] :=
        (Prod.mk.inj (Option.some.inj h)).1.symm
      rw [e]
      unfold orderedWrites
      decide)
    (by
      intro acts h
      have e : acts =
          [{ Context := "k.inner", Values := [], Operation := "swap", Format := "",
             Separator := "", Replaces := [Json.str "a"], Map := [] },
           { Context := "tag", Values := [Json.str "city"], Operation := "concat",
             Format := "", Separator := "-", Replaces := [], Map := [] },
           { Context := "user.city", Values := [], Operation := "swap", Format := "",
             Separator := "", Replaces := [Json.str "city"], Map := [] },
           { Context := "user.name", Values := [], Operation := "swap", Format := "",
             Separator := "", Replaces := [Json.str "name"], Map := [] }] :=
        (Prod.mk.inj (Option.some.inj h)).1.symm
      rw [e]
      unfold orderedWrites
      decide)
  refine ⟨?_, rfl, rfl, ?_⟩
  · rcases h.1 with ⟨h1, _⟩ | ⟨r1, r2, h1, h2, hd⟩
    · rw [hc1] at h1
      cases h1
    · rw [hc1] at h1
      rw [hc2] at h2
      cases h1
      cases h2
      exact hd
  · have hs1 : swapmapAction
          { Context := "out", Values := [Json.str "items"], Operation := "swapmap",
            Format := "", Separator := "", Replaces := [],
            Map := [Json.obj [("id", Json.obj [("value", Json.str "id")]),
              ("tag", Json.obj [("replace", Json.str "t")])]] }
          (Json.obj [("items", Json.arr [Json.obj [("id", Json.str "1")]])]) gabsNew
        = some (Json.obj [("out", Json.arr [Json.obj [("id", Json.str "1"),
            ("tag", Json.str "t")]])]) := rfl
    have hs2 : swapmapAction
          { Context := "out", Values := [Json.str "items"], Operation := "swapmap",
            Format := "", Separator := "", Replaces := [],
            Map := [Json.obj [("tag", Json.obj [("replace", Json.str "t")]),
              ("id", Json.obj [("value", Json.str "id")])]] }
          (Json.obj [("items", Json.arr [Json.obj [("id", Json.str "1")]])]) gabsNew
        = some (Json.obj [("out", Json.arr [Json.obj [("tag", Json.str "t"),
            ("id", Json.str "1")]])]) := rfl
    have hset : ∀ xs, SetP gabsNew (Json.arr xs) "out" = Json.obj [("out", Json.arr xs)] :=
      fun _ => rfl
    rcases h.2
        { Context := "out", Values := [Json.str "items"], Operation := "swapmap",
          Format := "", Separator := "", Replaces := [],
          Map := [Json.obj [("id", Json.obj [("value", Json.str "id")]),
            ("tag", Json.obj [("replace", Json.str "t")])]] }
        [Json.obj [("tag", Json.obj [("replace", Json.str "t")]),
          ("id", Json.obj [("value", Json.str "id")])]]
        (Json.obj [("items", Json.arr [Json.obj [("id", Json.str "1")]])]) gabsNew
        (List.Forall₂.cons (Or.inr ⟨_, _, rfl, rfl, List.Perm.swap _ _ _, by decide⟩)
          List.Forall₂.nil) with ⟨g1, _⟩ | ⟨xs, ys, g1, g2, hxy⟩
    · rw [hs1] at g1
      cases g1
    · rw [hs1, hset] at g1
      rw [hs2, hset] at g2
      cases g1
      cases g2
      exact hxy

end peterjsons
